import Mathlib

/-!
# AVLTree_MultiMap: an AVL multimap with parent back-references

Shallow embedding of `src/src/AVLTree_MultiMap.hpp` (the key-routing variant) and of
`src/Lab_2-Balanced_Trees/AVLTree_MultiMap.hpp` (the height-comparison variant).

The C++ nodes live in memory and refer to each other through raw pointers
(`left`, `right`, `parent`).  The embedding keeps that: the node store is a list of
node records, an address is an index into it, a pointer is `Option Nat` (`none` is
`nullptr`), and every C++ statement that reads or writes a field is a read or a write
of the store.  A computation is `none` when it dereferences a null or dangling
pointer, or when its fuel (a bound on recursion depth / loop iterations) runs out.
-/

namespace AVL

/-! ## Data model -/

/-- Record `struct Node`: children, parent back-reference, the stored pair, cached height. -/
structure Node (T1 T2 : Type) where
  left : Option Nat
  right : Option Nat
  parent : Option Nat
  values : T1 × T2
  height : Int

/-- The node store: address `a` holds `h[a]`. `new` appends, nothing is ever freed
before the destructor runs. -/
abbrev Heap (T1 T2 : Type) := List (Node T1 T2)

/-- Container state: the node store together with the members `_root` and `_size`. -/
structure AVLTree_MultiMap (T1 T2 : Type) where
  heap : Heap T1 T2
  _root : Option Nat
  _size : Int

/-- Cursor `InOrderIterator`: a pointer to a node, `none` for the end cursor. -/
structure InOrderIterator where
  node : Option Nat
deriving DecidableEq

section Code

variable {T1 T2 : Type}

/-! ## Field reads and writes -/

/-- Read `a->left`. -/
def getLeft (h : Heap T1 T2) (a : Nat) : Option (Option Nat) := (h[a]?).map (fun n => n.left)

/-- Read `a->right`. -/
def getRight (h : Heap T1 T2) (a : Nat) : Option (Option Nat) := (h[a]?).map (fun n => n.right)

/-- Read `a->parent`. -/
def getParent (h : Heap T1 T2) (a : Nat) : Option (Option Nat) := (h[a]?).map (fun n => n.parent)

/-- Read `a->values.first`. -/
def getKey (h : Heap T1 T2) (a : Nat) : Option T1 := (h[a]?).map (fun n => n.values.1)

/-- Write `a->left = v`. -/
def setLeft (h : Heap T1 T2) (a : Nat) (v : Option Nat) : Option (Heap T1 T2) :=
  (h[a]?).map (fun n => h.set a { n with left := v })

/-- Write `a->right = v`. -/
def setRight (h : Heap T1 T2) (a : Nat) (v : Option Nat) : Option (Heap T1 T2) :=
  (h[a]?).map (fun n => h.set a { n with right := v })

/-- Write `a->parent = v`. -/
def setParent (h : Heap T1 T2) (a : Nat) (v : Option Nat) : Option (Heap T1 T2) :=
  (h[a]?).map (fun n => h.set a { n with parent := v })

/-- Write `a->height = v`. -/
def setHeight (h : Heap T1 T2) (a : Nat) (v : Int) : Option (Heap T1 T2) :=
  (h[a]?).map (fun n => h.set a { n with height := v })

/-! ## Node-level methods (shared by both variants, identical code) -/

/-- Method `get_height`: 0 for `nullptr`, the cached `height` field otherwise. -/
def get_height (h : Heap T1 T2) (node : Option Nat) : Option Int :=
  match node with
  | none => some 0
  | some a => (h[a]?).map (fun n => n.height)

/-- Method `balance_factor`: cached height of the left child minus that of the right
child, an absent child counting 0. The source subtracts two `int`s; here the
subtraction is on unbounded integers, which is the same value whenever both heights lie
in `[0, INT_MAX]` (see `HeightsInRange`), as cached subtree heights do. -/
def balance_factor (h : Heap T1 T2) (node : Nat) : Option Int := do
  let left_height ← (match (← getLeft h node) with
    | some l => (h[l]?).map (fun n => n.height)
    | none => some 0)
  let right_height ← (match (← getRight h node) with
    | some r => (h[r]?).map (fun n => n.height)
    | none => some 0)
  some (left_height - right_height)

/-- Statement `node->height = 1 + std::max(get_height(node->left), get_height(node->right))`. -/
def update_height (h : Heap T1 T2) (node : Nat) : Option (Heap T1 T2) := do
  let hl ← get_height h (← getLeft h node)
  let hr ← get_height h (← getRight h node)
  setHeight h node (1 + max hl hr)

/-- Method `right_rotate`, statement by statement. -/
def right_rotate (h : Heap T1 T2) (node : Nat) : Option (Heap T1 T2 × Nat) := do
  let long_branch ← (← getLeft h node)
  let parent ← getParent h node
  -- Rotation logic for children pointers
  let h ← setLeft h node (← getRight h long_branch)
  let h ← setRight h long_branch (some node)
  -- Rotation logic for parent pointers
  let h ← setParent h long_branch parent
  let h ← setParent h node (some long_branch)
  let h ← (match (← getLeft h node) with
    | some l => setParent h l (some node)
    | none => some h)
  let h ← update_height h node
  let h ← update_height h long_branch
  some (h, long_branch)

/-- Method `left_rotate`, statement by statement. -/
def left_rotate (h : Heap T1 T2) (node : Nat) : Option (Heap T1 T2 × Nat) := do
  let long_branch ← (← getRight h node)
  let parent ← getParent h node
  -- Rotation logic for children pointers
  let h ← setRight h node (← getLeft h long_branch)
  let h ← setLeft h long_branch (some node)
  -- Rotation logic for parent pointers
  let h ← setParent h long_branch parent
  let h ← setParent h node (some long_branch)
  let h ← (match (← getRight h node) with
    | some r => setParent h r (some node)
    | none => some h)
  let h ← update_height h node
  let h ← update_height h long_branch
  some (h, long_branch)

variable [LinearOrder T1]

/-- The descent of the private `insert(Node*, pair)`: the recursive call into the left
or the right child, storing the returned pointer in the child slot and setting the
child's `parent` (lines 113-120). `rec` is the recursive call. -/
def insert_descend (rec : Heap T1 T2 → Option Nat → Option (Heap T1 T2 × Nat))
    (h : Heap T1 T2) (node : Nat) (element : T1 × T2) : Option (Heap T1 T2) := do
  if element.1 ≤ (← getKey h node) then
    let (h, c) ← rec h (← getLeft h node)
    let h ← setLeft h node (some c)
    setParent h (← (← getLeft h node)) (some node)
  else
    let (h, c) ← rec h (← getRight h node)
    let h ← setRight h node (some c)
    setParent h (← (← getRight h node)) (some node)

/-- First `if` of the key-routing variant (src/src, lines 126-133): a left-heavy node
is repaired by a right rotation, or by a left rotation of its left child followed by a
right rotation, according to where the inserted key compares with the left child's key. -/
def rebalance_left (h : Heap T1 T2) (node : Nat) (element : T1 × T2) :
    Option (Heap T1 T2 × Nat) := do
  if (← balance_factor h node) > 1 then
    if element.1 ≤ (← getKey h (← (← getLeft h node))) then
      right_rotate h node
    else
      let (h, l) ← left_rotate h (← (← getLeft h node))
      let h ← setLeft h node (some l)
      right_rotate h node
  else some (h, node)

/-- Second `if` of the key-routing variant (src/src, lines 134-141), the mirror image. -/
def rebalance_right (h : Heap T1 T2) (node : Nat) (element : T1 × T2) :
    Option (Heap T1 T2 × Nat) := do
  if (← balance_factor h node) < -1 then
    if element.1 > (← getKey h (← (← getRight h node))) then
      left_rotate h node
    else
      let (h, r) ← right_rotate h (← (← getRight h node))
      let h ← setRight h node (some r)
      left_rotate h node
  else some (h, node)

/-- The rebalancing of the key-routing variant (src/src, lines 125-141): the two `if`s
one after the other, the second one on the `node` the first one left. -/
def rebalance (h : Heap T1 T2) (node : Nat) (element : T1 × T2) :
    Option (Heap T1 T2 × Nat) := do
  let (h, node) ← rebalance_left h node element
  rebalance_right h node element

/-- The private `insert(Node*, pair)` of src/src/AVLTree_MultiMap.hpp. `fuel` bounds
the recursion depth. Returns the new store and the root of the rebuilt subtree. -/
def insert (fuel : Nat) (h : Heap T1 T2) (node : Option Nat) (element : T1 × T2) :
    Option (Heap T1 T2 × Nat) :=
  match fuel with
  | 0 => none
  | fuel + 1 =>
    match node with
    | none => some (h ++ [⟨none, none, none, element, 1⟩], h.length)
    | some node => do
      let h ← insert_descend (insert fuel · · element) h node element
      let h ← update_height h node
      rebalance h node element

/-- First `if` of the height-comparison variant (Lab_2-Balanced_Trees, lines 126-134):
the case is chosen by comparing the cached heights of the two children of `node`. -/
def _rebalance_left (h : Heap T1 T2) (node : Nat) : Option (Heap T1 T2 × Nat) := do
  if (← balance_factor h node) > 1 then
    if (← get_height h (← getLeft h node)) > (← get_height h (← getRight h node)) then
      right_rotate h node
    else
      let (h, l) ← left_rotate h (← (← getLeft h node))
      let h ← setLeft h node (some l)
      right_rotate h node
  else some (h, node)

/-- Second `if` of the height-comparison variant (Lab_2-Balanced_Trees, lines 135-142). -/
def _rebalance_right (h : Heap T1 T2) (node : Nat) : Option (Heap T1 T2 × Nat) := do
  if (← balance_factor h node) < -1 then
    if (← get_height h (← getLeft h node)) < (← get_height h (← getRight h node)) then
      left_rotate h node
    else
      let (h, r) ← right_rotate h (← (← getRight h node))
      let h ← setRight h node (some r)
      left_rotate h node
  else some (h, node)

/-- The rebalancing of the height-comparison variant: the two `if`s one after the other. -/
def _rebalance (h : Heap T1 T2) (node : Nat) : Option (Heap T1 T2 × Nat) := do
  let (h, node) ← _rebalance_left h node
  _rebalance_right h node

/-- The private `_insert(Node*, pair)` of Lab_2-Balanced_Trees/AVLTree_MultiMap.hpp
(its `_right_rotate`, `_left_rotate`, `_get_height`, `_balance_factor` are the
methods above under another name). -/
def _insert (fuel : Nat) (h : Heap T1 T2) (node : Option Nat) (element : T1 × T2) :
    Option (Heap T1 T2 × Nat) :=
  match fuel with
  | 0 => none
  | fuel + 1 =>
    match node with
    | none => some (h ++ [⟨none, none, none, element, 1⟩], h.length)
    | some node => do
      let h ← insert_descend (_insert fuel · · element) h node element
      let h ← update_height h node
      _rebalance h node

/-! ## Public methods -/

/-- The default constructor: no nodes, `_root = nullptr`, `_size = 0`. -/
def AVLTree_MultiMap.empty : AVLTree_MultiMap T1 T2 := ⟨[], none, 0⟩

/-- Method `size()`. -/
def AVLTree_MultiMap.size (t : AVLTree_MultiMap T1 T2) : Int := t._size

/-- The public `insert(pair)` of src/src: `_root = insert(_root, element); _size++`.
The recursion depth never exceeds the number of nodes plus one. -/
def AVLTree_MultiMap.insert (t : AVLTree_MultiMap T1 T2) (element : T1 × T2) :
    Option (AVLTree_MultiMap T1 T2) := do
  let (h, r) ← AVL.insert (t.heap.length + 1) t.heap t._root element
  some ⟨h, some r, t._size + 1⟩

/-- The public `insert(pair)` of Lab_2-Balanced_Trees. -/
def AVLTree_MultiMap._insert (t : AVLTree_MultiMap T1 T2) (element : T1 × T2) :
    Option (AVLTree_MultiMap T1 T2) := do
  let (h, r) ← AVL._insert (t.heap.length + 1) t.heap t._root element
  some ⟨h, some r, t._size + 1⟩

/-- The loop of `lower_bound`: `node` and `best` are the two local variables. -/
def lower_bound_loop (fuel : Nat) (h : Heap T1 T2) (first : T1) (node best : Option Nat) :
    Option (Option Nat) :=
  match fuel with
  | 0 => none
  | fuel + 1 =>
    match node with
    | none => some best
    | some a => do
      if first ≤ (← getKey h a) then
        lower_bound_loop fuel h first (← getLeft h a) (some a)
      else
        lower_bound_loop fuel h first (← getRight h a) best

/-- Method `lower_bound`. -/
def AVLTree_MultiMap.lower_bound (t : AVLTree_MultiMap T1 T2) (first : T1) :
    Option InOrderIterator :=
  (lower_bound_loop (t.heap.length + 1) t.heap first t._root none).map InOrderIterator.mk

/-- The loop of `upper_bound`. -/
def upper_bound_loop (fuel : Nat) (h : Heap T1 T2) (last : T1) (node best : Option Nat) :
    Option (Option Nat) :=
  match fuel with
  | 0 => none
  | fuel + 1 =>
    match node with
    | none => some best
    | some a => do
      if last < (← getKey h a) then
        upper_bound_loop fuel h last (← getLeft h a) (some a)
      else
        upper_bound_loop fuel h last (← getRight h a) best

/-- Method `upper_bound`. -/
def AVLTree_MultiMap.upper_bound (t : AVLTree_MultiMap T1 T2) (last : T1) :
    Option InOrderIterator :=
  (upper_bound_loop (t.heap.length + 1) t.heap last t._root none).map InOrderIterator.mk

end Code

section Cursor

variable {T1 T2 : Type}

/-- Cursor `operator*`: the pair stored in the node the cursor points to. -/
def InOrderIterator.deref (h : Heap T1 T2) (it : InOrderIterator) : Option (T1 × T2) := do
  let n ← h[← it.node]?
  some n.values

/-- Loop `while(current->left) current = current->left;` of `operator++`. -/
def descend_left (fuel : Nat) (h : Heap T1 T2) (current : Nat) : Option Nat :=
  match fuel with
  | 0 => none
  | fuel + 1 => do
    match (← getLeft h current) with
    | some l => descend_left fuel h l
    | none => some current

/-- Loop `while(current->parent) ...` of `operator++`, with the final `node = nullptr`:
the result is the new value of `node`. -/
def climb (fuel : Nat) (h : Heap T1 T2) (current : Nat) : Option (Option Nat) :=
  match fuel with
  | 0 => none
  | fuel + 1 => do
    match (← getParent h current) with
    | none => some none
    | some p =>
      if some current = (← getLeft h p) then some (some p)
      else climb fuel h p

/-- Cursor `operator++` (src/src, lines 242-276). -/
def InOrderIterator.advance (h : Heap T1 T2) (it : InOrderIterator) : Option InOrderIterator :=
  match it.node with
  | none => some it
  | some node => do
    match (← getRight h node) with
    | some r => some ⟨some (← descend_left (h.length + 1) h r)⟩
    | none => some ⟨← climb (h.length + 1) h node⟩

/-- A client loop `for(it = start; it != end; ++it) out.push_back(*it)`; every
iteration outputs one node, so `fuel` bounds the number of nodes visited. -/
def traverse (fuel : Nat) (h : Heap T1 T2) (it : InOrderIterator) : Option (List (T1 × T2)) :=
  match fuel with
  | 0 => none
  | fuel + 1 =>
    if it = ⟨none⟩ then some []
    else do
      let v ← it.deref h
      let it ← it.advance h
      let rest ← traverse fuel h it
      some (v :: rest)

end Cursor

section Runs

variable {T1 T2 : Type} [LinearOrder T1]

/-- A sequence of public `insert` calls on a container (src/src). -/
def insertAll (t : AVLTree_MultiMap T1 T2) : List (T1 × T2) → Option (AVLTree_MultiMap T1 T2)
  | [] => some t
  | e :: es => (t.insert e).bind (fun t => insertAll t es)

/-- A sequence of public `insert` calls on a container (Lab_2-Balanced_Trees). -/
def _insertAll (t : AVLTree_MultiMap T1 T2) : List (T1 × T2) → Option (AVLTree_MultiMap T1 T2)
  | [] => some t
  | e :: es => (t._insert e).bind (fun t => _insertAll t es)

/-- The container reached from a freshly constructed one by inserting `es` in order. -/
def build (es : List (T1 × T2)) : Option (AVLTree_MultiMap T1 T2) :=
  insertAll AVLTree_MultiMap.empty es

/-- Same, for the height-comparison variant. -/
def _build (es : List (T1 × T2)) : Option (AVLTree_MultiMap T1 T2) :=
  _insertAll AVLTree_MultiMap.empty es

end Runs

/-! ## The tree stored in the node store

`Tree` is the shape read off the store by following `left` / `right` from a pointer:
every node carries its address, its stored pair and its cached height. The `parent`
fields are not part of it; `Rep` below relates them to the shape. -/

/-- The tree of nodes below a pointer, each node with its address and cached height. -/
inductive Tree (T1 T2 : Type) where
  | nil : Tree T1 T2
  | node (addr : Nat) (left : Tree T1 T2) (values : T1 × T2) (height : Int)
      (right : Tree T1 T2) : Tree T1 T2

section TreeDefs

variable {T1 T2 : Type}

/-- Read the tree below pointer `p` off the store; `none` on a dangling pointer or when
the tree is deeper than `fuel`. -/
def readTree (fuel : Nat) (h : Heap T1 T2) (p : Option Nat) : Option (Tree T1 T2) :=
  match p with
  | none => some Tree.nil
  | some a =>
    match fuel with
    | 0 => none
    | fuel + 1 => do
      let n ← h[a]?
      let l ← readTree fuel h n.left
      let r ← readTree fuel h n.right
      some (Tree.node a l n.values n.height r)

/-- The tree of a container: what is reachable from `_root`. -/
def AVLTree_MultiMap.tree (t : AVLTree_MultiMap T1 T2) : Option (Tree T1 T2) :=
  readTree t.heap.length t.heap t._root

namespace Tree

/-- The pointer to the root of a tree. -/
def ptr : Tree T1 T2 → Option Nat
  | nil => none
  | node a _ _ _ _ => some a

/-- What `get_height` returns on the root pointer: 0 for the empty tree, the cached
height of the root otherwise. -/
def cached : Tree T1 T2 → Int
  | nil => 0
  | node _ _ _ h _ => h

/-- The true structural height: number of nodes on the longest downward path. -/
def depth : Tree T1 T2 → Nat
  | nil => 0
  | node _ l _ _ r => 1 + max l.depth r.depth

/-- In-order sequence of the nodes: address and stored pair. -/
def nodes : Tree T1 T2 → List (Nat × (T1 × T2))
  | nil => []
  | node a l v _ r => l.nodes ++ (a, v) :: r.nodes

/-- In-order sequence of the node addresses. -/
def addrs : Tree T1 T2 → List Nat
  | nil => []
  | node a l _ _ r => l.addrs ++ a :: r.addrs

/-- In-order sequence of the stored pairs. -/
def toList : Tree T1 T2 → List (T1 × T2)
  | nil => []
  | node _ l v _ r => l.toList ++ v :: r.toList

/-- Every node satisfies `|height(left) - height(right)| ≤ 1`, heights as `get_height`
reports them (cached field, 0 for an absent child). -/
def Balanced : Tree T1 T2 → Prop
  | nil => True
  | node _ l _ _ r => |l.cached - r.cached| ≤ 1 ∧ l.Balanced ∧ r.Balanced

/-- Every node satisfies `|depth(left) - depth(right)| ≤ 1` for the structural height. -/
def DepthBalanced : Tree T1 T2 → Prop
  | nil => True
  | node _ l _ _ r => |(l.depth : Int) - (r.depth : Int)| ≤ 1 ∧ l.DepthBalanced ∧ r.DepthBalanced

/-- Every node's cached height is `1 + max(height(left), height(right))`, with
`height(nil) = 0`. -/
def HeightOk : Tree T1 T2 → Prop
  | nil => True
  | node _ l _ h r => h = 1 + max l.cached r.cached ∧ l.HeightOk ∧ r.HeightOk

/-- Every node's cached height is the structural height of its subtree. -/
def HeightTrue : Tree T1 T2 → Prop
  | nil => True
  | node a l v h r => h = ((node a l v h r).depth : Int) ∧ l.HeightTrue ∧ r.HeightTrue

variable [LinearOrder T1]

/-- The ordering invariant as the specification words it: at every node, every key
in the left subtree is `≤` the node's key and every key in the right subtree is
strictly `>` it. -/
def StrictBST : Tree T1 T2 → Prop
  | nil => True
  | node _ l v _ r =>
    (∀ x ∈ l.toList, x.1 ≤ v.1) ∧ (∀ x ∈ r.toList, v.1 < x.1) ∧ l.StrictBST ∧ r.StrictBST

/-- The ordering invariant with a non-strict right side: at every node, every key in
the left subtree is `≤` the node's key and every key in the right subtree is `≥` it. -/
def WeakBST : Tree T1 T2 → Prop
  | nil => True
  | node _ l v _ r =>
    (∀ x ∈ l.toList, x.1 ≤ v.1) ∧ (∀ x ∈ r.toList, v.1 ≤ x.1) ∧ l.WeakBST ∧ r.WeakBST

end Tree

/-- The store represents tree `t` below a node whose `parent` field is `par`: every
node of `t` is stored at its address with exactly the child pointers, pair and
cached height the tree shows, and with its `parent` field pointing to the node
above it (`par` for the root of `t`). -/
def Rep (h : Heap T1 T2) : Option Nat → Tree T1 T2 → Prop
  | _, Tree.nil => True
  | par, Tree.node a l v ht r =>
    h[a]? = some ⟨l.ptr, r.ptr, par, v, ht⟩ ∧ Rep h (some a) l ∧ Rep h (some a) r

/-- What a store-level step on the subtree below `x` guarantees: it returns the root of
the tree `t'`, the store represents `t'` under the same parent, no node is allocated and
nothing outside the old subtree `t` is touched. -/
def StepOk (h : Heap T1 T2) (par : Option Nat) (t t' : Tree T1 T2)
    (res : Option (Heap T1 T2 × Nat)) : Prop :=
  ∃ h' a, res = some (h', a) ∧ t'.ptr = some a ∧ Rep h' par t' ∧ h'.length = h.length ∧
    ∀ q, q ∉ t.addrs → h'[q]? = h[q]?

end TreeDefs

/-! ## The node-level methods as functions on trees

What `update_height`, the rotations, `rebalance` and `insert` do to the tree below
the pointer they are given. `ins_refines` below proves that the store-level methods
compute exactly these. -/

namespace Tree

variable {T1 T2 : Type}

/-- Effect of `update_height` on the root. -/
def fix : Tree T1 T2 → Tree T1 T2
  | nil => nil
  | node a l v _ r => node a l v (1 + max l.cached r.cached) r

/-- Effect of `right_rotate` on the tree below `node`; `none` when `node->left` is null. -/
def rotR : Tree T1 T2 → Option (Tree T1 T2)
  | node x (node y a vy _ b) vx _ c =>
    some (node y a vy (1 + max a.cached (1 + max b.cached c.cached))
      (node x b vx (1 + max b.cached c.cached) c))
  | _ => none

/-- Effect of `left_rotate` on the tree below `node`; `none` when `node->right` is null. -/
def rotL : Tree T1 T2 → Option (Tree T1 T2)
  | node x a vx _ (node y b vy _ c) =>
    some (node y (node x a vx (1 + max a.cached b.cached) b) vy
      (1 + max (1 + max a.cached b.cached) c.cached) c)
  | _ => none

/-- What `balance_factor` returns on the root. -/
def bf : Tree T1 T2 → Int
  | nil => 0
  | node _ l _ _ r => l.cached - r.cached

variable [LinearOrder T1]

/-- Effect of the first `if` of `rebalance` (left-heavy). -/
def rebalLeft (e : T1 × T2) (t : Tree T1 T2) : Option (Tree T1 T2) :=
  if t.bf > 1 then
    match t with
    | node x (node y a vy hy b) vx hx c =>
      if e.1 ≤ vy.1 then rotR (node x (node y a vy hy b) vx hx c)
      else (rotL (node y a vy hy b)).bind (fun l => rotR (node x l vx hx c))
    | _ => none
  else some t

/-- Effect of the second `if` of `rebalance` (right-heavy). -/
def rebalRight (e : T1 × T2) (t : Tree T1 T2) : Option (Tree T1 T2) :=
  if t.bf < -1 then
    match t with
    | node x a vx hx (node y b vy hy c) =>
      if e.1 > vy.1 then rotL (node x a vx hx (node y b vy hy c))
      else (rotR (node y b vy hy c)).bind (fun r => rotL (node x a vx hx r))
    | _ => none
  else some t

/-- Effect of `rebalance`. -/
def rebal (e : T1 × T2) (t : Tree T1 T2) : Option (Tree T1 T2) :=
  (rebalLeft e t).bind (rebalRight e)

/-- Effect of the private `insert(Node*, pair)`; `fresh` is the address `new` returns. -/
def ins (fresh : Nat) (e : T1 × T2) : Tree T1 T2 → Option (Tree T1 T2)
  | nil => some (node fresh nil e 1 nil)
  | node a l v h r =>
    (if e.1 ≤ v.1 then (ins fresh e l).map (fun l => node a l v h r)
     else (ins fresh e r).map (fun r => node a l v h r)).bind (fun t => rebal e t.fix)

/-- The invariant of the key-routing `insert`: cached heights are right and every
node is balanced. -/
def Inv : Tree T1 T2 → Prop
  | nil => True
  | node _ l _ h r =>
    h = 1 + max l.cached r.cached ∧ l.cached - r.cached ≤ 1 ∧ r.cached - l.cached ≤ 1 ∧
      l.Inv ∧ r.Inv

/-- When `insert` made the subtree taller without rotating at its root, the taller side
is the one the inserted key was routed to. -/
def Grew (e : T1 × T2) : Tree T1 T2 → Tree T1 T2 → Prop
  | nil, _ => True
  | node _ _ _ _ _, nil => False
  | node _ _ v _ _, node _ l w _ r =>
    w = v ∧ (e.1 ≤ v.1 → r.cached < l.cached) ∧ (¬ e.1 ≤ v.1 → l.cached < r.cached)

end Tree

/-- Order on stored pairs by key only. -/
def keyLE {T1 T2 : Type} [LinearOrder T1] (x y : T1 × T2) : Prop := x.1 ≤ y.1

instance {T1 T2 : Type} [LinearOrder T1] : DecidableRel (keyLE : T1 × T2 → T1 × T2 → Prop) :=
  fun x y => inferInstanceAs (Decidable (x.1 ≤ y.1))

instance {T1 T2 : Type} [LinearOrder T1] : IsTotal (T1 × T2) keyLE :=
  ⟨fun x y => le_total x.1 y.1⟩

instance {T1 T2 : Type} [LinearOrder T1] : IsTrans (T1 × T2) keyLE :=
  ⟨fun _ _ _ hab hbc => le_trans hab hbc⟩

/-- Order on nodes by key only. -/
def nodeLE {T1 T2 : Type} [LinearOrder T1] (x y : Nat × (T1 × T2)) : Prop := x.2.1 ≤ y.2.1

instance {T1 T2 : Type} [LinearOrder T1] :
    DecidableRel (nodeLE : Nat × (T1 × T2) → Nat × (T1 × T2) → Prop) :=
  fun x y => inferInstanceAs (Decidable (x.2.1 ≤ y.2.1))

instance {T1 T2 : Type} [LinearOrder T1] : IsTotal (Nat × (T1 × T2)) nodeLE :=
  ⟨fun x y => le_total x.2.1 y.2.1⟩

instance {T1 T2 : Type} [LinearOrder T1] : IsTrans (Nat × (T1 × T2)) nodeLE :=
  ⟨fun _ _ _ hab hbc => le_trans hab hbc⟩

/-- The container state is well formed and represents the tree `t`. -/
structure Good {T1 T2 : Type} [LinearOrder T1] (c : AVLTree_MultiMap T1 T2) (t : Tree T1 T2) :
    Prop where
  root : c._root = t.ptr
  rep : Rep c.heap none t
  nodup : t.addrs.Nodup
  all : ∀ a, a < c.heap.length → a ∈ t.addrs
  inv : t.Inv
  sorted : t.nodes.Sorted nodeLE

/-- The element that follows `a` in the list, `d` when `a` is the last one. -/
def nextIn (d : Option Nat) : List Nat → Nat → Option Nat
  | [], _ => d
  | b :: l, a => if b = a then (l.head?).or d else nextIn d l a

/-- The non-empty subtrees of a tree: the tree itself and the subtrees of its children. -/
def Tree.subtrees {T1 T2 : Type} : Tree T1 T2 → List (Tree T1 T2)
  | .nil => []
  | .node a l v h r => .node a l v h r :: (l.subtrees ++ r.subtrees)

/-- The value a 32-bit two's-complement `int` holds after a computation whose
mathematical result is `z`: `z` itself when `z` is in `[INT_MIN, INT_MAX]`, the
wrapped-around value otherwise. -/
def int32 (z : Int) : Int := (z + 2147483648) % 4294967296 - 2147483648

/-- The two heights `balance_factor` subtracts at `node`, which are what `get_height`
reports for the children of `node`, lie in `[0, INT_MAX]` for a 32-bit `int`. The data
model has cached heights `≥ 1` and counts an absent child 0; in this range the
source's `int` subtraction cannot overflow. -/
def HeightsInRange {T1 T2 : Type} (h : Heap T1 T2) (node : Nat) : Prop :=
  ∀ n p q, h[node]? = some n → get_height h n.left = some p → get_height h n.right = some q →
    (0 ≤ p ∧ p ≤ 2147483647) ∧ (0 ≤ q ∧ q ≤ 2147483647)

/-! ## Facts about the functional model -/

namespace Tree

section PureLemmas

variable {T1 T2 : Type}

@[simp] theorem cached_nil : (nil : Tree T1 T2).cached = 0 := rfl
@[simp] theorem cached_node (a : Nat) (l r : Tree T1 T2) (v : T1 × T2) (h : Int) :
    (node a l v h r).cached = h := rfl
@[simp] theorem bf_node (a : Nat) (l r : Tree T1 T2) (v : T1 × T2) (h : Int) :
    (node a l v h r).bf = l.cached - r.cached := rfl
@[simp] theorem fix_node (a : Nat) (l r : Tree T1 T2) (v : T1 × T2) (h : Int) :
    (node a l v h r).fix = node a l v (1 + max l.cached r.cached) r := rfl
@[simp] theorem rotR_node (x y : Nat) (a b c : Tree T1 T2) (vx vy : T1 × T2) (hx hy : Int) :
    (node x (node y a vy hy b) vx hx c).rotR =
      some (node y a vy (1 + max a.cached (1 + max b.cached c.cached))
        (node x b vx (1 + max b.cached c.cached) c)) := rfl
@[simp] theorem rotL_node (x y : Nat) (a b c : Tree T1 T2) (vx vy : T1 × T2) (hx hy : Int) :
    (node x a vx hx (node y b vy hy c)).rotL =
      some (node y (node x a vx (1 + max a.cached b.cached) b) vy
        (1 + max (1 + max a.cached b.cached) c.cached) c) := rfl

theorem Inv.cached_nonneg : ∀ {t : Tree T1 T2}, t.Inv → 0 ≤ t.cached
  | nil, _ => by simp
  | node _ l _ h r, hi => by
    obtain ⟨hh, _, _, hl, hr⟩ := hi
    have := Inv.cached_nonneg hl
    have := Inv.cached_nonneg hr
    simp only [cached_node]; omega

variable [LinearOrder T1]

theorem rebalRight_of_ge (e : T1 × T2) (t : Tree T1 T2) (h : ¬ t.bf < -1) :
    rebalRight e t = some t := by
  simp only [rebalRight, if_neg h]

theorem rebalLeft_of_le (e : T1 × T2) (t : Tree T1 T2) (h : ¬ t.bf > 1) :
    rebalLeft e t = some t := by
  simp only [rebalLeft, if_neg h]

/-- The left-heavy repair restores the invariant and the old height. -/
theorem rebal_left_inv (e : T1 × T2) (x : Nat) (l l' r : Tree T1 T2) (v : T1 × T2) (h : Int)
    (hl : l.Inv) (hl' : l'.Inv) (hr : r.Inv)
    (hbal1 : l.cached - r.cached ≤ 1) (hbal2 : r.cached - l.cached ≤ 1)
    (hc : l'.cached = l.cached ∨ l'.cached = l.cached + 1)
    (hg : l'.cached = l.cached + 1 → Grew e l l') (hne : l' ≠ nil) :
    ∃ t', rebal e (node x l' v h r).fix = some t' ∧ t'.Inv ∧
      (t'.cached = 1 + max l.cached r.cached ∨ t'.cached = 1 + max l.cached r.cached + 1) ∧
      (t'.cached = 1 + max l.cached r.cached + 1 →
        ∃ h', t' = node x l' v h' r ∧ r.cached < l'.cached) ∧ t' ≠ nil := by
  have hln := Inv.cached_nonneg hl
  have hrn := Inv.cached_nonneg hr
  by_cases hb : l'.cached - r.cached > 1
  · -- left-heavy: the left subtree grew
    have hgrow : l'.cached = l.cached + 1 := by omega
    have hG := hg hgrow
    cases l with
    | nil => simp at hgrow hbal2 hb; omega
    | node y0 a0 vy0 hy0 b0 =>
      cases l' with
      | nil => exact absurd rfl hne
      | node y a vy hy b =>
        obtain ⟨hvy, hG1, hG2⟩ := hG
        obtain ⟨hhy, hab1, hab2, ha, hbI⟩ := hl'
        have han := Inv.cached_nonneg ha
        have hbn := Inv.cached_nonneg hbI
        simp only [cached_node] at hb hgrow hbal1 hbal2 hc hln
        rw [← hvy] at hG1 hG2
        by_cases hk : e.1 ≤ vy.1
        · have := hG1 hk
          refine ⟨node y a vy (1 + max a.cached (1 + max b.cached r.cached))
            (node x b v (1 + max b.cached r.cached) r), ?_, ?_, ?_, ?_, by simp⟩
          · have h0 : (node x (node y a vy hy b) v (1 + max hy r.cached) r).bf > 1 := by
              simpa using hb
            simp only [rebal, rebalLeft, fix_node, cached_node, if_pos h0, if_pos hk, rotR_node,
              Option.some_bind]
            exact rebalRight_of_ge _ _ (by simp only [bf_node, cached_node]; omega)
          · simp only [Inv, cached_node]
            refine ⟨trivial, by omega, by omega, ha, trivial, by omega, by omega, hbI, hr⟩
          · simp only [cached_node]; left; omega
          · simp only [cached_node]; intro h; omega
        · have hlt := hG2 hk
          cases b with
          | nil => simp at hlt; omega
          | node z bl vz hz br =>
            obtain ⟨hhz, hz1, hz2, hbl, hbr⟩ := hbI
            have hbln := Inv.cached_nonneg hbl
            have hbrn := Inv.cached_nonneg hbr
            simp only [cached_node] at hlt hhy hab1 hab2 hbn
            refine ⟨node z (node y a vy (1 + max a.cached bl.cached) bl) vz
              (1 + max (1 + max a.cached bl.cached) (1 + max br.cached r.cached))
              (node x br v (1 + max br.cached r.cached) r), ?_, ?_, ?_, ?_, by simp⟩
            · have h0 : (node x (node y a vy hy (node z bl vz hz br)) v
                  (1 + max hy r.cached) r).bf > 1 := by simpa using hb
              simp only [rebal, rebalLeft, fix_node, cached_node, if_pos h0, if_neg hk, rotR_node,
                rotL_node, Option.some_bind]
              exact rebalRight_of_ge _ _ (by simp only [bf_node, cached_node]; omega)
            · simp only [Inv, cached_node]
              refine ⟨trivial, by omega, by omega, ⟨trivial, by omega, by omega, ha, hbl⟩,
                trivial, by omega, by omega, hbr, hr⟩
            · simp only [cached_node]; left; omega
            · simp only [cached_node]; intro h; omega
  · have h1 : ¬ (l'.cached - r.cached < -1) := by omega
    refine ⟨node x l' v (1 + max l'.cached r.cached) r, ?_, ?_, ?_, ?_, by simp⟩
    · simp only [rebal, fix_node]
      rw [rebalLeft_of_le _ _ (by simpa using hb)]
      exact rebalRight_of_ge _ _ (by simpa using h1)
    · exact ⟨rfl, by omega, by omega, hl', hr⟩
    · simp only [cached_node]; omega
    · simp only [cached_node]; intro h; exact ⟨_, rfl, by omega⟩

/-- The right-heavy repair restores the invariant and the old height. -/
theorem rebal_right_inv (e : T1 × T2) (x : Nat) (l r r' : Tree T1 T2) (v : T1 × T2) (h : Int)
    (hl : l.Inv) (hr : r.Inv) (hr' : r'.Inv)
    (hbal1 : l.cached - r.cached ≤ 1) (hbal2 : r.cached - l.cached ≤ 1)
    (hc : r'.cached = r.cached ∨ r'.cached = r.cached + 1)
    (hg : r'.cached = r.cached + 1 → Grew e r r') (hne : r' ≠ nil) :
    ∃ t', rebal e (node x l v h r').fix = some t' ∧ t'.Inv ∧
      (t'.cached = 1 + max l.cached r.cached ∨ t'.cached = 1 + max l.cached r.cached + 1) ∧
      (t'.cached = 1 + max l.cached r.cached + 1 →
        ∃ h', t' = node x l v h' r' ∧ l.cached < r'.cached) ∧ t' ≠ nil := by
  have hln := Inv.cached_nonneg hl
  have hrn := Inv.cached_nonneg hr
  have h0 : ¬ (node x l v (1 + max l.cached r'.cached) r').bf > 1 := by
    simp only [bf_node]; omega
  simp only [rebal, fix_node, rebalLeft_of_le _ _ h0, Option.some_bind]
  by_cases hb : l.cached - r'.cached < -1
  · -- right-heavy: the right subtree grew
    have hgrow : r'.cached = r.cached + 1 := by omega
    have hG := hg hgrow
    cases r with
    | nil => simp at hgrow hbal1 hb; omega
    | node y0 b0 vy0 hy0 c0 =>
      cases r' with
      | nil => exact absurd rfl hne
      | node y b vy hy c =>
        obtain ⟨hvy, hG1, hG2⟩ := hG
        obtain ⟨hhy, hbc1, hbc2, hbI, hcI⟩ := hr'
        have hbn := Inv.cached_nonneg hbI
        have hcn := Inv.cached_nonneg hcI
        simp only [cached_node] at hb hgrow hbal1 hbal2 hc hrn
        rw [← hvy] at hG1 hG2
        have h1 : (node x l v (1 + max l.cached hy) (node y b vy hy c)).bf < -1 := by
          simpa using hb
        by_cases hk : e.1 > vy.1
        · have := hG2 (not_le.mpr hk)
          refine ⟨node y (node x l v (1 + max l.cached b.cached) b) vy
            (1 + max (1 + max l.cached b.cached) c.cached) c, ?_, ?_, ?_, ?_, by simp⟩
          · simp only [rebalRight, cached_node, if_pos h1, if_pos hk, rotL_node]
          · simp only [Inv, cached_node]
            refine ⟨trivial, by omega, by omega, ⟨trivial, by omega, by omega, hl, hbI⟩, hcI⟩
          · simp only [cached_node]; left; omega
          · simp only [cached_node]; intro h; omega
        · have hlt := hG1 (not_lt.mp hk)
          cases b with
          | nil => simp at hlt; omega
          | node z bl vz hz br =>
            obtain ⟨hhz, hz1, hz2, hbl, hbr⟩ := hbI
            have hbln := Inv.cached_nonneg hbl
            have hbrn := Inv.cached_nonneg hbr
            simp only [cached_node] at hlt hhy hbc1 hbc2 hbn
            clear h0 hg
            refine ⟨node z (node x l v (1 + max l.cached bl.cached) bl) vz
              (1 + max (1 + max l.cached bl.cached) (1 + max br.cached c.cached))
              (node y br vy (1 + max br.cached c.cached) c), ?_, ?_, ?_, ?_, by simp⟩
            · simp only [rebalRight, cached_node, if_pos h1, if_neg hk, rotL_node, rotR_node,
                Option.some_bind]
            · clear h1
              simp only [Inv, cached_node]
              refine ⟨trivial, by omega, by omega, ⟨trivial, by omega, by omega, hl, hbl⟩,
                trivial, by omega, by omega, hbr, hcI⟩
            · simp only [cached_node]; left; omega
            · simp only [cached_node]; intro h; omega
  · refine ⟨node x l v (1 + max l.cached r'.cached) r', ?_, ?_, ?_, ?_, by simp⟩
    · exact rebalRight_of_ge _ _ (by simpa using hb)
    · exact ⟨rfl, by omega, by omega, hl, hr'⟩
    · simp only [cached_node]; omega
    · simp only [cached_node]; intro h; exact ⟨_, rfl, by omega⟩

/-- Key-routing `insert` keeps the invariant; the height stays or grows by one, and when
it grows the root is unchanged and its taller side is the side the key went to. -/
theorem ins_inv (f : Nat) (e : T1 × T2) :
    ∀ t : Tree T1 T2, t.Inv → ∃ t', t.ins f e = some t' ∧ t'.Inv ∧
      (t'.cached = t.cached ∨ t'.cached = t.cached + 1) ∧
      (t'.cached = t.cached + 1 → Grew e t t') ∧ t' ≠ nil
  | nil, _ => ⟨node f nil e 1 nil, rfl, by simp [Inv], by simp, fun _ => trivial, by simp⟩
  | node x l v h r, hi => by
    obtain ⟨hh, hb1, hb2, hl, hr⟩ := hi
    by_cases hk : e.1 ≤ v.1
    · obtain ⟨l', hl1, hl2, hl3, hl4, hl5⟩ := ins_inv f e l hl
      obtain ⟨t', ht1, ht2, ht3, ht4, ht5⟩ :=
        rebal_left_inv e x l l' r v h hl hl2 hr hb1 hb2 hl3 hl4 hl5
      refine ⟨t', ?_, ht2, ?_, ?_, ht5⟩
      · simp only [ins, if_pos hk, hl1, Option.map_some', Option.some_bind, ht1]
      · simpa only [cached_node, hh] using ht3
      · intro hgrow
        obtain ⟨h', rfl, hlt⟩ := ht4 (by simpa only [cached_node, hh] using hgrow)
        exact ⟨rfl, fun _ => hlt, fun hn => absurd hk hn⟩
    · obtain ⟨r', hr1, hr2, hr3, hr4, hr5⟩ := ins_inv f e r hr
      obtain ⟨t', ht1, ht2, ht3, ht4, ht5⟩ :=
        rebal_right_inv e x l r r' v h hl hr hr2 hb1 hb2 hr3 hr4 hr5
      refine ⟨t', ?_, ht2, ?_, ?_, ht5⟩
      · simp only [ins, if_neg hk, hr1, Option.map_some', Option.some_bind, ht1]
      · simpa only [cached_node, hh] using ht3
      · intro hgrow
        obtain ⟨h', rfl, hlt⟩ := ht4 (by simpa only [cached_node, hh] using hgrow)
        exact ⟨rfl, fun hn => absurd hn hk, fun _ => hlt⟩

end PureLemmas

end Tree

/-! ## The store-level methods compute the functional model -/

section Refinement

variable {T1 T2 : Type}

theorem lookup_set {h : Heap T1 T2} {a : Nat} {n : Node T1 T2} (ha : h[a]? = some n)
    (m : Node T1 T2) (b : Nat) : (h.set a m)[b]? = if a = b then some m else h[b]? := by
  rw [List.getElem?_set]
  split
  · have : a < h.length := by
      by_contra hlt
      rw [List.getElem?_eq_none (not_lt.mp hlt)] at ha
      exact absurd ha (by simp)
    simp [this]
  · rfl

@[simp] theorem Tree.ptr_nil : (Tree.nil : Tree T1 T2).ptr = none := rfl
@[simp] theorem Tree.ptr_node (a : Nat) (l r : Tree T1 T2) (v : T1 × T2) (h : Int) :
    (Tree.node a l v h r).ptr = some a := rfl
@[simp] theorem Tree.addrs_nil : (Tree.nil : Tree T1 T2).addrs = [] := rfl
@[simp] theorem Tree.addrs_node (a : Nat) (l r : Tree T1 T2) (v : T1 × T2) (h : Int) :
    (Tree.node a l v h r).addrs = l.addrs ++ a :: r.addrs := rfl

theorem Rep.frame {h h' : Heap T1 T2} : ∀ {t : Tree T1 T2} {par : Option Nat},
    (∀ a ∈ t.addrs, h'[a]? = h[a]?) → Rep h par t → Rep h' par t
  | .nil, _, _, _ => trivial
  | .node a l v ht r, par, hf, ⟨h1, h2, h3⟩ => by
    refine ⟨?_, Rep.frame (fun q hq => hf q ?_) h2, Rep.frame (fun q hq => hf q ?_) h3⟩
    · rw [hf a (by simp)]; exact h1
    · simp [hq]
    · simp [hq]

theorem Rep.get_height {h : Heap T1 T2} {t : Tree T1 T2} {par : Option Nat} (hr : Rep h par t) :
    get_height h t.ptr = some t.cached := by
  cases t with
  | nil => rfl
  | node a l v ht r => simp [AVL.get_height, hr.1]

/-- Changing the `parent` field of the root re-parents the represented tree. -/
theorem Rep.reparent {h : Heap T1 T2} {a : Nat} {l r : Tree T1 T2} {v : T1 × T2} {ht : Int}
    {par : Option Nat} (hr : Rep h par (.node a l v ht r)) (hnd : (Tree.node a l v ht r).addrs.Nodup)
    (q : Option Nat) :
    ∃ h', setParent h a q = some h' ∧ Rep h' q (.node a l v ht r) ∧ h'.length = h.length ∧
      ∀ b, b ≠ a → h'[b]? = h[b]? := by
  obtain ⟨h1, h2, h3⟩ := hr
  refine ⟨h.set a ⟨l.ptr, r.ptr, q, v, ht⟩, by simp [setParent, h1], ?_, by simp, ?_⟩
  · simp only [Tree.addrs_node, List.nodup_append, List.nodup_cons] at hnd
    refine ⟨by simp [lookup_set h1], Rep.frame (fun b hb => ?_) h2, Rep.frame (fun b hb => ?_) h3⟩
    · rw [lookup_set h1, if_neg]
      rintro rfl
      exact hnd.2.2 hb (by simp)
    · rw [lookup_set h1, if_neg]
      rintro rfl
      exact hnd.2.1.1 hb
  · intro b hb
    rw [lookup_set h1, if_neg (Ne.symm hb)]

theorem lt_length_of_lookup {h : Heap T1 T2} {a : Nat} {n : Node T1 T2} (ha : h[a]? = some n) :
    a < h.length := by
  by_contra hlt
  rw [List.getElem?_eq_none (not_lt.mp hlt)] at ha
  exact absurd ha (by simp)

theorem Tree.ptr_ne_of_not_mem {t : Tree T1 T2} {q : Nat} (hq : q ∉ t.addrs) : t.ptr ≠ some q := by
  cases t with
  | nil => simp
  | node a l v ht r =>
    simp only [Tree.addrs_node, List.mem_append, List.mem_cons, not_or] at hq
    simp only [Tree.ptr_node, ne_eq, Option.some.injEq]
    exact fun h => hq.2.1 h.symm

theorem get_height_set {h : Heap T1 T2} {q : Nat} {m : Node T1 T2} {p : Option Nat}
    (hp : p ≠ some q) : get_height (h.set q m) p = get_height h p := by
  cases p with
  | none => rfl
  | some a =>
    have : q ≠ a := fun e => hp (by rw [e])
    simp only [get_height, List.getElem?_set, if_neg this]

theorem update_height_eq {h : Heap T1 T2} {a : Nat} {n : Node T1 T2} {p q : Int}
    (ha : h[a]? = some n) (h1 : get_height h n.left = some p)
    (h2 : get_height h n.right = some q) :
    update_height h a = some (h.set a { n with height := 1 + max p q }) := by
  simp only [update_height, getLeft, getRight, setHeight, ha, Option.map_some',
    Option.bind_eq_bind, Option.some_bind, h1, h2]

theorem right_rotate_rep {h : Heap T1 T2} {par : Option Nat} {x y : Nat} {a b c : Tree T1 T2}
    {vx vy : T1 × T2} {hx hy : Int}
    (hrep : Rep h par (.node x (.node y a vy hy b) vx hx c))
    (hnd : (Tree.node x (.node y a vy hy b) vx hx c).addrs.Nodup) :
    ∃ h', right_rotate h x = some (h', y) ∧
      Rep h' par (.node y a vy (1 + max a.cached (1 + max b.cached c.cached))
        (.node x b vx (1 + max b.cached c.cached) c)) ∧
      h'.length = h.length ∧
      ∀ q, q ∉ (Tree.node x (.node y a vy hy b) vx hx c).addrs → h'[q]? = h[q]? := by
  obtain ⟨h1, ⟨h2, ha, hb⟩, hc⟩ := hrep
  simp only [Tree.addrs_node, List.nodup_append, List.nodup_cons, List.mem_append, List.mem_cons,
    List.disjoint_cons_right, List.disjoint_cons_left, List.disjoint_append_left,
    List.disjoint_append_right, not_or, Tree.ptr_node] at hnd h1 h2 ⊢
  obtain ⟨⟨hna, ⟨hyb, hnb⟩, hya, hab⟩, ⟨hxc, hnc⟩, ⟨hxa, hxy, hxb⟩, hac, hyc, hbc⟩ := hnd
  have hxl := lt_length_of_lookup h1
  have hyl := lt_length_of_lookup h2
  have hbh := hb.get_height
  have hch := hc.get_height
  have hah := ha.get_height
  have hya' : y ∉ a.addrs := hya
  cases b with
  | nil =>
    simp only [right_rotate, getLeft, getRight, getParent, setLeft, setRight, setParent, h1, h2,
      Option.map_some', Option.bind_eq_bind, Option.some_bind, List.getElem?_set, List.length_set,
      hxy, Ne.symm hxy, if_true, if_false, hxl, hyl, Tree.ptr_nil]
    rw [update_height_eq (n := ⟨none, c.ptr, some y, vx, hx⟩) (p := 0) (q := c.cached)
      (by simp only [List.getElem?_set, List.length_set, if_true, hxl]) rfl
      (by
        simp only [get_height_set (Tree.ptr_ne_of_not_mem hxc),
          get_height_set (Tree.ptr_ne_of_not_mem hyc), hch])]
    simp only [Option.some_bind]
    rw [update_height_eq (n := ⟨a.ptr, some x, par, vy, hy⟩) (p := a.cached)
      (q := 1 + max 0 c.cached)
      (by simp only [List.getElem?_set, List.length_set, if_true, hxl, hyl, Ne.symm hxy, hxy, if_false])
      (by
        simp only [get_height_set (Tree.ptr_ne_of_not_mem hxa),
          get_height_set (Tree.ptr_ne_of_not_mem hya'), hah])
      (by simp only [get_height, List.getElem?_set, List.length_set, if_true, hxl, hyl, Option.map_some'])]
    simp only [Option.some_bind]
    refine ⟨_, rfl, ?_, by simp only [List.length_set], ?_⟩
    · refine ⟨?_, Rep.frame ?_ ha, ⟨?_, trivial, Rep.frame ?_ hc⟩⟩
      · simp only [List.getElem?_set, List.length_set, if_true, hxl, hyl, Tree.ptr_node, Tree.cached_nil]
      · intro q hq
        have hqx : x ≠ q := fun e => hxa (e ▸ hq)
        have hqy : y ≠ q := fun e => hya (e ▸ hq)
        simp only [List.getElem?_set, hqx, hqy, if_false]
      · simp only [List.getElem?_set, List.length_set, if_true, hxl, hyl, Tree.ptr_nil, Tree.cached_nil, Ne.symm hxy, if_false]
      · intro q hq
        have hqx : x ≠ q := fun e => hxc (e ▸ hq)
        have hqy : y ≠ q := fun e => hyc (e ▸ hq)
        simp only [List.getElem?_set, hqx, hqy, if_false]
    · intro q hq
      simp only [List.getElem?_set, Ne.symm hq.2.1, Ne.symm hq.1.2.1, if_false]
  | node z bl vz hz br =>
    obtain ⟨h3, hbl, hbr⟩ := hb
    simp only [Tree.addrs_node, List.mem_append, List.mem_cons, not_or] at hxb hyb
    have hxz : x ≠ z := hxb.2.1
    have hyz : y ≠ z := hyb.2.1
    have hzl := lt_length_of_lookup h3
    simp only [right_rotate, getLeft, getRight, getParent, setLeft, setRight, setParent, h1, h2, h3,
      Option.map_some', Option.bind_eq_bind, Option.some_bind, List.getElem?_set, List.length_set,
      hxy, Ne.symm hxy, hxz, hyz, if_true, if_false, hxl, hyl, Tree.ptr_node]
    rw [update_height_eq (n := ⟨some z, c.ptr, some y, vx, hx⟩) (p := hz) (q := c.cached)
      (by simp only [List.getElem?_set, List.length_set, if_true, if_false, hxl, Ne.symm hxz])
      (by simp only [get_height, List.getElem?_set, List.length_set, if_true, hxl, hyl, hzl,
        Option.map_some'])
      (by
        have hzc : z ∉ c.addrs := fun hq => hbc (a := z) (by simp) hq
        simp only [get_height_set (Tree.ptr_ne_of_not_mem hxc),
          get_height_set (Tree.ptr_ne_of_not_mem hyc),
          get_height_set (Tree.ptr_ne_of_not_mem hzc), hch])]
    simp only [Option.some_bind]
    rw [update_height_eq (n := ⟨a.ptr, some x, par, vy, hy⟩) (p := a.cached)
      (q := 1 + max hz c.cached)
      (by simp only [List.getElem?_set, List.length_set, if_true, hxl, hyl, Ne.symm hxy, hxy,
        Ne.symm hyz, if_false])
      (by
        have hza : z ∉ a.addrs := fun hq => hab hq (by simp)
        simp only [get_height_set (Tree.ptr_ne_of_not_mem hxa),
          get_height_set (Tree.ptr_ne_of_not_mem hya'),
          get_height_set (Tree.ptr_ne_of_not_mem hza), hah])
      (by simp only [get_height, List.getElem?_set, List.length_set, if_true, hxl, hyl,
        Option.map_some'])]
    simp only [Option.some_bind]
    refine ⟨_, rfl, ?_, by simp only [List.length_set], ?_⟩
    · refine ⟨?_, Rep.frame ?_ ha, ⟨?_, ⟨?_, Rep.frame ?_ hbl, Rep.frame ?_ hbr⟩, Rep.frame ?_ hc⟩⟩
      · simp only [List.getElem?_set, List.length_set, if_true, hxl, hyl, Tree.ptr_node,
          Tree.cached_node]
      · intro q hq
        have hqx : x ≠ q := fun e => hxa (e ▸ hq)
        have hqy : y ≠ q := fun e => hya (e ▸ hq)
        have hqz : z ≠ q := fun e => hab hq (by simp [e])
        simp only [List.getElem?_set, hqx, hqy, hqz, if_false]
      · simp only [List.getElem?_set, List.length_set, if_true, hxl, hyl, Tree.ptr_node,
          Tree.cached_node, Ne.symm hxy, if_false]
      · simp only [List.getElem?_set, List.length_set, if_true, hxl, hyl, hzl, hxz, hyz,
          if_false]
      · intro q hq
        have hqx : x ≠ q := fun e => hxb.1 (e ▸ hq)
        have hqy : y ≠ q := fun e => hyb.1 (e ▸ hq)
        have hqz : z ≠ q := by
          rintro rfl
          simp only [Tree.addrs_node, List.nodup_append, List.nodup_cons] at hnb
          exact hnb.2.2 hq (by simp)
        simp only [List.getElem?_set, hqx, hqy, hqz, if_false]
      · intro q hq
        have hqx : x ≠ q := fun e => hxb.2.2 (e ▸ hq)
        have hqy : y ≠ q := fun e => hyb.2.2 (e ▸ hq)
        have hqz : z ≠ q := by
          rintro rfl
          simp only [Tree.addrs_node, List.nodup_append, List.nodup_cons] at hnb
          exact hnb.2.1.1 hq
        simp only [List.getElem?_set, hqx, hqy, hqz, if_false]
      · intro q hq
        have hqx : x ≠ q := fun e => hxc (e ▸ hq)
        have hqy : y ≠ q := fun e => hyc (e ▸ hq)
        have hqz : z ≠ q := fun e => hbc (a := z) (by simp) (e ▸ hq)
        simp only [List.getElem?_set, hqx, hqy, hqz, if_false]
    · intro q hq
      simp only [Tree.addrs_node, List.mem_append, List.mem_cons, not_or] at hq
      simp only [List.getElem?_set, Ne.symm hq.2.1, Ne.symm hq.1.2.1, Ne.symm hq.1.2.2.2.1, if_false]

theorem left_rotate_rep {h : Heap T1 T2} {par : Option Nat} {x y : Nat} {a b c : Tree T1 T2}
    {vx vy : T1 × T2} {hx hy : Int}
    (hrep : Rep h par (.node x a vx hx (.node y b vy hy c)))
    (hnd : (Tree.node x a vx hx (.node y b vy hy c)).addrs.Nodup) :
    ∃ h', left_rotate h x = some (h', y) ∧
      Rep h' par (.node y (.node x a vx (1 + max a.cached b.cached) b) vy
        (1 + max (1 + max a.cached b.cached) c.cached) c) ∧
      h'.length = h.length ∧
      ∀ q, q ∉ (Tree.node x a vx hx (.node y b vy hy c)).addrs → h'[q]? = h[q]? := by
  obtain ⟨h1, ha, h2, hb, hc⟩ := hrep
  simp only [Tree.addrs_node, List.nodup_append, List.nodup_cons, List.mem_append, List.mem_cons,
    List.disjoint_cons_right, List.disjoint_cons_left, List.disjoint_append_left,
    List.disjoint_append_right, not_or, Tree.ptr_node] at hnd h1 h2 ⊢
  obtain ⟨hna, ⟨⟨hxb, hxy, hxc⟩, hnb, ⟨hyc, hnc⟩, hyb, hbc⟩, hxa, hab, hya, hac⟩ := hnd
  have hxl := lt_length_of_lookup h1
  have hyl := lt_length_of_lookup h2
  have hbh := hb.get_height
  have hch := hc.get_height
  have hah := ha.get_height
  cases b with
  | nil =>
    simp only [left_rotate, getLeft, getRight, getParent, setLeft, setRight, setParent, h1, h2,
      Option.map_some', Option.bind_eq_bind, Option.some_bind, List.getElem?_set, List.length_set,
      hxy, Ne.symm hxy, if_true, if_false, hxl, hyl, Tree.ptr_nil]
    rw [update_height_eq (n := ⟨a.ptr, none, some y, vx, hx⟩) (p := a.cached) (q := 0)
      (by simp only [List.getElem?_set, List.length_set, if_true, hxl])
      (by
        simp only [get_height_set (Tree.ptr_ne_of_not_mem hxa),
          get_height_set (Tree.ptr_ne_of_not_mem hya), hah]) rfl]
    simp only [Option.some_bind]
    rw [update_height_eq (n := ⟨some x, c.ptr, par, vy, hy⟩) (p := 1 + max a.cached 0)
      (q := c.cached)
      (by simp only [List.getElem?_set, List.length_set, if_true, hxl, hyl, Ne.symm hxy, hxy,
        if_false])
      (by simp only [get_height, List.getElem?_set, List.length_set, if_true, hxl, hyl,
        Option.map_some'])
      (by
        simp only [get_height_set (Tree.ptr_ne_of_not_mem hxc),
          get_height_set (Tree.ptr_ne_of_not_mem hyc), hch])]
    simp only [Option.some_bind]
    refine ⟨_, rfl, ?_, by simp only [List.length_set], ?_⟩
    · refine ⟨?_, ⟨?_, Rep.frame ?_ ha, trivial⟩, Rep.frame ?_ hc⟩
      · simp only [List.getElem?_set, List.length_set, if_true, hxl, hyl, Tree.ptr_node,
          Tree.cached_nil]
      · simp only [List.getElem?_set, List.length_set, if_true, hxl, hyl, Tree.ptr_nil,
          Tree.cached_nil, Ne.symm hxy, if_false]
      · intro q hq
        have hqx : x ≠ q := fun e => hxa (e ▸ hq)
        have hqy : y ≠ q := fun e => hya (e ▸ hq)
        simp only [List.getElem?_set, hqx, hqy, if_false]
      · intro q hq
        have hqx : x ≠ q := fun e => hxc (e ▸ hq)
        have hqy : y ≠ q := fun e => hyc (e ▸ hq)
        simp only [List.getElem?_set, hqx, hqy, if_false]
    · intro q hq
      simp only [List.getElem?_set, Ne.symm hq.2.1, Ne.symm hq.2.2.2.1, if_false]
  | node z bl vz hz br =>
    obtain ⟨h3, hbl, hbr⟩ := hb
    simp only [Tree.addrs_node, List.mem_append, List.mem_cons, not_or] at hxb hyb
    have hxz : x ≠ z := hxb.2.1
    have hyz : y ≠ z := hyb.2.1
    have hzl := lt_length_of_lookup h3
    simp only [left_rotate, getLeft, getRight, getParent, setLeft, setRight, setParent, h1, h2, h3,
      Option.map_some', Option.bind_eq_bind, Option.some_bind, List.getElem?_set, List.length_set,
      hxy, Ne.symm hxy, hxz, hyz, if_true, if_false, hxl, hyl, Tree.ptr_node]
    rw [update_height_eq (n := ⟨a.ptr, some z, some y, vx, hx⟩) (p := a.cached) (q := hz)
      (by simp only [List.getElem?_set, List.length_set, if_true, if_false, hxl, Ne.symm hxz])
      (by
        have hza : z ∉ a.addrs := fun hq => hab hq (by simp)
        simp only [get_height_set (Tree.ptr_ne_of_not_mem hxa),
          get_height_set (Tree.ptr_ne_of_not_mem hya),
          get_height_set (Tree.ptr_ne_of_not_mem hza), hah])
      (by simp only [get_height, List.getElem?_set, List.length_set, if_true, hxl, hyl, hzl,
        Option.map_some'])]
    simp only [Option.some_bind]
    rw [update_height_eq (n := ⟨some x, c.ptr, par, vy, hy⟩) (p := 1 + max a.cached hz)
      (q := c.cached)
      (by simp only [List.getElem?_set, List.length_set, if_true, hxl, hyl, Ne.symm hxy, hxy,
        Ne.symm hyz, if_false])
      (by simp only [get_height, List.getElem?_set, List.length_set, if_true, hxl, hyl,
        Option.map_some'])
      (by
        have hzc : z ∉ c.addrs := fun hq => hbc (a := z) (by simp) hq
        simp only [get_height_set (Tree.ptr_ne_of_not_mem hxc),
          get_height_set (Tree.ptr_ne_of_not_mem hyc),
          get_height_set (Tree.ptr_ne_of_not_mem hzc), hch])]
    simp only [Option.some_bind]
    refine ⟨_, rfl, ?_, by simp only [List.length_set], ?_⟩
    · refine ⟨?_, ⟨?_, Rep.frame ?_ ha, ⟨?_, Rep.frame ?_ hbl, Rep.frame ?_ hbr⟩⟩, Rep.frame ?_ hc⟩
      · simp only [List.getElem?_set, List.length_set, if_true, hxl, hyl, Tree.ptr_node,
          Tree.cached_node]
      · simp only [List.getElem?_set, List.length_set, if_true, hxl, hyl, Tree.ptr_node,
          Tree.cached_node, Ne.symm hxy, if_false]
      · intro q hq
        have hqx : x ≠ q := fun e => hxa (e ▸ hq)
        have hqy : y ≠ q := fun e => hya (e ▸ hq)
        have hqz : z ≠ q := fun e => hab hq (by simp [e])
        simp only [List.getElem?_set, hqx, hqy, hqz, if_false]
      · simp only [List.getElem?_set, List.length_set, if_true, hxl, hyl, hzl, hxz, hyz,
          if_false]
      · intro q hq
        have hqx : x ≠ q := fun e => hxb.1 (e ▸ hq)
        have hqy : y ≠ q := fun e => hyb.1 (e ▸ hq)
        have hqz : z ≠ q := by
          rintro rfl
          simp only [Tree.addrs_node, List.nodup_append, List.nodup_cons] at hnb
          exact hnb.2.2 hq (by simp)
        simp only [List.getElem?_set, hqx, hqy, hqz, if_false]
      · intro q hq
        have hqx : x ≠ q := fun e => hxb.2.2 (e ▸ hq)
        have hqy : y ≠ q := fun e => hyb.2.2 (e ▸ hq)
        have hqz : z ≠ q := by
          rintro rfl
          simp only [Tree.addrs_node, List.nodup_append, List.nodup_cons] at hnb
          exact hnb.2.1.1 hq
        simp only [List.getElem?_set, hqx, hqy, hqz, if_false]
      · intro q hq
        have hqx : x ≠ q := fun e => hxc (e ▸ hq)
        have hqy : y ≠ q := fun e => hyc (e ▸ hq)
        have hqz : z ≠ q := fun e => hbc (a := z) (by simp) (e ▸ hq)
        simp only [List.getElem?_set, hqx, hqy, hqz, if_false]
    · intro q hq
      simp only [Tree.addrs_node, List.mem_append, List.mem_cons, not_or] at hq
      simp only [List.getElem?_set, Ne.symm hq.2.1, Ne.symm hq.2.2.2.1, Ne.symm hq.2.2.1.2.1,
        if_false]

@[simp] theorem Tree.nodes_nil : (Tree.nil : Tree T1 T2).nodes = [] := rfl
@[simp] theorem Tree.nodes_node (a : Nat) (l r : Tree T1 T2) (v : T1 × T2) (h : Int) :
    (Tree.node a l v h r).nodes = l.nodes ++ (a, v) :: r.nodes := rfl
@[simp] theorem Tree.toList_nil : (Tree.nil : Tree T1 T2).toList = [] := rfl
@[simp] theorem Tree.toList_node (a : Nat) (l r : Tree T1 T2) (v : T1 × T2) (h : Int) :
    (Tree.node a l v h r).toList = l.toList ++ v :: r.toList := rfl

theorem Tree.addrs_eq_map : ∀ t : Tree T1 T2, t.addrs = t.nodes.map Prod.fst
  | .nil => rfl
  | .node a l v h r => by
    simp only [Tree.addrs_node, Tree.nodes_node, List.map_append, List.map_cons,
      Tree.addrs_eq_map l, Tree.addrs_eq_map r]

theorem Tree.toList_eq_map : ∀ t : Tree T1 T2, t.toList = t.nodes.map Prod.snd
  | .nil => rfl
  | .node a l v h r => by
    simp only [Tree.toList_node, Tree.nodes_node, List.map_append, List.map_cons,
      Tree.toList_eq_map l, Tree.toList_eq_map r]

theorem Tree.rotR_eq_some {t t' : Tree T1 T2} (h : t.rotR = some t') :
    ∃ x y a b c vx vy hx hy, t = .node x (.node y a vy hy b) vx hx c ∧
      t' = .node y a vy (1 + max a.cached (1 + max b.cached c.cached))
        (.node x b vx (1 + max b.cached c.cached) c) := by
  cases t with
  | nil => simp [Tree.rotR] at h
  | node x l vx hx c =>
    cases l with
    | nil => simp [Tree.rotR] at h
    | node y a vy hy b =>
      simp only [Tree.rotR_node, Option.some.injEq] at h
      exact ⟨x, y, a, b, c, vx, vy, hx, hy, rfl, h.symm⟩

theorem Tree.rotL_eq_some {t t' : Tree T1 T2} (h : t.rotL = some t') :
    ∃ x y a b c vx vy hx hy, t = .node x a vx hx (.node y b vy hy c) ∧
      t' = .node y (.node x a vx (1 + max a.cached b.cached) b) vy
        (1 + max (1 + max a.cached b.cached) c.cached) c := by
  cases t with
  | nil => simp [Tree.rotL] at h
  | node x a vx hx r =>
    cases r with
    | nil => simp [Tree.rotL] at h
    | node y b vy hy c =>
      simp only [Tree.rotL_node, Option.some.injEq] at h
      exact ⟨x, y, a, b, c, vx, vy, hx, hy, rfl, h.symm⟩

theorem Tree.rotR_nodes {t t' : Tree T1 T2} (h : t.rotR = some t') : t'.nodes = t.nodes := by
  obtain ⟨x, y, a, b, c, vx, vy, hx, hy, rfl, rfl⟩ := Tree.rotR_eq_some h
  simp only [Tree.nodes_node, List.append_assoc, List.cons_append]

theorem Tree.rotL_nodes {t t' : Tree T1 T2} (h : t.rotL = some t') : t'.nodes = t.nodes := by
  obtain ⟨x, y, a, b, c, vx, vy, hx, hy, rfl, rfl⟩ := Tree.rotL_eq_some h
  simp only [Tree.nodes_node, List.append_assoc, List.cons_append]

theorem rotR_rep {h : Heap T1 T2} {par : Option Nat} {t t' : Tree T1 T2} {x : Nat}
    (hrep : Rep h par t) (hnd : t.addrs.Nodup) (hx : t.ptr = some x) (hrot : t.rotR = some t') :
    StepOk h par t t' (right_rotate h x) := by
  obtain ⟨x', y, a, b, c, vx, vy, hx', hy, rfl, rfl⟩ := Tree.rotR_eq_some hrot
  simp only [Tree.ptr_node, Option.some.injEq] at hx
  subst hx
  obtain ⟨h', e1, e2, e3, e4⟩ := right_rotate_rep hrep hnd
  exact ⟨h', y, e1, rfl, e2, e3, e4⟩

theorem rotL_rep {h : Heap T1 T2} {par : Option Nat} {t t' : Tree T1 T2} {x : Nat}
    (hrep : Rep h par t) (hnd : t.addrs.Nodup) (hx : t.ptr = some x) (hrot : t.rotL = some t') :
    StepOk h par t t' (left_rotate h x) := by
  obtain ⟨x', y, a, b, c, vx, vy, hx', hy, rfl, rfl⟩ := Tree.rotL_eq_some hrot
  simp only [Tree.ptr_node, Option.some.injEq] at hx
  subst hx
  obtain ⟨h', e1, e2, e3, e4⟩ := left_rotate_rep hrep hnd
  exact ⟨h', y, e1, rfl, e2, e3, e4⟩

theorem balance_factor_rep {h : Heap T1 T2} {par : Option Nat} {x : Nat} {l r : Tree T1 T2}
    {v : T1 × T2} {ht : Int} (hrep : Rep h par (.node x l v ht r)) :
    balance_factor h x = some (l.cached - r.cached) := by
  obtain ⟨h1, hl, hr⟩ := hrep
  cases l with
  | nil =>
    cases r with
    | nil =>
      simp only [balance_factor, getLeft, getRight, h1, Option.map_some', Option.bind_eq_bind,
        Option.some_bind, Tree.ptr_nil, Tree.cached_nil]
    | node z c vz hz d =>
      simp only [balance_factor, getLeft, getRight, h1, hr.1, Option.map_some',
        Option.bind_eq_bind, Option.some_bind, Tree.ptr_nil, Tree.ptr_node, Tree.cached_nil,
        Tree.cached_node]
  | node y a vy hy b =>
    cases r with
    | nil =>
      simp only [balance_factor, getLeft, getRight, h1, hl.1, Option.map_some',
        Option.bind_eq_bind, Option.some_bind, Tree.ptr_nil, Tree.ptr_node, Tree.cached_nil,
        Tree.cached_node]
    | node z c vz hz d =>
      simp only [balance_factor, getLeft, getRight, h1, hl.1, hr.1, Option.map_some',
        Option.bind_eq_bind, Option.some_bind, Tree.ptr_node, Tree.cached_node]

theorem Tree.rotL_addrs {t t' : Tree T1 T2} (h : t.rotL = some t') : t'.addrs = t.addrs := by
  rw [Tree.addrs_eq_map, Tree.addrs_eq_map, Tree.rotL_nodes h]

theorem Tree.rotR_addrs {t t' : Tree T1 T2} (h : t.rotR = some t') : t'.addrs = t.addrs := by
  rw [Tree.addrs_eq_map, Tree.addrs_eq_map, Tree.rotR_nodes h]

theorem Rep.lt_length {h : Heap T1 T2} : ∀ {t : Tree T1 T2} {par : Option Nat},
    Rep h par t → ∀ q ∈ t.addrs, q < h.length
  | .nil, _, _, q, hq => by simp at hq
  | .node a l v ht r, par, ⟨h1, h2, h3⟩, q, hq => by
    simp only [Tree.addrs_node, List.mem_append, List.mem_cons] at hq
    rcases hq with hq | rfl | hq
    · exact Rep.lt_length h2 q hq
    · exact lt_length_of_lookup h1
    · exact Rep.lt_length h3 q hq

@[simp] theorem Tree.depth_nil : (Tree.nil : Tree T1 T2).depth = 0 := rfl
@[simp] theorem Tree.depth_node (a : Nat) (l r : Tree T1 T2) (v : T1 × T2) (h : Int) :
    (Tree.node a l v h r).depth = 1 + max l.depth r.depth := rfl

theorem Tree.fix_nodes (t : Tree T1 T2) : t.fix.nodes = t.nodes := by
  cases t <;> rfl

variable [LinearOrder T1]

theorem rebalLeft_rep {h : Heap T1 T2} {par : Option Nat} {x : Nat} {l r t' : Tree T1 T2}
    {v e : T1 × T2} {ht : Int} (hrep : Rep h par (.node x l v ht r))
    (hnd : (Tree.node x l v ht r).addrs.Nodup)
    (hreb : Tree.rebalLeft e (.node x l v ht r) = some t') :
    StepOk h par (.node x l v ht r) t' (rebalance_left h x e) := by
  have hbf := balance_factor_rep hrep
  have hnd0 := hnd
  simp only [Tree.addrs_node, List.nodup_append, List.nodup_cons, List.mem_append,
    List.mem_cons, List.disjoint_cons_right, not_or] at hnd0
  obtain ⟨hnl, ⟨hxr, hnr⟩, hxl, hlr⟩ := hnd0
  by_cases hb : l.cached - r.cached > 1
  · cases l with
    | nil =>
      simp only [Tree.rebalLeft, Tree.bf_node, if_pos hb] at hreb
      cases hreb
    | node y a vy hy b =>
      obtain ⟨h1, hl, hr⟩ := hrep
      have h2 := hl.1
      simp only [Tree.rebalLeft, Tree.bf_node, if_pos hb] at hreb
      simp only [rebalance_left, hbf, Option.bind_eq_bind, Option.some_bind, if_pos hb, getLeft,
        getKey, h1, h2, Option.map_some', Tree.ptr_node]
      by_cases hk : e.1 ≤ vy.1
      · simp only [if_pos hk] at hreb ⊢
        exact rotR_rep ⟨h1, hl, hr⟩ hnd rfl hreb
      · simp only [if_neg hk] at hreb ⊢
        obtain ⟨l', hl', hr'⟩ := Option.bind_eq_some.mp hreb
        obtain ⟨hA, a1, e1, p1, rep1, len1, fr1⟩ := rotL_rep (x := y) hl hnl rfl hl'
        have hxl' : x ∉ (Tree.node y a vy hy b).addrs := hxl
        have hxA : hA[x]? = some ⟨some y, r.ptr, par, v, ht⟩ := (fr1 x hxl').trans h1
        have hadd := Tree.rotL_addrs hl'
        have hrepB : Rep (hA.set x ⟨some a1, r.ptr, par, v, ht⟩) par (.node x l' v ht r) := by
          refine ⟨?_, Rep.frame ?_ rep1, Rep.frame ?_ hr⟩
          · rw [lookup_set hxA, if_pos rfl, p1]
          · intro q hq
            rw [lookup_set hxA, if_neg]
            rintro rfl
            exact hxl' (hadd ▸ hq)
          · intro q hq
            rw [lookup_set hxA, if_neg (fun e : x = q => hxr (e ▸ hq))]
            exact fr1 q (fun hq' => hlr hq' hq)
        have hndB : (Tree.node x l' v ht r).addrs.Nodup := by
          show (l'.addrs ++ x :: r.addrs).Nodup
          rw [hadd]
          exact hnd
        obtain ⟨hC, a2, e2, p2, rep2, len2, fr2⟩ := rotR_rep (x := x) hrepB hndB rfl hr'
        refine ⟨hC, a2, ?_, p2, rep2, ?_, ?_⟩
        · simp only [e1, Option.some_bind, setLeft, hxA, Option.map_some', e2]
        · rw [len2, List.length_set, len1]
        · intro q hq
          have hq2 : q ∉ (Tree.node x l' v ht r).addrs := by
            show q ∉ l'.addrs ++ x :: r.addrs
            rw [hadd]
            exact hq
          have hq3 : q ∉ (Tree.node y a vy hy b).addrs ++ x :: r.addrs := hq
          simp only [List.mem_append, List.mem_cons, not_or] at hq3
          rw [fr2 q hq2, lookup_set hxA, if_neg (Ne.symm hq3.2.1)]
          exact fr1 q hq3.1
  · have hb' : ¬ (Tree.node x l v ht r).bf > 1 := by simpa using hb
    rw [Tree.rebalLeft_of_le _ _ hb'] at hreb
    simp only [Option.some.injEq] at hreb
    subst hreb
    refine ⟨h, x, ?_, rfl, hrep, rfl, fun _ _ => rfl⟩
    simp only [rebalance_left, hbf, Option.bind_eq_bind, Option.some_bind, if_neg hb]

theorem rebalRight_rep {h : Heap T1 T2} {par : Option Nat} {x : Nat} {l r t' : Tree T1 T2}
    {v e : T1 × T2} {ht : Int} (hrep : Rep h par (.node x l v ht r))
    (hnd : (Tree.node x l v ht r).addrs.Nodup)
    (hreb : Tree.rebalRight e (.node x l v ht r) = some t') :
    StepOk h par (.node x l v ht r) t' (rebalance_right h x e) := by
  have hbf := balance_factor_rep hrep
  have hnd0 := hnd
  simp only [Tree.addrs_node, List.nodup_append, List.nodup_cons, List.mem_append,
    List.mem_cons, List.disjoint_cons_right, not_or] at hnd0
  obtain ⟨hnl, ⟨hxr, hnr⟩, hxl, hlr⟩ := hnd0
  by_cases hb : l.cached - r.cached < -1
  · cases r with
    | nil =>
      simp only [Tree.rebalRight, Tree.bf_node, if_pos hb] at hreb
      cases hreb
    | node y b vy hy c =>
      obtain ⟨h1, hl, hr⟩ := hrep
      have h2 := hr.1
      simp only [Tree.rebalRight, Tree.bf_node, if_pos hb] at hreb
      simp only [rebalance_right, hbf, Option.bind_eq_bind, Option.some_bind, if_pos hb, getRight,
        getKey, h1, h2, Option.map_some', Tree.ptr_node]
      by_cases hk : e.1 > vy.1
      · simp only [if_pos hk] at hreb ⊢
        exact rotL_rep ⟨h1, hl, hr⟩ hnd rfl hreb
      · simp only [if_neg hk] at hreb ⊢
        obtain ⟨r', hr', hl'⟩ := Option.bind_eq_some.mp hreb
        obtain ⟨hA, a1, e1, p1, rep1, len1, fr1⟩ := rotR_rep (x := y) hr hnr rfl hr'
        have hxr' : x ∉ (Tree.node y b vy hy c).addrs := hxr
        have hxA : hA[x]? = some ⟨l.ptr, some y, par, v, ht⟩ := (fr1 x hxr').trans h1
        have hadd := Tree.rotR_addrs hr'
        have hrepB : Rep (hA.set x ⟨l.ptr, some a1, par, v, ht⟩) par (.node x l v ht r') := by
          refine ⟨?_, Rep.frame ?_ hl, Rep.frame ?_ rep1⟩
          · rw [lookup_set hxA, if_pos rfl, p1]
          · intro q hq
            rw [lookup_set hxA, if_neg (fun e : x = q => hxl (e ▸ hq))]
            exact fr1 q (fun hq' => hlr hq hq')
          · intro q hq
            rw [lookup_set hxA, if_neg]
            rintro rfl
            exact hxr' (hadd ▸ hq)
        have hndB : (Tree.node x l v ht r').addrs.Nodup := by
          show (l.addrs ++ x :: r'.addrs).Nodup
          rw [hadd]
          exact hnd
        obtain ⟨hC, a2, e2, p2, rep2, len2, fr2⟩ := rotL_rep (x := x) hrepB hndB rfl hl'
        refine ⟨hC, a2, ?_, p2, rep2, ?_, ?_⟩
        · simp only [e1, Option.some_bind, setRight, hxA, Option.map_some', e2]
        · rw [len2, List.length_set, len1]
        · intro q hq
          have hq2 : q ∉ (Tree.node x l v ht r').addrs := by
            show q ∉ l.addrs ++ x :: r'.addrs
            rw [hadd]
            exact hq
          have hq3 : q ∉ l.addrs ++ x :: (Tree.node y b vy hy c).addrs := hq
          simp only [List.mem_append, List.mem_cons, not_or] at hq3
          rw [fr2 q hq2, lookup_set hxA, if_neg (Ne.symm hq3.2.1)]
          exact fr1 q hq3.2.2
  · have hb' : ¬ (Tree.node x l v ht r).bf < -1 := by simpa using hb
    rw [Tree.rebalRight_of_ge _ _ hb'] at hreb
    simp only [Option.some.injEq] at hreb
    subst hreb
    refine ⟨h, x, ?_, rfl, hrep, rfl, fun _ _ => rfl⟩
    simp only [rebalance_right, hbf, Option.bind_eq_bind, Option.some_bind, if_neg hb]

theorem Tree.rebalLeft_nodes {e : T1 × T2} {t t' : Tree T1 T2}
    (h : Tree.rebalLeft e t = some t') : t'.nodes = t.nodes := by
  unfold Tree.rebalLeft at h
  split at h
  · split at h
    · split at h
      · exact Tree.rotR_nodes h
      · obtain ⟨l', hl', hr'⟩ := Option.bind_eq_some.mp h
        rw [Tree.rotR_nodes hr', Tree.nodes_node, Tree.rotL_nodes hl', ← Tree.nodes_node]
    · cases h
  · cases h; rfl

theorem Tree.rebalRight_nodes {e : T1 × T2} {t t' : Tree T1 T2}
    (h : Tree.rebalRight e t = some t') : t'.nodes = t.nodes := by
  unfold Tree.rebalRight at h
  split at h
  · split at h
    · split at h
      · exact Tree.rotL_nodes h
      · obtain ⟨l', hl', hr'⟩ := Option.bind_eq_some.mp h
        rw [Tree.rotL_nodes hr', Tree.nodes_node, Tree.rotR_nodes hl', ← Tree.nodes_node]
    · cases h
  · cases h; rfl

theorem Tree.rebal_nodes {e : T1 × T2} {t t' : Tree T1 T2}
    (h : Tree.rebal e t = some t') : t'.nodes = t.nodes := by
  obtain ⟨t1, h1, h2⟩ := Option.bind_eq_some.mp h
  rw [Tree.rebalRight_nodes h2, Tree.rebalLeft_nodes h1]

theorem Tree.rebalLeft_ptr {e : T1 × T2} {t t' : Tree T1 T2}
    (h : Tree.rebalLeft e t = some t') (hne : t ≠ .nil) : t' ≠ .nil := by
  intro h0
  have := Tree.rebalLeft_nodes h
  rw [h0] at this
  cases t with
  | nil => exact hne rfl
  | node a l v ht r => simp at this

/-- The store-level `rebalance` computes `Tree.rebal`. -/
theorem rebal_rep {h : Heap T1 T2} {par : Option Nat} {x : Nat} {l r t' : Tree T1 T2}
    {v e : T1 × T2} {ht : Int} (hrep : Rep h par (.node x l v ht r))
    (hnd : (Tree.node x l v ht r).addrs.Nodup)
    (hreb : Tree.rebal e (.node x l v ht r) = some t') :
    StepOk h par (.node x l v ht r) t' (rebalance h x e) := by
  obtain ⟨t1, ht1, ht2⟩ := Option.bind_eq_some.mp hreb
  obtain ⟨hA, a1, e1, p1, rep1, len1, fr1⟩ := rebalLeft_rep hrep hnd ht1
  have hadd : t1.addrs = (Tree.node x l v ht r).addrs := by
    rw [Tree.addrs_eq_map, Tree.addrs_eq_map, Tree.rebalLeft_nodes ht1]
  cases t1 with
  | nil => simp at p1
  | node x1 l1 v1 ht1' r1 =>
    simp only [Tree.ptr_node, Option.some.injEq] at p1
    subst p1
    obtain ⟨hB, a2, e2, p2, rep2, len2, fr2⟩ := rebalRight_rep rep1 (hadd ▸ hnd) ht2
    refine ⟨hB, a2, ?_, p2, rep2, len2.trans len1, ?_⟩
    · simp only [rebalance, e1, Option.bind_eq_bind, Option.some_bind, e2]
    · intro q hq
      rw [fr2 q (hadd ▸ hq), fr1 q hq]

theorem Tree.ins_nodes_perm (f : Nat) (e : T1 × T2) :
    ∀ {t t' : Tree T1 T2}, t.ins f e = some t' → t'.nodes.Perm ((f, e) :: t.nodes)
  | .nil, t', h => by
    simp only [Tree.ins, Option.some.injEq] at h
    subst h
    simp
  | .node a l v ht r, t', h => by
    simp only [Tree.ins] at h
    obtain ⟨t1, h1, h2⟩ := Option.bind_eq_some.mp h
    rw [Tree.rebal_nodes h2, Tree.fix_nodes]
    split at h1
    · obtain ⟨l', hl', rfl⟩ := Option.map_eq_some'.mp h1
      have := Tree.ins_nodes_perm f e hl'
      simp only [Tree.nodes_node]
      exact (this.append_right _).trans (by simp)
    · obtain ⟨r', hr', rfl⟩ := Option.map_eq_some'.mp h1
      have := Tree.ins_nodes_perm f e hr'
      simp only [Tree.nodes_node]
      refine (List.Perm.append_left _ (List.Perm.cons _ this)).trans ?_
      refine (List.Perm.append_left _ (List.Perm.swap _ _ _)).trans ?_
      exact List.perm_middle

theorem Tree.ins_addrs_perm (f : Nat) (e : T1 × T2) {t t' : Tree T1 T2}
    (h : t.ins f e = some t') : t'.addrs.Perm (f :: t.addrs) := by
  rw [Tree.addrs_eq_map, Tree.addrs_eq_map]
  exact (Tree.ins_nodes_perm f e h).map Prod.fst

theorem Tree.ins_ne_nil (f : Nat) (e : T1 × T2) {t t' : Tree T1 T2}
    (h : t.ins f e = some t') : ∃ a l v ht r, t' = .node a l v ht r := by
  cases t' with
  | nil =>
    have := (Tree.ins_nodes_perm f e h).length_eq
    simp at this
  | node a l v ht r => exact ⟨a, l, v, ht, r, rfl⟩

/-- After the recursive call has rebuilt the left child of `x`, the rest of `insert`
(link the child, update the height, rebalance) yields the tree `Tree.ins` predicts. -/
theorem ins_rep_left {h hA : Heap T1 T2} {par : Option Nat} {x a1 : Nat}
    {l l' r t' : Tree T1 T2} {v e : T1 × T2} {ht : Int} {p1 : Option Nat}
    (hrep : Rep h par (.node x l v ht r)) (hnd : (Tree.node x l v ht r).addrs.Nodup)
    (hl' : l'.addrs.Perm (h.length :: l.addrs)) (hp : l'.ptr = some a1)
    (rep1 : Rep hA p1 l') (len1 : hA.length = h.length + 1)
    (fr1 : ∀ q, q ∉ l.addrs → q < h.length → hA[q]? = h[q]?)
    (hreb : Tree.rebal e (Tree.node x l' v ht r).fix = some t') :
    ∃ h' a, ((setLeft hA x (some a1)).bind (fun h1 =>
        ((getLeft h1 x).bind (fun o => o.bind (fun c => setParent h1 c (some x)))).bind
          (fun h2 => (update_height h2 x).bind (fun h3 => rebalance h3 x e)))) = some (h', a) ∧
      t'.ptr = some a ∧ Rep h' par t' ∧ h'.length = h.length + 1 ∧
      ∀ q, q ∉ (Tree.node x l v ht r).addrs → q < h.length → h'[q]? = h[q]? := by
  have hlt := Rep.lt_length hrep
  obtain ⟨h1, hl, hr⟩ := hrep
  have hnd0 := hnd
  simp only [Tree.addrs_node, List.nodup_append, List.nodup_cons, List.mem_append,
    List.mem_cons, List.disjoint_cons_right, not_or] at hnd0
  obtain ⟨hnl, ⟨hxr, hnr⟩, hxl, hlr⟩ := hnd0
  have hxlen : x < h.length := lt_length_of_lookup h1
  have hmem : ∀ q, q ∈ l'.addrs ↔ q = h.length ∨ q ∈ l.addrs := fun q => by
    rw [hl'.mem_iff, List.mem_cons]
  have hfl : h.length ∉ l.addrs := fun hq => absurd (hlt _ (by simp [hq])) (lt_irrefl _)
  have hnl' : l'.addrs.Nodup := hl'.nodup_iff.mpr (List.nodup_cons.mpr ⟨hfl, hnl⟩)
  have hxl' : x ∉ l'.addrs := fun hq => by
    rcases (hmem x).mp hq with e | hq
    · omega
    · exact hxl hq
  have hlr' : l'.addrs.Disjoint r.addrs := fun q hq hq' => by
    rcases (hmem q).mp hq with e | hq
    · have := hlt q (by simp [hq'])
      omega
    · exact hlr hq hq'
  have hxA : hA[x]? = some ⟨l.ptr, r.ptr, par, v, ht⟩ := (fr1 x hxl hxlen).trans h1
  cases l' with
  | nil => simp at hp
  | node a la va hta ra =>
    simp only [Tree.ptr_node, Option.some.injEq] at hp
    subst hp
    have hax : a ≠ x := fun e => hxl' (by simp [e])
    -- the store after `node->left = ...`
    have hxB : (hA.set x ⟨some a, r.ptr, par, v, ht⟩)[x]? = some ⟨some a, r.ptr, par, v, ht⟩ := by
      rw [lookup_set hxA, if_pos rfl]
    have repB : Rep (hA.set x ⟨some a, r.ptr, par, v, ht⟩) p1 (.node a la va hta ra) :=
      Rep.frame (fun q hq => by
        rw [lookup_set hxA, if_neg (fun e : x = q => hxl' (e ▸ hq))]) rep1
    -- the store after `node->left->parent = node`
    obtain ⟨hC, eC, repC, lenC, frC⟩ := Rep.reparent repB hnl' (some x)
    have hxC : hC[x]? = some ⟨some a, r.ptr, par, v, ht⟩ := (frC x (Ne.symm hax)).trans hxB
    have hrC : Rep hC (some x) r := Rep.frame (fun q hq => by
      have hqa : q ≠ a := fun e => hlr' (a := a) (by simp) (e ▸ hq)
      have hqx : x ≠ q := fun e => hxr (e ▸ hq)
      rw [frC q hqa, lookup_set hxA, if_neg hqx]
      exact fr1 q (fun hq' => hlr hq' hq) (hlt q (by simp [hq]))) hr
    -- the store after the height update
    have hD := update_height_eq hxC repC.get_height hrC.get_height
    simp only [Tree.ptr_node, Tree.cached_node] at hD
    have repD : Rep (hC.set x ⟨some a, r.ptr, par, v, 1 + max hta r.cached⟩) par
        (Tree.node x (.node a la va hta ra) v ht r).fix := by
      refine ⟨by rw [lookup_set hxC, if_pos rfl]; rfl, Rep.frame ?_ repC, Rep.frame ?_ hrC⟩
      · intro q hq
        rw [lookup_set hxC, if_neg (fun e : x = q => hxl' (e ▸ hq))]
      · intro q hq
        rw [lookup_set hxC, if_neg (fun e : x = q => hxr (e ▸ hq))]
    have hndD : (Tree.node x (.node a la va hta ra) v ht r).fix.addrs.Nodup := by
      show ((Tree.node a la va hta ra).addrs ++ x :: r.addrs).Nodup
      rw [List.nodup_append, List.nodup_cons]
      exact ⟨hnl', ⟨hxr, hnr⟩, List.disjoint_cons_right.mpr ⟨hxl', hlr'⟩⟩
    obtain ⟨hE, a2, eE, pE, repE, lenE, frE⟩ := rebal_rep repD hndD hreb
    refine ⟨hE, a2, ?_, pE, repE, ?_, ?_⟩
    · simp only [setLeft, hxA, Option.map_some', Option.some_bind, getLeft, hxB, eC, hD, eE]
    · rw [lenE, List.length_set, lenC, List.length_set, len1]
    · intro q hq hqlen
      simp only [Tree.addrs_node, List.mem_append, List.mem_cons, not_or] at hq
      have hql' : q ∉ (Tree.node a la va hta ra).addrs := fun hq' => by
        rcases (hmem q).mp hq' with e | hq'
        · omega
        · exact hq.1 hq'
      have hqa : q ≠ a := fun e => hql' (by simp [e])
      rw [frE q (by
        show q ∉ (Tree.node a la va hta ra).addrs ++ x :: r.addrs
        simp only [List.mem_append, List.mem_cons, not_or]
        exact ⟨hql', hq.2.1, hq.2.2⟩), lookup_set hxC, if_neg (Ne.symm hq.2.1), frC q hqa,
        lookup_set hxA, if_neg (Ne.symm hq.2.1)]
      exact fr1 q hq.1 hqlen

/-- The mirror image of `ins_rep_left` for the right child. -/
theorem ins_rep_right {h hA : Heap T1 T2} {par : Option Nat} {x a1 : Nat}
    {l r r' t' : Tree T1 T2} {v e : T1 × T2} {ht : Int} {p1 : Option Nat}
    (hrep : Rep h par (.node x l v ht r)) (hnd : (Tree.node x l v ht r).addrs.Nodup)
    (hr' : r'.addrs.Perm (h.length :: r.addrs)) (hp : r'.ptr = some a1)
    (rep1 : Rep hA p1 r') (len1 : hA.length = h.length + 1)
    (fr1 : ∀ q, q ∉ r.addrs → q < h.length → hA[q]? = h[q]?)
    (hreb : Tree.rebal e (Tree.node x l v ht r').fix = some t') :
    ∃ h' a, ((setRight hA x (some a1)).bind (fun h1 =>
        ((getRight h1 x).bind (fun o => o.bind (fun c => setParent h1 c (some x)))).bind
          (fun h2 => (update_height h2 x).bind (fun h3 => rebalance h3 x e)))) = some (h', a) ∧
      t'.ptr = some a ∧ Rep h' par t' ∧ h'.length = h.length + 1 ∧
      ∀ q, q ∉ (Tree.node x l v ht r).addrs → q < h.length → h'[q]? = h[q]? := by
  have hlt := Rep.lt_length hrep
  obtain ⟨h1, hl, hr⟩ := hrep
  have hnd0 := hnd
  simp only [Tree.addrs_node, List.nodup_append, List.nodup_cons, List.mem_append,
    List.mem_cons, List.disjoint_cons_right, not_or] at hnd0
  obtain ⟨hnl, ⟨hxr, hnr⟩, hxl, hlr⟩ := hnd0
  have hxlen : x < h.length := lt_length_of_lookup h1
  have hmem : ∀ q, q ∈ r'.addrs ↔ q = h.length ∨ q ∈ r.addrs := fun q => by
    rw [hr'.mem_iff, List.mem_cons]
  have hfr : h.length ∉ r.addrs := fun hq => absurd (hlt _ (by simp [hq])) (lt_irrefl _)
  have hnr' : r'.addrs.Nodup := hr'.nodup_iff.mpr (List.nodup_cons.mpr ⟨hfr, hnr⟩)
  have hxr' : x ∉ r'.addrs := fun hq => by
    rcases (hmem x).mp hq with e | hq
    · omega
    · exact hxr hq
  have hlr' : l.addrs.Disjoint r'.addrs := fun q hq hq' => by
    rcases (hmem q).mp hq' with e | hq'
    · have := hlt q (by simp [hq])
      omega
    · exact hlr hq hq'
  have hxA : hA[x]? = some ⟨l.ptr, r.ptr, par, v, ht⟩ := (fr1 x hxr hxlen).trans h1
  cases r' with
  | nil => simp at hp
  | node a la va hta ra =>
    simp only [Tree.ptr_node, Option.some.injEq] at hp
    subst hp
    have hax : a ≠ x := fun e => hxr' (by simp [e])
    -- the store after `node->right = ...`
    have hxB : (hA.set x ⟨l.ptr, some a, par, v, ht⟩)[x]? = some ⟨l.ptr, some a, par, v, ht⟩ := by
      rw [lookup_set hxA, if_pos rfl]
    have repB : Rep (hA.set x ⟨l.ptr, some a, par, v, ht⟩) p1 (.node a la va hta ra) :=
      Rep.frame (fun q hq => by
        rw [lookup_set hxA, if_neg (fun e : x = q => hxr' (e ▸ hq))]) rep1
    -- the store after `node->right->parent = node`
    obtain ⟨hC, eC, repC, lenC, frC⟩ := Rep.reparent repB hnr' (some x)
    have hxC : hC[x]? = some ⟨l.ptr, some a, par, v, ht⟩ := (frC x (Ne.symm hax)).trans hxB
    have hlC : Rep hC (some x) l := Rep.frame (fun q hq => by
      have hqa : q ≠ a := fun e => hlr' (a := a) (e ▸ hq) (by simp)
      have hqx : x ≠ q := fun e => hxl (e ▸ hq)
      rw [frC q hqa, lookup_set hxA, if_neg hqx]
      exact fr1 q (fun hq' => hlr hq hq') (hlt q (by simp [hq]))) hl
    -- the store after the height update
    have hD := update_height_eq hxC hlC.get_height repC.get_height
    simp only [Tree.ptr_node, Tree.cached_node] at hD
    have repD : Rep (hC.set x ⟨l.ptr, some a, par, v, 1 + max l.cached hta⟩) par
        (Tree.node x l v ht (.node a la va hta ra)).fix := by
      refine ⟨by rw [lookup_set hxC, if_pos rfl]; rfl, Rep.frame ?_ hlC, Rep.frame ?_ repC⟩
      · intro q hq
        rw [lookup_set hxC, if_neg (fun e : x = q => hxl (e ▸ hq))]
      · intro q hq
        rw [lookup_set hxC, if_neg (fun e : x = q => hxr' (e ▸ hq))]
    have hndD : (Tree.node x l v ht (.node a la va hta ra)).fix.addrs.Nodup := by
      show (l.addrs ++ x :: (Tree.node a la va hta ra).addrs).Nodup
      rw [List.nodup_append, List.nodup_cons]
      exact ⟨hnl, ⟨hxr', hnr'⟩, List.disjoint_cons_right.mpr ⟨hxl, hlr'⟩⟩
    obtain ⟨hE, a2, eE, pE, repE, lenE, frE⟩ := rebal_rep repD hndD hreb
    refine ⟨hE, a2, ?_, pE, repE, ?_, ?_⟩
    · simp only [setRight, hxA, Option.map_some', Option.some_bind, getRight, hxB, eC, hD, eE]
    · rw [lenE, List.length_set, lenC, List.length_set, len1]
    · intro q hq hqlen
      simp only [Tree.addrs_node, List.mem_append, List.mem_cons, not_or] at hq
      have hqr' : q ∉ (Tree.node a la va hta ra).addrs := fun hq' => by
        rcases (hmem q).mp hq' with e | hq'
        · omega
        · exact hq.2.2 hq'
      have hqa : q ≠ a := fun e => hqr' (by simp [e])
      rw [frE q (by
        show q ∉ l.addrs ++ x :: (Tree.node a la va hta ra).addrs
        simp only [List.mem_append, List.mem_cons, not_or]
        exact ⟨hq.1, hq.2.1, hqr'⟩), lookup_set hxC, if_neg (Ne.symm hq.2.1), frC q hqa,
        lookup_set hxA, if_neg (Ne.symm hq.2.1)]
      exact fr1 q hq.2.2 hqlen

/-- The private `insert(Node*, pair)` computes `Tree.ins`: on a store that represents
`t`, with fuel above the depth of `t`, it returns a store that represents `Tree.ins` of
`t`, allocating exactly the address `h.length` and touching nothing outside `t`. -/
theorem ins_rep (e : T1 × T2) : ∀ (t : Tree T1 T2) (fuel : Nat) (h : Heap T1 T2)
    (par : Option Nat) (t' : Tree T1 T2), Rep h par t → t.addrs.Nodup → t.depth < fuel →
    t.ins h.length e = some t' →
    ∃ h' a, insert fuel h t.ptr e = some (h', a) ∧ t'.ptr = some a ∧
      Rep h' (t.ptr.bind (fun _ => par)) t' ∧ h'.length = h.length + 1 ∧
      ∀ q, q ∉ t.addrs → q < h.length → h'[q]? = h[q]?
  | .nil, fuel, h, par, t', _, _, hf, hins => by
    obtain ⟨n, rfl⟩ : ∃ n, fuel = n + 1 := ⟨fuel - 1, by omega⟩
    simp only [Tree.ins, Option.some.injEq] at hins
    subst hins
    refine ⟨h ++ [⟨none, none, none, e, 1⟩], h.length, ?_, rfl, ⟨?_, trivial, trivial⟩, ?_, ?_⟩
    · simp only [Tree.ptr_nil, insert]
    · simp
    · simp
    · intro q _ hq
      exact List.getElem?_append_left hq
  | .node x l v ht r, fuel, h, par, t', hrep, hnd, hf, hins => by
    obtain ⟨n, rfl⟩ : ∃ n, fuel = n + 1 := ⟨fuel - 1, by omega⟩
    simp only [Tree.depth_node] at hf
    have hnd0 := hnd
    simp only [Tree.addrs_node, List.nodup_append, List.nodup_cons] at hnd0
    obtain ⟨hnl, ⟨hxr, hnr⟩, -⟩ := hnd0
    have h1 := hrep.1
    obtain ⟨t1, ht1, hreb⟩ := Option.bind_eq_some.mp hins
    simp only [insert, insert_descend, Tree.ptr_node, Option.bind_eq_bind, getKey, getLeft,
      getRight, h1, Option.map_some', Option.some_bind, Option.bind_some]
    by_cases hk : e.1 ≤ v.1
    · rw [if_pos hk] at ht1
      obtain ⟨l', hl', rfl⟩ := Option.map_eq_some'.mp ht1
      obtain ⟨hA, a1, eA, pA, repA, lenA, frA⟩ :=
        ins_rep e l n h (some x) l' hrep.2.1 hnl (by omega) hl'
      obtain ⟨h', a, e', p', rep', len', fr'⟩ :=
        ins_rep_left hrep hnd (Tree.ins_addrs_perm _ e hl') pA repA lenA frA hreb
      refine ⟨h', a, ?_, p', rep', len', fr'⟩
      simp only [if_pos hk, eA, Option.some_bind]
      simpa only [Option.bind_assoc] using e'
    · rw [if_neg hk] at ht1
      obtain ⟨r', hr', rfl⟩ := Option.map_eq_some'.mp ht1
      obtain ⟨hA, a1, eA, pA, repA, lenA, frA⟩ :=
        ins_rep e r n h (some x) r' hrep.2.2 hnr (by omega) hr'
      obtain ⟨h', a, e', p', rep', len', fr'⟩ :=
        ins_rep_right hrep hnd (Tree.ins_addrs_perm _ e hr') pA repA lenA frA hreb
      refine ⟨h', a, ?_, p', rep', len', fr'⟩
      simp only [if_neg hk, eA, Option.some_bind]
      simpa only [Option.bind_assoc] using e'

end Refinement

/-! ## Order of the in-order sequence -/

section Order

variable {T1 T2 : Type}

theorem orderedInsert_append_of_le {α : Type} (r : α → α → Prop) [DecidableRel r] (e b : α)
    (hb : r e b) : ∀ (l1 l2 : List α),
    List.orderedInsert r e (l1 ++ b :: l2) = List.orderedInsert r e l1 ++ b :: l2
  | [], l2 => by simp [List.orderedInsert, hb]
  | c :: l1, l2 => by
    by_cases hc : r e c
    · simp [List.orderedInsert, hc]
    · simp [List.orderedInsert, hc, orderedInsert_append_of_le r e b hb l1 l2]

theorem orderedInsert_append_of_not_le {α : Type} (r : α → α → Prop) [DecidableRel r] (e b : α)
    (hb : ¬ r e b) : ∀ (l1 l2 : List α), (∀ x ∈ l1, ¬ r e x) →
    List.orderedInsert r e (l1 ++ b :: l2) = l1 ++ b :: List.orderedInsert r e l2
  | [], l2, _ => by simp [List.orderedInsert, hb]
  | c :: l1, l2, h => by
    have hc : ¬ r e c := h c (by simp)
    simp [List.orderedInsert, hc,
      orderedInsert_append_of_not_le r e b hb l1 l2 (fun x hx => h x (by simp [hx]))]

theorem map_snd_orderedInsert [LinearOrder T1] (f : Nat) (e : T1 × T2) :
    ∀ l : List (Nat × (T1 × T2)),
      (List.orderedInsert nodeLE (f, e) l).map Prod.snd =
        List.orderedInsert keyLE e (l.map Prod.snd)
  | [] => rfl
  | c :: l => by
    by_cases hc : e.1 ≤ c.2.1
    · have h1 : nodeLE (f, e) c := hc
      have h2 : keyLE e c.2 := hc
      simp [List.orderedInsert, h1, h2]
    · have h1 : ¬ nodeLE (f, e) c := hc
      have h2 : ¬ keyLE e c.2 := hc
      simp [List.orderedInsert, h1, h2, map_snd_orderedInsert f e l]

theorem sorted_map_snd [LinearOrder T1] (l : List (Nat × (T1 × T2))) :
    (l.map Prod.snd).Sorted keyLE ↔ l.Sorted nodeLE := by
  simp only [List.Sorted, List.pairwise_map]
  rfl

variable [LinearOrder T1]

/-- In-order effect of `insert`: the new node is placed immediately before the first
node whose key is `≥` the inserted key. -/
theorem Tree.ins_nodes (f : Nat) (e : T1 × T2) :
    ∀ {t t' : Tree T1 T2}, t.nodes.Sorted nodeLE → t.ins f e = some t' →
      t'.nodes = List.orderedInsert nodeLE (f, e) t.nodes
  | .nil, t', _, h => by
    simp only [Tree.ins, Option.some.injEq] at h
    subst h
    rfl
  | .node a l v ht r, t', hs, h => by
    simp only [Tree.ins] at h
    obtain ⟨t1, h1, h2⟩ := Option.bind_eq_some.mp h
    rw [Tree.rebal_nodes h2, Tree.fix_nodes]
    simp only [Tree.nodes_node, List.Sorted, List.pairwise_append, List.pairwise_cons] at hs
    obtain ⟨hsl, ⟨hvr, hsr⟩, hlr⟩ := hs
    split at h1
    · rename_i hk
      obtain ⟨l', hl', rfl⟩ := Option.map_eq_some'.mp h1
      rw [Tree.nodes_node, Tree.ins_nodes f e hsl hl', Tree.nodes_node,
        orderedInsert_append_of_le nodeLE (f, e) (a, v) hk]
    · rename_i hk
      obtain ⟨r', hr', rfl⟩ := Option.map_eq_some'.mp h1
      rw [Tree.nodes_node, Tree.ins_nodes f e hsr hr', Tree.nodes_node,
        orderedInsert_append_of_not_le nodeLE (f, e) (a, v) hk]
      intro x hx hle
      exact hk (le_trans hle (hlr x hx (a, v) (by simp)))

theorem Tree.ins_sorted (f : Nat) (e : T1 × T2) {t t' : Tree T1 T2}
    (hs : t.nodes.Sorted nodeLE) (h : t.ins f e = some t') : t'.nodes.Sorted nodeLE := by
  rw [Tree.ins_nodes f e hs h]
  exact hs.orderedInsert _ _

theorem Tree.weakBST_iff_sorted : ∀ t : Tree T1 T2, t.WeakBST ↔ t.toList.Sorted keyLE
  | .nil => by simp [Tree.WeakBST]
  | .node a l v ht r => by
    simp only [Tree.WeakBST, Tree.toList_node, List.Sorted, List.pairwise_append,
      List.pairwise_cons, List.mem_cons]
    have il := Tree.weakBST_iff_sorted l
    have ir := Tree.weakBST_iff_sorted r
    simp only [List.Sorted] at il ir
    rw [il, ir]
    constructor
    · rintro ⟨h1, h2, h3, h4⟩
      refine ⟨h3, ⟨h2, h4⟩, ?_⟩
      rintro x hx y (rfl | hy)
      · exact h1 x hx
      · exact le_trans (h1 x hx) (h2 y hy)
    · rintro ⟨h3, ⟨h2, h4⟩, h5⟩
      exact ⟨fun x hx => h5 x hx v (Or.inl rfl), h2, h3, h4⟩

end Order

/-! ## Reachable container states -/

section Container

variable {T1 T2 : Type}

theorem Tree.depth_le_length : ∀ t : Tree T1 T2, t.depth ≤ t.addrs.length
  | .nil => by simp
  | .node a l v ht r => by
    have := Tree.depth_le_length l
    have := Tree.depth_le_length r
    simp only [Tree.depth_node, Tree.addrs_node, List.length_append, List.length_cons]
    omega

theorem Rep.length_le {h : Heap T1 T2} {t : Tree T1 T2} {par : Option Nat} (hr : Rep h par t)
    (hnd : t.addrs.Nodup) : t.addrs.length ≤ h.length := by
  have hsub : t.addrs ⊆ List.range h.length := fun q hq =>
    List.mem_range.mpr (hr.lt_length q hq)
  simpa using (List.subperm_of_subset hnd hsub).length_le

theorem Rep.depth_le {h : Heap T1 T2} {t : Tree T1 T2} {par : Option Nat} (hr : Rep h par t)
    (hnd : t.addrs.Nodup) : t.depth ≤ h.length :=
  (Tree.depth_le_length t).trans (hr.length_le hnd)

/-- Reading the tree below the root of a represented tree gives that tree back. -/
theorem Rep.readTree {h : Heap T1 T2} : ∀ {t : Tree T1 T2} {par : Option Nat} (fuel : Nat),
    Rep h par t → t.depth ≤ fuel → readTree fuel h t.ptr = some t
  | .nil, _, fuel, _, _ => by simp [AVL.readTree]
  | .node a l v ht r, par, fuel, ⟨h1, h2, h3⟩, hf => by
    simp only [Tree.depth_node] at hf
    obtain ⟨n, rfl⟩ : ∃ n, fuel = n + 1 := ⟨fuel - 1, by omega⟩
    simp only [AVL.readTree, Tree.ptr_node, h1, Option.bind_eq_bind, Option.some_bind,
      Rep.readTree n h2 (by omega), Rep.readTree n h3 (by omega)]

variable [LinearOrder T1]

theorem Good.tree {c : AVLTree_MultiMap T1 T2} {t : Tree T1 T2} (hg : Good c t) :
    c.tree = some t := by
  unfold AVLTree_MultiMap.tree
  rw [hg.root]
  exact hg.rep.readTree _ (hg.rep.depth_le hg.nodup)

theorem Good.empty : Good (AVLTree_MultiMap.empty : AVLTree_MultiMap T1 T2) .nil :=
  ⟨rfl, trivial, List.nodup_nil, fun a ha => absurd ha (by simp [AVLTree_MultiMap.empty]),
    trivial, List.sorted_nil⟩

/-- One public `insert` keeps the container well formed and computes `Tree.ins`. -/
theorem Good.insert {c : AVLTree_MultiMap T1 T2} {t : Tree T1 T2} (hg : Good c t)
    (e : T1 × T2) :
    ∃ c' t', c.insert e = some c' ∧ Good c' t' ∧ t.ins c.heap.length e = some t' ∧
      c'._size = c._size + 1 ∧ c'.heap.length = c.heap.length + 1 := by
  obtain ⟨t', ht', hinv', -, -, -⟩ := Tree.ins_inv c.heap.length e t hg.inv
  obtain ⟨h', a, e1, p1, rep1, len1, fr1⟩ :=
    ins_rep e t (c.heap.length + 1) c.heap none t' hg.rep hg.nodup
      (Nat.lt_succ_of_le (hg.rep.depth_le hg.nodup)) ht'
  have hpar : t.ptr.bind (fun _ => (none : Option Nat)) = none := by
    cases t.ptr <;> rfl
  rw [hpar] at rep1
  have hperm := Tree.ins_addrs_perm c.heap.length e ht'
  refine ⟨⟨h', some a, c._size + 1⟩, t', ?_, ⟨p1.symm, rep1, ?_, ?_, hinv', ?_⟩, ht', rfl, len1⟩
  · simp only [AVLTree_MultiMap.insert, hg.root, e1, Option.bind_eq_bind, Option.some_bind]
  · rw [hperm.nodup_iff, List.nodup_cons]
    exact ⟨fun hq => absurd (hg.rep.lt_length _ hq) (lt_irrefl _), hg.nodup⟩
  · intro q hq
    rw [hperm.mem_iff, List.mem_cons]
    simp only [len1] at hq
    rcases Nat.lt_succ_iff_lt_or_eq.mp hq with hq | hq
    · exact Or.inr (hg.all q hq)
    · exact Or.inl hq
  · exact Tree.ins_sorted _ e hg.sorted ht'

theorem Good.insertAll : ∀ (es : List (T1 × T2)) {c : AVLTree_MultiMap T1 T2} {t : Tree T1 T2},
    Good c t → ∃ c' t', insertAll c es = some c' ∧ Good c' t' ∧
      t'.toList.Perm (es ++ t.toList) ∧ c'._size = c._size + es.length ∧
      c'.heap.length = c.heap.length + es.length
  | [], c, t, hg => ⟨c, t, rfl, hg, by simp, by simp, by simp⟩
  | e :: es, c, t, hg => by
    obtain ⟨c1, t1, e1, g1, i1, s1, l1⟩ := hg.insert e
    obtain ⟨c2, t2, e2, g2, p2, s2, l2⟩ := Good.insertAll es g1
    refine ⟨c2, t2, ?_, g2, ?_, ?_, ?_⟩
    · simp only [AVL.insertAll, e1, Option.some_bind, e2]
    · refine p2.trans ?_
      have := (Tree.ins_nodes_perm c.heap.length e i1).map Prod.snd
      rw [← Tree.toList_eq_map, List.map_cons, ← Tree.toList_eq_map] at this
      refine (List.Perm.append_left es this).trans ?_
      simp only [List.cons_append]
      exact List.perm_middle
    · rw [s2, s1, List.length_cons]; push_cast; ring
    · rw [l2, l1, List.length_cons]; ring

/-- Every sequence of public `insert` calls on a fresh container succeeds and leaves a
well-formed container holding exactly the inserted pairs. -/
theorem build_good (es : List (T1 × T2)) :
    ∃ c t, build es = some c ∧ Good c t ∧ t.toList.Perm es ∧ c._size = es.length ∧
      c.heap.length = es.length := by
  obtain ⟨c, t, e1, g, p, s, l⟩ := Good.insertAll es (@Good.empty T1 T2 _)
  refine ⟨c, t, e1, g, by simpa using p, ?_, ?_⟩
  · simpa [AVLTree_MultiMap.empty] using s
  · simpa [AVLTree_MultiMap.empty] using l

end Container

/-! ## Range queries -/

section Bounds

variable {T1 T2 : Type} [LinearOrder T1]

/-- The loop of `lower_bound` returns the first in-order node with key `≥ first`, or the
candidate it started with when the subtree has none. -/
theorem lower_bound_loop_rep (k : T1) {h : Heap T1 T2} :
    ∀ (t : Tree T1 T2) (fuel : Nat) (par best : Option Nat), Rep h par t →
      t.nodes.Sorted nodeLE → t.depth < fuel →
      lower_bound_loop fuel h k t.ptr best =
        some (((t.nodes.find? (fun n => decide (k ≤ n.2.1))).map Prod.fst).or best)
  | .nil, fuel, par, best, _, _, hf => by
    obtain ⟨n, rfl⟩ : ∃ n, fuel = n + 1 := ⟨fuel - 1, by omega⟩
    simp [lower_bound_loop]
  | .node a l v ht r, fuel, par, best, ⟨h1, h2, h3⟩, hs, hf => by
    obtain ⟨n, rfl⟩ : ∃ n, fuel = n + 1 := ⟨fuel - 1, by omega⟩
    simp only [Tree.depth_node] at hf
    simp only [Tree.nodes_node, List.Sorted, List.pairwise_append, List.pairwise_cons] at hs
    obtain ⟨hsl, ⟨hvr, hsr⟩, hlr⟩ := hs
    simp only [lower_bound_loop, Tree.ptr_node, getKey, getLeft, getRight, h1, Option.map_some',
      Option.bind_eq_bind, Option.some_bind, Tree.nodes_node, List.find?_append]
    by_cases hk : k ≤ v.1
    · rw [if_pos hk, lower_bound_loop_rep k l n (some a) (some a) h2 hsl (by omega)]
      simp only [List.find?_cons, hk, decide_True]
      cases List.find? (fun n => decide (k ≤ n.2.1)) l.nodes <;> simp
    · rw [if_neg hk, lower_bound_loop_rep k r n (some a) best h3 hsr (by omega)]
      have hnone : List.find? (fun n => decide (k ≤ n.2.1)) l.nodes = none := by
        rw [List.find?_eq_none]
        intro x hx
        have : x.2.1 ≤ v.1 := hlr x hx (a, v) (by simp)
        simpa using fun hkx => hk (le_trans hkx this)
      simp only [hnone, List.find?_cons, hk, decide_False, Option.none_or]

/-- The loop of `upper_bound` returns the first in-order node with key `> last`, or the
candidate it started with when the subtree has none. -/
theorem upper_bound_loop_rep (k : T1) {h : Heap T1 T2} :
    ∀ (t : Tree T1 T2) (fuel : Nat) (par best : Option Nat), Rep h par t →
      t.nodes.Sorted nodeLE → t.depth < fuel →
      upper_bound_loop fuel h k t.ptr best =
        some (((t.nodes.find? (fun n => decide (k < n.2.1))).map Prod.fst).or best)
  | .nil, fuel, par, best, _, _, hf => by
    obtain ⟨n, rfl⟩ : ∃ n, fuel = n + 1 := ⟨fuel - 1, by omega⟩
    simp [upper_bound_loop]
  | .node a l v ht r, fuel, par, best, ⟨h1, h2, h3⟩, hs, hf => by
    obtain ⟨n, rfl⟩ : ∃ n, fuel = n + 1 := ⟨fuel - 1, by omega⟩
    simp only [Tree.depth_node] at hf
    simp only [Tree.nodes_node, List.Sorted, List.pairwise_append, List.pairwise_cons] at hs
    obtain ⟨hsl, ⟨hvr, hsr⟩, hlr⟩ := hs
    simp only [upper_bound_loop, Tree.ptr_node, getKey, getLeft, getRight, h1, Option.map_some',
      Option.bind_eq_bind, Option.some_bind, Tree.nodes_node, List.find?_append]
    by_cases hk : k < v.1
    · rw [if_pos hk, upper_bound_loop_rep k l n (some a) (some a) h2 hsl (by omega)]
      simp only [List.find?_cons, hk, decide_True]
      cases List.find? (fun n => decide (k < n.2.1)) l.nodes <;> simp
    · rw [if_neg hk, upper_bound_loop_rep k r n (some a) best h3 hsr (by omega)]
      have hnone : List.find? (fun n => decide (k < n.2.1)) l.nodes = none := by
        rw [List.find?_eq_none]
        intro x hx
        have : x.2.1 ≤ v.1 := hlr x hx (a, v) (by simp)
        simpa using le_trans this (not_lt.mp hk)
      simp only [hnone, List.find?_cons, hk, decide_False, Option.none_or]

theorem Good.lower_bound {c : AVLTree_MultiMap T1 T2} {t : Tree T1 T2} (hg : Good c t) (k : T1) :
    c.lower_bound k = some ⟨(t.nodes.find? (fun n => decide (k ≤ n.2.1))).map Prod.fst⟩ := by
  unfold AVLTree_MultiMap.lower_bound
  rw [hg.root, lower_bound_loop_rep k t _ none none hg.rep hg.sorted
    (Nat.lt_succ_of_le (hg.rep.depth_le hg.nodup))]
  simp

theorem Good.upper_bound {c : AVLTree_MultiMap T1 T2} {t : Tree T1 T2} (hg : Good c t) (k : T1) :
    c.upper_bound k = some ⟨(t.nodes.find? (fun n => decide (k < n.2.1))).map Prod.fst⟩ := by
  unfold AVLTree_MultiMap.upper_bound
  rw [hg.root, upper_bound_loop_rep k t _ none none hg.rep hg.sorted
    (Nat.lt_succ_of_le (hg.rep.depth_le hg.nodup))]
  simp

end Bounds

/-! ## The cursor -/

section CursorLemmas

variable {T1 T2 : Type}

theorem nextIn_append_left (d : Option Nat) (a : Nat) (l2 : List Nat) :
    ∀ l1 : List Nat, a ∈ l1 → nextIn d (l1 ++ l2) a = nextIn ((l2.head?).or d) l1 a
  | [], h => by simp at h
  | b :: l1, h => by
    by_cases hb : b = a
    · simp only [List.cons_append, nextIn, if_pos hb]
      cases l1 <;> simp
    · simp only [List.cons_append, nextIn, if_neg hb]
      exact nextIn_append_left d a l2 l1 (by simpa [Ne.symm hb] using h)

theorem nextIn_append_right (d : Option Nat) (a : Nat) (l2 : List Nat) :
    ∀ l1 : List Nat, a ∉ l1 → nextIn d (l1 ++ l2) a = nextIn d l2 a
  | [], _ => rfl
  | b :: l1, h => by
    simp only [List.mem_cons, not_or] at h
    simp only [List.cons_append, nextIn, if_neg (Ne.symm h.1)]
    exact nextIn_append_right d a l2 l1 h.2

theorem nextIn_getElem (d : Option Nat) (a : Nat) :
    ∀ (l : List Nat) (i : Nat), l.Nodup → l[i]? = some a → nextIn d l a = (l[i + 1]?).or d
  | [], i, _, h => by simp at h
  | b :: l, 0, _, h => by
    simp only [List.getElem?_cons_zero, Option.some.injEq] at h
    simp only [nextIn, if_pos h, List.getElem?_cons_succ]
    cases l <;> simp
  | b :: l, i + 1, hn, h => by
    simp only [List.getElem?_cons_succ] at h
    have hmem : a ∈ l := List.getElem?_mem h
    have hb : b ≠ a := fun e => (List.nodup_cons.mp hn).1 (e ▸ hmem)
    simp only [nextIn, if_neg hb, List.getElem?_cons_succ]
    exact nextIn_getElem d a l i (List.nodup_cons.mp hn).2 h

/-- The loop `while(current->left)` stops at the first in-order node of the subtree. -/
theorem descend_left_rep {h : Heap T1 T2} : ∀ (t : Tree T1 T2) (par : Option Nat) (x f : Nat),
    Rep h par t → t.ptr = some x → t.depth ≤ f → descend_left f h x = t.addrs.head?
  | .nil, _, _, _, _, hp, _ => by simp at hp
  | .node a l v ht r, par, x, f, ⟨h1, h2, h3⟩, hp, hf => by
    simp only [Tree.ptr_node, Option.some.injEq] at hp
    subst hp
    simp only [Tree.depth_node] at hf
    obtain ⟨n, rfl⟩ : ∃ n, f = n + 1 := ⟨f - 1, by omega⟩
    cases l with
    | nil =>
      simp [descend_left, getLeft, h1]
    | node b lb vb hb rb =>
      have := descend_left_rep (.node b lb vb hb rb) (some a) b n h2 rfl (by omega)
      simp only [descend_left, getLeft, h1, Option.map_some', Option.bind_eq_bind,
        Option.some_bind, Tree.ptr_node, this]
      simp

/-- Successor step below a subtree: for a node `a` of the subtree `t` whose root lies
`d` levels below the root of the whole tree, and from whose root the climbing loop
ends in `c`, the two loops of `operator++` find the in-order successor of `a` in `t`,
and `c` when `a` is the last node of `t`. -/
theorem next_rep {h : Heap T1 T2} : ∀ (t : Tree T1 T2) (par c : Option Nat) (d : Nat),
    Rep h par t → t.addrs.Nodup →
    (∀ x, t.ptr = some x → ∀ f, d < f → climb f h x = some c) →
    ∀ a ∈ t.addrs, ∃ n, h[a]? = some n ∧
      (∀ r, n.right = some r → ∀ f, t.depth ≤ f →
        ∃ s, descend_left f h r = some s ∧ nextIn c t.addrs a = some s) ∧
      (n.right = none → ∀ f, d + t.depth ≤ f → climb f h a = some (nextIn c t.addrs a))
  | .nil, _, _, _, _, _, _, a, ha => by simp at ha
  | .node x l v ht r, par, c, d, hrep, hnd, hc, a, ha => by
    obtain ⟨h1, h2, h3⟩ := hrep
    have hnd0 := hnd
    simp only [Tree.addrs_node, List.nodup_append, List.nodup_cons, List.mem_append,
      List.mem_cons, List.disjoint_cons_right, not_or] at hnd0
    obtain ⟨hnl, ⟨hxr, hnr⟩, hxl, hlr⟩ := hnd0
    simp only [Tree.addrs_node, List.mem_append, List.mem_cons] at ha
    simp only [Tree.depth_node, Tree.addrs_node]
    rcases ha with ha | rfl | ha
    · -- `a` is in the left subtree: climbing from the root of `l` ends in `x`
      have hcl : ∀ y, l.ptr = some y → ∀ f, d + 1 < f → climb f h y = some (some x) := by
        intro y hy f hf
        obtain ⟨n, rfl⟩ : ∃ n, f = n + 1 := ⟨f - 1, by omega⟩
        cases l with
        | nil => simp at hy
        | node b lb vb hb rb =>
          simp only [Tree.ptr_node, Option.some.injEq] at hy
          subst hy
          simp [climb, getParent, getLeft, h2.1, h1]
      obtain ⟨n, hn, hR, hN⟩ := next_rep l (some x) (some x) (d + 1) h2 hnl hcl a ha
      refine ⟨n, hn, ?_, ?_⟩
      · intro q hq f hf
        obtain ⟨s, hs1, hs2⟩ := hR q hq f (by omega)
        exact ⟨s, hs1, by rw [nextIn_append_left _ _ _ _ ha]; simpa using hs2⟩
      · intro hq f hf
        rw [hN hq f (by omega), nextIn_append_left _ _ _ _ ha]
        simp
    · -- `a` is the root
      refine ⟨_, h1, ?_, ?_⟩
      · intro q hq f hf
        cases r with
        | nil => simp at hq
        | node b lb vb hb rb =>
          simp only [Tree.ptr_node, Option.some.injEq] at hq
          subst hq
          have := descend_left_rep (.node b lb vb hb rb) (some a) b f h3 rfl (by omega)
          rw [nextIn_append_right _ _ _ _ hxl]
          simp only [nextIn, if_pos]
          cases hh : (Tree.node b lb vb hb rb).addrs with
          | nil => simp at hh
          | cons s rest =>
            rw [hh] at this
            exact ⟨s, by simpa using this, by simp⟩
      · intro hq f hf
        cases r with
        | nil =>
          rw [hc a rfl f (by omega), nextIn_append_right _ _ _ _ hxl]
          simp [nextIn]
        | node b lb vb hb rb => simp at hq
    · -- `a` is in the right subtree: climbing from the root of `r` passes through `x`
      have hal : a ∉ l.addrs := fun hq => hlr hq ha
      have hax : x ≠ a := fun e => hxr (e ▸ ha)
      have hcr : ∀ y, r.ptr = some y → ∀ f, d + 1 < f → climb f h y = some c := by
        intro y hy f hf
        obtain ⟨n, rfl⟩ : ∃ n, f = n + 1 := ⟨f - 1, by omega⟩
        cases r with
        | nil => simp at hy
        | node b lb vb hb rb =>
          simp only [Tree.ptr_node, Option.some.injEq] at hy
          subst hy
          have hyl : b ∉ l.addrs := fun hq => hlr hq (by simp)
          have hne : ¬ (some b = l.ptr) := fun e => Tree.ptr_ne_of_not_mem hyl e.symm
          simp only [climb, getParent, getLeft, h3.1, h1, Option.map_some', Option.bind_eq_bind,
            Option.some_bind, if_neg hne]
          exact hc x rfl n (by omega)
      obtain ⟨n, hn, hR, hN⟩ := next_rep r (some x) c (d + 1) h3 hnr hcr a ha
      have hnx : nextIn c (l.addrs ++ x :: r.addrs) a = nextIn c r.addrs a := by
        rw [nextIn_append_right _ _ _ _ hal]
        simp only [nextIn, if_neg hax]
      refine ⟨n, hn, ?_, ?_⟩
      · intro q hq f hf
        obtain ⟨s, hs1, hs2⟩ := hR q hq f (by omega)
        exact ⟨s, hs1, by rw [hnx]; exact hs2⟩
      · intro hq f hf
        rw [hN hq f (by omega), hnx]

end CursorLemmas

section CursorTop

variable {T1 T2 : Type}

/-- Every node of a represented tree is stored at its address with its pair. -/
theorem Rep.lookup {h : Heap T1 T2} : ∀ {t : Tree T1 T2} {par : Option Nat}, Rep h par t →
    ∀ a v, (a, v) ∈ t.nodes → ∃ n, h[a]? = some n ∧ n.values = v
  | .nil, _, _, a, v, hm => by simp at hm
  | .node x l w ht r, par, ⟨h1, h2, h3⟩, a, v, hm => by
    simp only [Tree.nodes_node, List.mem_append, List.mem_cons, Prod.mk.injEq] at hm
    rcases hm with hm | ⟨rfl, rfl⟩ | hm
    · exact Rep.lookup h2 a v hm
    · exact ⟨_, h1, rfl⟩
    · exact Rep.lookup h3 a v hm

variable [LinearOrder T1]

/-- Cursor `operator++` on a well-formed container moves from the `i`-th node of the
in-order sequence to the `i+1`-th, and to the end cursor from the last one. -/
theorem Good.advance {c : AVLTree_MultiMap T1 T2} {t : Tree T1 T2} (hg : Good c t)
    {i a : Nat} (hi : t.addrs[i]? = some a) :
    (InOrderIterator.mk (some a)).advance c.heap = some ⟨t.addrs[i + 1]?⟩ := by
  have hc : ∀ x, t.ptr = some x → ∀ f, 0 < f → climb f c.heap x = some none := by
    intro x hx f hf
    obtain ⟨n, rfl⟩ : ∃ n, f = n + 1 := ⟨f - 1, by omega⟩
    cases t with
    | nil => simp at hx
    | node y l v ht r =>
      simp only [Tree.ptr_node, Option.some.injEq] at hx
      subst hx
      simp [climb, getParent, hg.rep.1]
  obtain ⟨n, hn, hR, hN⟩ :=
    next_rep t none none 0 hg.rep hg.nodup hc a (List.getElem?_mem hi)
  have hd := hg.rep.depth_le hg.nodup
  have hnx := nextIn_getElem none a t.addrs i hg.nodup hi
  simp only [Option.or_none] at hnx
  simp only [InOrderIterator.advance, getRight, hn, Option.map_some', Option.bind_eq_bind,
    Option.some_bind]
  cases hr : n.right with
  | none =>
    simp only [hN hr (c.heap.length + 1) (by omega), Option.some_bind, hnx]
  | some r =>
    obtain ⟨s, hs1, hs2⟩ := hR r hr (c.heap.length + 1) (by omega)
    simp only [hs1, Option.some_bind]
    rw [← hnx, hs2]

/-- Walking the cursor from the `i`-th in-order node to the end outputs the in-order
sequence of pairs from position `i` on. -/
theorem Good.traverse_from {c : AVLTree_MultiMap T1 T2} {t : Tree T1 T2} (hg : Good c t) :
    ∀ (k i f : Nat), i + k = t.nodes.length → k < f →
      AVL.traverse f c.heap ⟨t.addrs[i]?⟩ = some (t.toList.drop i)
  | 0, i, f, hik, hf => by
    obtain ⟨n, rfl⟩ : ∃ n, f = n + 1 := ⟨f - 1, by omega⟩
    have h1 : t.addrs[i]? = none := by
      rw [List.getElem?_eq_none]
      rw [Tree.addrs_eq_map, List.length_map]; omega
    have h2 : t.toList.drop i = [] := by
      rw [List.drop_eq_nil_iff]
      rw [Tree.toList_eq_map, List.length_map]; omega
    simp only [AVL.traverse, h1, h2, if_true]
  | k + 1, i, f, hik, hf => by
    obtain ⟨n, rfl⟩ : ∃ n, f = n + 1 := ⟨f - 1, by omega⟩
    have hi : i < t.nodes.length := by omega
    have hnode : t.nodes[i]? = some t.nodes[i] := List.getElem?_eq_getElem hi
    have ha : t.addrs[i]? = some t.nodes[i].1 := by
      rw [Tree.addrs_eq_map, List.getElem?_map, hnode]; rfl
    have hv : t.toList[i]? = some t.nodes[i].2 := by
      rw [Tree.toList_eq_map, List.getElem?_map, hnode]; rfl
    obtain ⟨m, hm1, hm2⟩ := hg.rep.lookup t.nodes[i].1 t.nodes[i].2 (List.getElem?_mem hnode)
    have hadv := hg.advance ha
    have hrest := Good.traverse_from hg k (i + 1) n (by omega) (by omega)
    have hdrop : t.toList.drop i = t.nodes[i].2 :: t.toList.drop (i + 1) := by
      have hi' : i < t.toList.length := by
        rw [Tree.toList_eq_map, List.length_map]; exact hi
      rw [List.drop_eq_getElem_cons hi']
      congr 1
      have := List.getElem?_eq_getElem hi'
      rw [hv] at this
      exact (Option.some.inj this).symm
    have hne : ¬ (InOrderIterator.mk (some t.nodes[i].1) = ⟨none⟩) := by simp
    simp only [AVL.traverse, ha, if_neg hne, InOrderIterator.deref, hm1, hm2, hadv, hrest,
      Option.bind_eq_bind, Option.some_bind, hdrop]

/-- A full walk from the first in-order node outputs the whole in-order sequence. -/
theorem Good.traverse_all {c : AVLTree_MultiMap T1 T2} {t : Tree T1 T2} (hg : Good c t) :
    AVL.traverse (c.heap.length + 1) c.heap ⟨t.addrs.head?⟩ = some t.toList := by
  have hlen : t.nodes.length ≤ c.heap.length := by
    have := hg.rep.length_le hg.nodup
    rwa [Tree.addrs_eq_map, List.length_map] at this
  have := Good.traverse_from hg t.nodes.length 0 (c.heap.length + 1) (by omega) (by omega)
  rw [List.drop_zero] at this
  rw [← this]
  cases t.addrs <;> simp

/-- A key below every stored key has the first in-order node as its lower bound. -/
theorem Good.lower_bound_min {c : AVLTree_MultiMap T1 T2} {t : Tree T1 T2} (hg : Good c t)
    (k : T1) (hk : ∀ e ∈ t.toList, k ≤ e.1) : c.lower_bound k = some ⟨t.addrs.head?⟩ := by
  rw [hg.lower_bound k]
  congr 2
  rw [Tree.addrs_eq_map]
  cases hn : t.nodes with
  | nil => rfl
  | cons n rest =>
    have : k ≤ n.2.1 := hk n.2 (by rw [Tree.toList_eq_map, hn]; simp)
    simp [List.find?_cons, this]

end CursorTop

/-! ## Shape of reachable trees -/

section Shape

variable {T1 T2 : Type}

theorem Tree.Inv.cached_eq_depth : ∀ {t : Tree T1 T2}, t.Inv → t.cached = (t.depth : Int)
  | .nil, _ => rfl
  | .node _ l _ h r, ⟨hh, _, _, hl, hr⟩ => by
    have := Tree.Inv.cached_eq_depth hl
    have := Tree.Inv.cached_eq_depth hr
    simp only [Tree.cached_node, Tree.depth_node]
    omega

theorem Tree.Inv.balanced : ∀ {t : Tree T1 T2}, t.Inv → t.Balanced
  | .nil, _ => trivial
  | .node _ l _ h r, ⟨_, h1, h2, hl, hr⟩ =>
    ⟨abs_le.mpr ⟨by omega, by omega⟩, Tree.Inv.balanced hl, Tree.Inv.balanced hr⟩

theorem Tree.Inv.depthBalanced : ∀ {t : Tree T1 T2}, t.Inv → t.DepthBalanced
  | .nil, _ => trivial
  | .node _ l _ h r, ⟨_, h1, h2, hl, hr⟩ => by
    have := Tree.Inv.cached_eq_depth hl
    have := Tree.Inv.cached_eq_depth hr
    exact ⟨abs_le.mpr ⟨by omega, by omega⟩, Tree.Inv.depthBalanced hl,
      Tree.Inv.depthBalanced hr⟩

theorem Tree.Inv.heightOk : ∀ {t : Tree T1 T2}, t.Inv → t.HeightOk
  | .nil, _ => trivial
  | .node _ _ _ _ _, ⟨hh, _, _, hl, hr⟩ => ⟨hh, Tree.Inv.heightOk hl, Tree.Inv.heightOk hr⟩

theorem Tree.Inv.heightTrue : ∀ {t : Tree T1 T2}, t.Inv → t.HeightTrue
  | .nil, _ => trivial
  | .node a l v h r, hi =>
    ⟨Tree.Inv.cached_eq_depth (t := .node a l v h r) hi, Tree.Inv.heightTrue hi.2.2.2.1,
      Tree.Inv.heightTrue hi.2.2.2.2⟩

/-- In a represented tree every node's `parent` field names the node whose child slot
holds it, and every child slot points to a node whose `parent` field points back. -/
theorem Rep.parents {h : Heap T1 T2} : ∀ {t : Tree T1 T2} {par : Option Nat}, Rep h par t →
    t.addrs.Nodup → ∀ a ∈ t.addrs, ∃ n, h[a]? = some n ∧
      (t.ptr = some a → n.parent = par) ∧
      (t.ptr ≠ some a → ∃ p pn, n.parent = some p ∧ h[p]? = some pn ∧
        (pn.left = some a ∨ pn.right = some a)) ∧
      (∀ ch, n.left = some ch ∨ n.right = some ch → ∃ m, h[ch]? = some m ∧ m.parent = some a)
  | .nil, _, _, _, a, ha => by simp at ha
  | .node x l v ht r, par, ⟨h1, h2, h3⟩, hnd, a, ha => by
    simp only [Tree.addrs_node, List.nodup_append, List.nodup_cons, List.mem_append,
      List.mem_cons, List.disjoint_cons_right, not_or] at hnd
    obtain ⟨hnl, ⟨hxr, hnr⟩, hxl, hlr⟩ := hnd
    simp only [Tree.addrs_node, List.mem_append, List.mem_cons] at ha
    rcases ha with ha | rfl | ha
    · obtain ⟨n, hn, p1, p2, p3⟩ := Rep.parents h2 hnl a ha
      have hax : x ≠ a := fun e => hxl (e ▸ ha)
      refine ⟨n, hn, fun e => absurd (Option.some.inj e) hax, fun _ => ?_, p3⟩
      by_cases hr : l.ptr = some a
      · exact ⟨x, _, p1 hr, h1, Or.inl hr⟩
      · exact p2 hr
    · refine ⟨_, h1, fun _ => rfl, fun e => absurd rfl e, ?_⟩
      rintro ch (hch | hch)
      · cases l with
        | nil => simp at hch
        | node y ly vy hy ry =>
          simp only [Tree.ptr_node, Option.some.injEq] at hch
          subst hch
          exact ⟨_, h2.1, rfl⟩
      · cases r with
        | nil => simp at hch
        | node y ly vy hy ry =>
          simp only [Tree.ptr_node, Option.some.injEq] at hch
          subst hch
          exact ⟨_, h3.1, rfl⟩
    · obtain ⟨n, hn, p1, p2, p3⟩ := Rep.parents h3 hnr a ha
      have hax : x ≠ a := fun e => hxr (e ▸ ha)
      refine ⟨n, hn, fun e => absurd (Option.some.inj e) hax, fun _ => ?_, p3⟩
      by_cases hr : r.ptr = some a
      · exact ⟨x, _, p1 hr, h1, Or.inr hr⟩
      · exact p2 hr

variable [LinearOrder T1]

theorem Tree.WeakBST.strict : ∀ {t : Tree T1 T2}, t.WeakBST → (t.toList.map Prod.fst).Nodup →
    t.StrictBST
  | .nil, _, _ => trivial
  | .node a l v ht r, ⟨h1, h2, h3, h4⟩, hn => by
    simp only [Tree.toList_node, List.map_append, List.map_cons, List.nodup_append,
      List.nodup_cons] at hn
    obtain ⟨hnl, ⟨hvr, hnr⟩, -⟩ := hn
    refine ⟨h1, fun x hx => lt_of_le_of_ne (h2 x hx) ?_, Tree.WeakBST.strict h3 hnl,
      Tree.WeakBST.strict h4 hnr⟩
    intro e
    exact hvr (e ▸ List.mem_map_of_mem Prod.fst hx)

theorem Good.weakBST {c : AVLTree_MultiMap T1 T2} {t : Tree T1 T2} (hg : Good c t) :
    t.WeakBST := by
  rw [Tree.weakBST_iff_sorted, Tree.toList_eq_map, sorted_map_snd]
  exact hg.sorted

end Shape

/-! ## The claims -/

section Claims

variable {T1 T2 : Type}

/-- What `find?` on the in-order node sequence returns: the first node that satisfies
the test, and nothing exactly when no node satisfies it. -/
theorem find_first (p : Nat × (T1 × T2) → Bool) (l : List (Nat × (T1 × T2))) :
    (∀ a, (l.find? p).map Prod.fst = some a →
      ∃ pre v post, l = pre ++ (a, v) :: post ∧ p (a, v) = true ∧ ∀ m ∈ pre, p m = false) ∧
    ((l.find? p).map Prod.fst = none ↔ ∀ n ∈ l, p n = false) := by
  constructor
  · intro a ha
    obtain ⟨⟨a', v⟩, hf, rfl⟩ := Option.map_eq_some'.mp ha
    obtain ⟨hp, pre, post, hl, hpre⟩ := List.find?_eq_some.mp hf
    exact ⟨pre, v, post, hl, hp, fun m hm => by simpa using hpre m hm⟩
  · rw [Option.map_eq_none', List.find?_eq_none]
    simp

variable [LinearOrder T1]

/-- C1: in the key-routing variant, every finite sequence of insert calls on an empty
container succeeds, and every node of the resulting tree satisfies
`|height(left) - height(right)| ≤ 1`, both for the heights `get_height` reports (the
cached field, 0 for an absent child) and for the structural heights. -/
theorem C1_height_invariant (es : List (T1 × T2)) :
    ∃ c t, build es = some c ∧ c.tree = some t ∧ t.Balanced ∧ t.DepthBalanced := by
  obtain ⟨c, t, hb, hg, -, -, -⟩ := build_good es
  exact ⟨c, t, hb, hg.tree, hg.inv.balanced, hg.inv.depthBalanced⟩

/-- C2 (counterexample): inserting the key 3 three times leaves a node whose right
subtree holds a key equal to its own, so the strict right-hand side of the ordering
invariant fails. -/
theorem C2_counterexample :
    ∃ c t, build [((3 : Nat), (0 : Nat)), (3, 1), (3, 2)] = some c ∧ c.tree = some t ∧
      ¬ t.StrictBST :=
  ⟨⟨[⟨none, none, some 1, (3, 0), 1⟩, ⟨some 2, some 0, none, (3, 1), 2⟩,
      ⟨none, none, some 1, (3, 2), 1⟩], some 1, 3⟩,
    .node 1 (.node 2 .nil (3, 2) 1 .nil) (3, 1) 2 (.node 0 .nil (3, 0) 1 .nil),
    by rfl, by rfl, by simp [Tree.StrictBST]⟩

/-- C2 (amended): after any sequence of insert calls on an empty container, at every
node every key in the left subtree is `≤` the node's key and every key in the right
subtree is `≥` it; when the inserted keys are pairwise distinct the right side is
strict. -/
theorem C2_ordering_invariant (es : List (T1 × T2)) :
    ∃ c t, build es = some c ∧ c.tree = some t ∧ t.WeakBST ∧
      ((es.map Prod.fst).Nodup → t.StrictBST) := by
  obtain ⟨c, t, hb, hg, hp, -, -⟩ := build_good es
  refine ⟨c, t, hb, hg.tree, hg.weakBST, fun hn => hg.weakBST.strict ?_⟩
  exact ((hp.map Prod.fst).nodup_iff).mpr hn

/-- C3: on a container built by insert calls, `lower_bound(k)` returns a cursor to the
first node of the in-order sequence whose key is `≥ k` (every node before it has a key
`< k`), and the end cursor exactly when no node has a key `≥ k`. -/
theorem C3_lower_bound (es : List (T1 × T2)) (k : T1) :
    ∃ c t it, build es = some c ∧ c.tree = some t ∧ c.lower_bound k = some it ∧
      (∀ a, it.node = some a → ∃ pre v post, t.nodes = pre ++ (a, v) :: post ∧
        k ≤ v.1 ∧ ∀ m ∈ pre, m.2.1 < k) ∧
      (it.node = none ↔ ∀ n ∈ t.nodes, n.2.1 < k) := by
  obtain ⟨c, t, hb, hg, -, -, -⟩ := build_good es
  obtain ⟨h1, h2⟩ := find_first (fun n => decide (k ≤ n.2.1)) t.nodes
  refine ⟨c, t, _, hb, hg.tree, hg.lower_bound k, ?_, ?_⟩
  · intro a ha
    obtain ⟨pre, v, post, hl, hp, hpre⟩ := h1 a ha
    exact ⟨pre, v, post, hl, by simpa using hp, fun m hm => by simpa using hpre m hm⟩
  · simp

/-- C4: on a container built by insert calls, `upper_bound(k)` returns a cursor to the
first node of the in-order sequence whose key is strictly `> k` (every node before it
has a key `≤ k`), and the end cursor exactly when no node has a key `> k`. -/
theorem C4_upper_bound (es : List (T1 × T2)) (k : T1) :
    ∃ c t it, build es = some c ∧ c.tree = some t ∧ c.upper_bound k = some it ∧
      (∀ a, it.node = some a → ∃ pre v post, t.nodes = pre ++ (a, v) :: post ∧
        k < v.1 ∧ ∀ m ∈ pre, m.2.1 ≤ k) ∧
      (it.node = none ↔ ∀ n ∈ t.nodes, n.2.1 ≤ k) := by
  obtain ⟨c, t, hb, hg, -, -, -⟩ := build_good es
  obtain ⟨h1, h2⟩ := find_first (fun n => decide (k < n.2.1)) t.nodes
  refine ⟨c, t, _, hb, hg.tree, hg.upper_bound k, ?_, ?_⟩
  · intro a ha
    obtain ⟨pre, v, post, hl, hp, hpre⟩ := h1 a ha
    exact ⟨pre, v, post, hl, by simpa using hp, fun m hm => by simpa using hpre m hm⟩
  · simp

/-- C5: on a container built by insert calls, the in-order sequence of node addresses
has no repetition, and `operator++` on a cursor at its `i`-th node moves the cursor to
the `i+1`-th node, which is the end cursor exactly when the `i`-th node is the last. -/
theorem C5_advance (es : List (T1 × T2)) :
    ∃ c t, build es = some c ∧ c.tree = some t ∧ t.addrs.Nodup ∧
      ∀ i a, t.addrs[i]? = some a →
        (InOrderIterator.mk (some a)).advance c.heap = some ⟨t.addrs[i + 1]?⟩ ∧
        (t.addrs[i + 1]? = none ↔ i + 1 = t.addrs.length) := by
  obtain ⟨c, t, hb, hg, -, -, -⟩ := build_good es
  refine ⟨c, t, hb, hg.tree, hg.nodup, fun i a hi => ⟨hg.advance hi, ?_⟩⟩
  have hlt : i < t.addrs.length := by
    by_contra hn
    rw [List.getElem?_eq_none (not_lt.mp hn)] at hi
    exact absurd hi (by simp)
  rw [List.getElem?_eq_none_iff]
  omega

/-- C6: on a container built by insert calls, a cursor started at `lower_bound` of a key
no larger than any inserted key and advanced until it equals the end cursor visits as
many nodes as were inserted, with keys in non-decreasing order. -/
theorem C6_inorder_monotone (es : List (T1 × T2)) (k0 : T1) (hk : ∀ e ∈ es, k0 ≤ e.1) :
    ∃ c it out, build es = some c ∧ c.lower_bound k0 = some it ∧
      traverse (c.heap.length + 1) c.heap it = some out ∧ out.length = es.length ∧
      (out.map Prod.fst).Sorted (· ≤ ·) := by
  obtain ⟨c, t, hb, hg, hp, -, -⟩ := build_good es
  refine ⟨c, _, t.toList, hb, hg.lower_bound_min k0 (fun e he => hk e (hp.mem_iff.mp he)),
    hg.traverse_all, hp.length_eq, ?_⟩
  have := (sorted_map_snd t.nodes).mpr hg.sorted
  rw [← Tree.toList_eq_map] at this
  exact List.pairwise_map.mpr this

/-- C6 (witness): inserting the keys 5, 3, 8, 3, 1 and walking from `lower_bound(1)`
yields the keys 1, 3, 3, 5, 8. -/
theorem C6_witness :
    (∀ e ∈ [((5 : Nat), (0 : Nat)), (3, 1), (8, 2), (3, 3), (1, 4)], 1 ≤ e.1) ∧
    (∃ c it out, build [((5 : Nat), (0 : Nat)), (3, 1), (8, 2), (3, 3), (1, 4)] = some c ∧
      c.lower_bound 1 = some it ∧
      traverse (c.heap.length + 1) c.heap it = some out ∧ out.length = 5 ∧
      (out.map Prod.fst).Sorted (· ≤ ·)) ∧
    ((build [((5 : Nat), (0 : Nat)), (3, 1), (8, 2), (3, 3), (1, 4)]).bind (fun c =>
      (c.lower_bound 1).bind (fun it =>
        (traverse (c.heap.length + 1) c.heap it).map (List.map Prod.fst)))) =
      some [1, 3, 3, 5, 8] :=
  ⟨by decide, C6_inorder_monotone _ 1 (by decide), by decide⟩

/-- C7: on a container built by insert calls, the multiset of pairs output by a full
cursor walk (from `lower_bound` of a key no larger than any inserted key until the end
cursor) is exactly the multiset of pairs inserted. -/
theorem C7_roundtrip (es : List (T1 × T2)) (k0 : T1) (hk : ∀ e ∈ es, k0 ≤ e.1) :
    ∃ c it out, build es = some c ∧ c.lower_bound k0 = some it ∧
      traverse (c.heap.length + 1) c.heap it = some out ∧
      (out : Multiset (T1 × T2)) = (es : Multiset (T1 × T2)) := by
  obtain ⟨c, t, hb, hg, hp, -, -⟩ := build_good es
  exact ⟨c, _, t.toList, hb, hg.lower_bound_min k0 (fun e he => hk e (hp.mem_iff.mp he)),
    hg.traverse_all, Multiset.coe_eq_coe.mpr hp⟩

/-- C7 (witness): the pairs (2,7), (1,7), (2,7), (1,8), with a duplicate pair and
duplicate keys, walked from `lower_bound(0)`. -/
theorem C7_witness :
    (∀ e ∈ [((2 : Nat), (7 : Nat)), (1, 7), (2, 7), (1, 8)], 0 ≤ e.1) ∧
    ∃ c it out, build [((2 : Nat), (7 : Nat)), (1, 7), (2, 7), (1, 8)] = some c ∧
      c.lower_bound 0 = some it ∧ traverse (c.heap.length + 1) c.heap it = some out ∧
      (out : Multiset (Nat × Nat)) = ([(2, 7), (1, 7), (2, 7), (1, 8)] : List (Nat × Nat)) :=
  ⟨by decide, C7_roundtrip _ 0 (by decide)⟩

/-- C8 (failing input): in the height-comparison variant, inserting the keys 3, 1, 2
leaves the root with a left subtree of height 2 and no right subtree. -/
theorem C8_height_variant_unbalanced :
    ∃ c t, _build [((3 : Nat), (0 : Nat)), (1, 0), (2, 0)] = some c ∧ c.tree = some t ∧
      ¬ t.Balanced ∧ ¬ t.DepthBalanced :=
  ⟨⟨[⟨some 1, none, none, (3, 0), 3⟩, ⟨none, some 2, some 0, (1, 0), 2⟩,
      ⟨none, none, some 1, (2, 0), 1⟩], some 0, 3⟩,
    .node 0 (.node 1 .nil (1, 0) 2 (.node 2 .nil (2, 0) 1 .nil)) (3, 0) 3 .nil,
    by rfl, by rfl, by simp [Tree.Balanced], by simp [Tree.DepthBalanced]⟩

/-- C9: on a container built by insert calls, the root's `parent` field is null, the
`parent` field of every other node points to a node that holds it in its `left` or
`right` slot, and every node held in a child slot has its `parent` field pointing to the
holder. -/
theorem C9_parent_links (es : List (T1 × T2)) :
    ∃ c, build es = some c ∧ ∀ a n, c.heap[a]? = some n →
      (c._root = some a → n.parent = none) ∧
      (c._root ≠ some a → ∃ p pn, n.parent = some p ∧ c.heap[p]? = some pn ∧
        (pn.left = some a ∨ pn.right = some a)) ∧
      (∀ ch, n.left = some ch ∨ n.right = some ch →
        ∃ m, c.heap[ch]? = some m ∧ m.parent = some a) := by
  obtain ⟨c, t, hb, hg, -, -, -⟩ := build_good es
  refine ⟨c, hb, fun a n hn => ?_⟩
  obtain ⟨n', hn', p1, p2, p3⟩ :=
    hg.rep.parents hg.nodup a (hg.all a (lt_length_of_lookup hn))
  rw [hn] at hn'
  obtain rfl := Option.some.inj hn'
  rw [hg.root]
  exact ⟨p1, p2, p3⟩

/-- C10: on a container built by insert calls, the cached height of every node is
`1 + max(height(left), height(right))` with `height(nil) = 0`, and equals the structural
height of the node's subtree. -/
theorem C10_cached_height (es : List (T1 × T2)) :
    ∃ c t, build es = some c ∧ c.tree = some t ∧ t.HeightOk ∧ t.HeightTrue := by
  obtain ⟨c, t, hb, hg, -, -, -⟩ := build_good es
  exact ⟨c, t, hb, hg.tree, hg.inv.heightOk, hg.inv.heightTrue⟩

end Claims

/-! ## The claims, continued -/

section Claims2

variable {T1 T2 : Type}

/-- An AVL-shaped tree of structural height `d` has at least `fib (d + 2) - 1` nodes. -/
theorem Tree.Inv.fib_le : ∀ {t : Tree T1 T2}, t.Inv → Nat.fib (t.depth + 2) ≤ t.nodes.length + 1
  | .nil, _ => by simp [Nat.fib_add_two]
  | .node a l v h r, hi => by
    obtain ⟨hh, h1, h2, hl, hr⟩ := hi
    have el := Tree.Inv.cached_eq_depth hl
    have er := Tree.Inv.cached_eq_depth hr
    have il := Tree.Inv.fib_le hl
    have ir := Tree.Inv.fib_le hr
    simp only [Tree.depth_node, Tree.nodes_node, List.length_append, List.length_cons]
    rcases le_total l.depth r.depth with hle | hle
    · have hd : 1 + max l.depth r.depth + 2 = (r.depth + 1) + 2 := by
        rw [max_eq_right hle]; omega
      rw [hd, Nat.fib_add_two]
      have hm : Nat.fib (r.depth + 1) ≤ Nat.fib (l.depth + 2) := Nat.fib_mono (by omega)
      have he : Nat.fib (r.depth + 1 + 1) = Nat.fib (r.depth + 2) := rfl
      omega
    · have hd : 1 + max l.depth r.depth + 2 = (l.depth + 1) + 2 := by
        rw [max_eq_left hle]; omega
      rw [hd, Nat.fib_add_two]
      have hm : Nat.fib (l.depth + 1) ≤ Nat.fib (r.depth + 2) := Nat.fib_mono (by omega)
      have he : Nat.fib (l.depth + 1 + 1) = Nat.fib (l.depth + 2) := rfl
      omega

/-- C13: `operator++` on the end cursor returns the end cursor, whatever the node store
holds (it reads no node). -/
theorem C13_advance_end (h : Heap T1 T2) :
    (InOrderIterator.mk none).advance h = some ⟨none⟩ := rfl

/-- C20: in the height-comparison variant, for every store and node whose children's
heights are in `[0, INT_MAX]` (so that the model's subtraction is the value the
source's `int` subtraction yields), a balance factor `> 1` means
`height(left) > height(right)` and a balance factor `< -1` means
`height(left) < height(right)`; hence the first `if` is a single right rotation or
nothing and the second a single left rotation or nothing: the double-rotation branches
are never taken. -/
theorem C20_double_rotation_dead (h : Heap T1 T2) (node : Nat) (hr : HeightsInRange h node) :
    (∀ b l r p q, balance_factor h node = some b → getLeft h node = some l →
      getRight h node = some r → get_height h l = some p → get_height h r = some q →
      b = int32 (p - q) ∧ (b > 1 → p > q) ∧ (b < -1 → p < q)) ∧
    _rebalance_left h node =
      (balance_factor h node).bind (fun b => if b > 1 then right_rotate h node else some (h, node)) ∧
    _rebalance_right h node =
      (balance_factor h node).bind (fun b => if b < -1 then left_rotate h node else some (h, node)) := by
  cases hn : h[node]? with
  | none => simp [balance_factor, _rebalance_left, _rebalance_right, getLeft, getRight, hn]
  | some n =>
    have hbf : balance_factor h node =
        (get_height h n.left).bind (fun p => (get_height h n.right).bind (fun q => some (p - q))) := by
      simp only [balance_factor, getLeft, getRight, hn, Option.map_some', Option.bind_eq_bind,
        Option.some_bind]
      cases n.left <;> cases n.right <;> rfl
    cases hp : get_height h n.left with
    | none => simp [hbf, _rebalance_left, _rebalance_right, getLeft, getRight, hn, hp]
    | some p =>
      cases hq : get_height h n.right with
      | none => simp [hbf, _rebalance_left, _rebalance_right, getLeft, getRight, hn, hp, hq]
      | some q =>
        have hrange := hr n p q hn hp hq
        simp only [hbf, hp, hq, Option.some_bind, _rebalance_left, _rebalance_right, getLeft,
          getRight, hn, Option.map_some', Option.bind_eq_bind]
        refine ⟨?_, ?_, ?_⟩
        · intro b l r p' q' hb hl hr hp' hq'
          simp only [Option.some.injEq] at hb hl hr
          subst hl hr
          rw [hp] at hp'
          rw [hq] at hq'
          simp only [Option.some.injEq] at hp' hq'
          subst hp' hq' hb
          refine ⟨?_, fun h1 => by omega, fun h1 => by omega⟩
          unfold int32
          omega
        · by_cases hb : p - q > 1
          · have : p > q := by omega
            simp only [if_pos hb, if_pos this]
          · simp only [if_neg hb]
        · by_cases hb : p - q < -1
          · have : p < q := by omega
            simp only [if_pos hb, if_pos this]
          · simp only [if_neg hb]

/-- C20 (witness): the store the height-comparison variant leaves after inserting the
keys 3, 1, 2, at its root (address 0): the children's heights are 2 and 0, the balance
factor is 2, and the first `if` is the single right rotation. -/
theorem C20_witness :
    HeightsInRange ([⟨some 1, none, none, (3, 0), 3⟩, ⟨none, some 2, some 0, (1, 0), 2⟩,
      ⟨none, none, some 1, (2, 0), 1⟩] : Heap Nat Nat) 0 ∧
    ((∀ b l r p q,
      balance_factor ([⟨some 1, none, none, (3, 0), 3⟩, ⟨none, some 2, some 0, (1, 0), 2⟩,
        ⟨none, none, some 1, (2, 0), 1⟩] : Heap Nat Nat) 0 = some b →
      getLeft ([⟨some 1, none, none, (3, 0), 3⟩, ⟨none, some 2, some 0, (1, 0), 2⟩,
        ⟨none, none, some 1, (2, 0), 1⟩] : Heap Nat Nat) 0 = some l →
      getRight ([⟨some 1, none, none, (3, 0), 3⟩, ⟨none, some 2, some 0, (1, 0), 2⟩,
        ⟨none, none, some 1, (2, 0), 1⟩] : Heap Nat Nat) 0 = some r →
      get_height ([⟨some 1, none, none, (3, 0), 3⟩, ⟨none, some 2, some 0, (1, 0), 2⟩,
        ⟨none, none, some 1, (2, 0), 1⟩] : Heap Nat Nat) l = some p →
      get_height ([⟨some 1, none, none, (3, 0), 3⟩, ⟨none, some 2, some 0, (1, 0), 2⟩,
        ⟨none, none, some 1, (2, 0), 1⟩] : Heap Nat Nat) r = some q →
      b = int32 (p - q) ∧ (b > 1 → p > q) ∧ (b < -1 → p < q)) ∧
    _rebalance_left ([⟨some 1, none, none, (3, 0), 3⟩, ⟨none, some 2, some 0, (1, 0), 2⟩,
        ⟨none, none, some 1, (2, 0), 1⟩] : Heap Nat Nat) 0 =
      (balance_factor ([⟨some 1, none, none, (3, 0), 3⟩, ⟨none, some 2, some 0, (1, 0), 2⟩,
        ⟨none, none, some 1, (2, 0), 1⟩] : Heap Nat Nat) 0).bind (fun b =>
        if b > 1 then right_rotate ([⟨some 1, none, none, (3, 0), 3⟩,
          ⟨none, some 2, some 0, (1, 0), 2⟩, ⟨none, none, some 1, (2, 0), 1⟩] : Heap Nat Nat) 0
        else some (([⟨some 1, none, none, (3, 0), 3⟩, ⟨none, some 2, some 0, (1, 0), 2⟩,
          ⟨none, none, some 1, (2, 0), 1⟩] : Heap Nat Nat), 0)) ∧
    _rebalance_right ([⟨some 1, none, none, (3, 0), 3⟩, ⟨none, some 2, some 0, (1, 0), 2⟩,
        ⟨none, none, some 1, (2, 0), 1⟩] : Heap Nat Nat) 0 =
      (balance_factor ([⟨some 1, none, none, (3, 0), 3⟩, ⟨none, some 2, some 0, (1, 0), 2⟩,
        ⟨none, none, some 1, (2, 0), 1⟩] : Heap Nat Nat) 0).bind (fun b =>
        if b < -1 then left_rotate ([⟨some 1, none, none, (3, 0), 3⟩,
          ⟨none, some 2, some 0, (1, 0), 2⟩, ⟨none, none, some 1, (2, 0), 1⟩] : Heap Nat Nat) 0
        else some (([⟨some 1, none, none, (3, 0), 3⟩, ⟨none, some 2, some 0, (1, 0), 2⟩,
          ⟨none, none, some 1, (2, 0), 1⟩] : Heap Nat Nat), 0))) ∧
    balance_factor ([⟨some 1, none, none, (3, 0), 3⟩, ⟨none, some 2, some 0, (1, 0), 2⟩,
      ⟨none, none, some 1, (2, 0), 1⟩] : Heap Nat Nat) 0 = some 2 :=
  have hr : HeightsInRange ([⟨some 1, none, none, (3, 0), 3⟩,
      ⟨none, some 2, some 0, (1, 0), 2⟩, ⟨none, none, some 1, (2, 0), 1⟩] : Heap Nat Nat) 0 := by
    intro n p q hn hp hq
    simp only [List.getElem?_cons_zero, Option.some.injEq] at hn
    subst hn
    simp only [get_height, List.getElem?_cons_succ, List.getElem?_cons_zero, Option.map_some',
      Option.some.injEq] at hp hq
    subst hp hq
    decide
  ⟨hr, C20_double_rotation_dead _ 0 hr, by rfl⟩

variable [LinearOrder T1]

/-- One public `insert` on a well-formed container, with the resulting tree computed by
`Tree.ins`. -/
theorem Good.insert_eval {c : AVLTree_MultiMap T1 T2} {t : Tree T1 T2} (hg : Good c t)
    (e : T1 × T2) (t' : Tree T1 T2) (h : t.ins c.heap.length e = some t') :
    ∃ c', c.insert e = some c' ∧ Good c' t' ∧ c'.heap.length = c.heap.length + 1 := by
  obtain ⟨c', t'', hi, hg', ht, -, hl⟩ := hg.insert e
  rw [h] at ht
  obtain rfl := Option.some.inj ht
  exact ⟨c', hi, hg', hl⟩

/-- C11: after `k` insert calls on a fresh container `size()` is `k` and the tree has
`k` nodes, and one more insert call, whatever its key, succeeds and increases `size()`
by exactly 1. -/
theorem C11_size (es : List (T1 × T2)) (e : T1 × T2) :
    ∃ c t c', build es = some c ∧ c.size = es.length ∧ c.tree = some t ∧
      t.nodes.length = es.length ∧ c.insert e = some c' ∧ c'.size = c.size + 1 := by
  obtain ⟨c, t, hb, hg, hp, hs, -⟩ := build_good es
  obtain ⟨c', t', hi, -, -, hs', -⟩ := hg.insert e
  refine ⟨c, t, c', hb, hs, hg.tree, ?_, hi, hs'⟩
  have := hp.length_eq
  rwa [Tree.toList_eq_map, List.length_map] at this

/-- C12: inserting the keys 1, 2, ..., 7 in increasing order (with any values) into an
empty container yields a tree whose root has cached height 3 and structural height 3. -/
theorem C12_sorted_insert_height (v1 v2 v3 v4 v5 v6 v7 : T2) :
    ∃ c t, build [((1 : Nat), v1), (2, v2), (3, v3), (4, v4), (5, v5), (6, v6), (7, v7)] =
        some c ∧ c.tree = some t ∧ get_height c.heap c._root = some 3 ∧ t.depth = 3 := by
  obtain ⟨c1, i1, g1, l1⟩ := (@Good.empty Nat T2 _).insert_eval (1, v1)
    (.node 0 .nil (1, v1) 1 .nil) rfl
  obtain ⟨c2, i2, g2, l2⟩ := g1.insert_eval (2, v2)
    (.node 0 .nil (1, v1) 2 (.node 1 .nil (2, v2) 1 .nil)) (by rw [l1]; rfl)
  obtain ⟨c3, i3, g3, l3⟩ := g2.insert_eval (3, v3)
    (.node 1 (.node 0 .nil (1, v1) 1 .nil) (2, v2) 2 (.node 2 .nil (3, v3) 1 .nil)) (by rw [l2, l1]; rfl)
  obtain ⟨c4, i4, g4, l4⟩ := g3.insert_eval (4, v4)
    (.node 1 (.node 0 .nil (1, v1) 1 .nil) (2, v2) 3
      (.node 2 .nil (3, v3) 2 (.node 3 .nil (4, v4) 1 .nil))) (by rw [l3, l2, l1]; rfl)
  obtain ⟨c5, i5, g5, l5⟩ := g4.insert_eval (5, v5)
    (.node 1 (.node 0 .nil (1, v1) 1 .nil) (2, v2) 3
      (.node 3 (.node 2 .nil (3, v3) 1 .nil) (4, v4) 2 (.node 4 .nil (5, v5) 1 .nil))) (by rw [l4, l3, l2, l1]; rfl)
  obtain ⟨c6, i6, g6, l6⟩ := g5.insert_eval (6, v6)
    (.node 3 (.node 1 (.node 0 .nil (1, v1) 1 .nil) (2, v2) 2 (.node 2 .nil (3, v3) 1 .nil))
      (4, v4) 3 (.node 4 .nil (5, v5) 2 (.node 5 .nil (6, v6) 1 .nil))) (by rw [l5, l4, l3, l2, l1]; rfl)
  obtain ⟨c7, i7, g7, l7⟩ := g6.insert_eval (7, v7)
    (.node 3 (.node 1 (.node 0 .nil (1, v1) 1 .nil) (2, v2) 2 (.node 2 .nil (3, v3) 1 .nil))
      (4, v4) 3 (.node 5 (.node 4 .nil (5, v5) 1 .nil) (6, v6) 2 (.node 6 .nil (7, v7) 1 .nil))) (by rw [l6, l5, l4, l3, l2, l1]; rfl)
  refine ⟨c7, _, ?_, g7.tree, ?_, rfl⟩
  · simp only [build, insertAll, i1, i2, i3, i4, i5, i6, i7, Option.some_bind]
  · rw [g7.root]
    exact g7.rep.get_height

/-- C14: on the keys 3, 1, 2 the key-comparison insert and the height-comparison insert
build trees of different shape: the first has structural height 2, the second 3. -/
theorem C14_variants_diverge :
    ∃ (es : List (Nat × Nat)) (c c' : AVLTree_MultiMap Nat Nat) (t t' : Tree Nat Nat),
      build es = some c ∧ _build es = some c' ∧ c.tree = some t ∧ c'.tree = some t' ∧
      t.depth = 2 ∧ t'.depth = 3 ∧ t.toList = t'.toList :=
  ⟨[(3, 0), (1, 0), (2, 0)],
    ⟨[⟨none, none, some 2, (3, 0), 1⟩, ⟨none, none, some 2, (1, 0), 1⟩,
      ⟨some 1, some 0, none, (2, 0), 2⟩], some 2, 3⟩,
    ⟨[⟨some 1, none, none, (3, 0), 3⟩, ⟨none, some 2, some 0, (1, 0), 2⟩,
      ⟨none, none, some 1, (2, 0), 1⟩], some 0, 3⟩,
    .node 2 (.node 1 .nil (1, 0) 1 .nil) (2, 0) 2 (.node 0 .nil (3, 0) 1 .nil),
    .node 0 (.node 1 .nil (1, 0) 2 (.node 2 .nil (2, 0) 1 .nil)) (3, 0) 3 .nil,
    rfl, rfl, rfl, rfl, rfl, rfl, rfl⟩

/-- C19: on a container built by insert calls, with `n` nodes and root height `h` (the
cached height `get_height` reports, 0 for the empty tree, equal to the structural
height), `Fib(h + 2) ≤ n + 1`. -/
theorem C19_fibonacci_bound (es : List (T1 × T2)) :
    ∃ c t, build es = some c ∧ c.tree = some t ∧
      get_height c.heap c._root = some (t.depth : Int) ∧
      Nat.fib (t.depth + 2) ≤ t.nodes.length + 1 ∧ t.nodes.length = es.length := by
  obtain ⟨c, t, hb, hg, hp, -, -⟩ := build_good es
  refine ⟨c, t, hb, hg.tree, ?_, hg.inv.fib_le, ?_⟩
  · rw [hg.root, hg.rep.get_height, hg.inv.cached_eq_depth]
  · have := hp.length_eq
    rwa [Tree.toList_eq_map, List.length_map] at this

end Claims2

section Claims3

variable {T1 T2 : Type}

/-- Where `orderedInsert` puts the new element: after a prefix of elements it is not
below, immediately before the first element it is below. -/
theorem orderedInsert_split {α : Type} (r : α → α → Prop) [DecidableRel r] (e : α) :
    ∀ l : List α, ∃ pre post, l = pre ++ post ∧ List.orderedInsert r e l = pre ++ e :: post ∧
      (∀ x ∈ pre, ¬ r e x) ∧ (∀ y ∈ post.head?, r e y)
  | [] => ⟨[], [], rfl, rfl, by simp, by simp⟩
  | b :: l => by
    by_cases hb : r e b
    · exact ⟨[], b :: l, rfl, by simp [List.orderedInsert, hb], by simp, by simpa using hb⟩
    · obtain ⟨pre, post, h1, h2, h3, h4⟩ := orderedInsert_split r e l
      refine ⟨b :: pre, post, by rw [h1]; rfl, by simp [List.orderedInsert, hb, h2], ?_, h4⟩
      intro x hx
      rcases List.mem_cons.mp hx with rfl | hx
      · exact hb
      · exact h3 x hx

/-- The store-level rotations keep the in-order sequence of the subtree they rotate. -/
theorem right_rotate_inorder {h : Heap T1 T2} {par : Option Nat} {x y : Nat} {a b c : Tree T1 T2}
    {vx vy : T1 × T2} {hx hy : Int}
    (hrep : Rep h par (.node x (.node y a vy hy b) vx hx c))
    (hnd : (Tree.node x (.node y a vy hy b) vx hx c).addrs.Nodup) :
    ∃ h' t', right_rotate h x = some (h', y) ∧ readTree h'.length h' (some y) = some t' ∧
      Rep h' par t' ∧ t'.toList = (Tree.node x (.node y a vy hy b) vx hx c).toList := by
  obtain ⟨h', e1, rep, -, -⟩ := right_rotate_rep hrep hnd
  have hnd' : (Tree.node y a vy (1 + max a.cached (1 + max b.cached c.cached))
      (.node x b vx (1 + max b.cached c.cached) c)).addrs.Nodup := by
    simpa only [Tree.addrs_node, List.append_assoc, List.cons_append] using hnd
  refine ⟨h', _, e1, rep.readTree _ (rep.depth_le hnd'), rep, ?_⟩
  simp only [Tree.toList_node, List.append_assoc, List.cons_append]

/-- The mirror image for `left_rotate`. -/
theorem left_rotate_inorder {h : Heap T1 T2} {par : Option Nat} {x y : Nat} {a b c : Tree T1 T2}
    {vx vy : T1 × T2} {hx hy : Int}
    (hrep : Rep h par (.node x a vx hx (.node y b vy hy c)))
    (hnd : (Tree.node x a vx hx (.node y b vy hy c)).addrs.Nodup) :
    ∃ h' t', left_rotate h x = some (h', y) ∧ readTree h'.length h' (some y) = some t' ∧
      Rep h' par t' ∧ t'.toList = (Tree.node x a vx hx (.node y b vy hy c)).toList := by
  obtain ⟨h', e1, rep, -, -⟩ := left_rotate_rep hrep hnd
  have hnd' : (Tree.node y (.node x a vx (1 + max a.cached b.cached) b) vy
      (1 + max (1 + max a.cached b.cached) c.cached) c).addrs.Nodup := by
    simpa only [Tree.addrs_node, List.append_assoc, List.cons_append] using hnd
  refine ⟨h', _, e1, rep.readTree _ (rep.depth_le hnd'), rep, ?_⟩
  simp only [Tree.toList_node, List.append_assoc, List.cons_append]

/-- C17: for a subtree stored in the node store (rooted at `x`), if `x` has a left
child `y` then `right_rotate(x)` returns `y`, and the tree now below `y` has the same
in-order sequence of pairs as the tree that was below `x`; symmetrically, if `x` has a
right child `y` then `left_rotate(x)` returns `y` with the same in-order sequence. -/
theorem C17_rotation_inorder {h : Heap T1 T2} {par : Option Nat} (t : Tree T1 T2)
    (hrep : Rep h par t) (hnd : t.addrs.Nodup) :
    (∀ x y a b c vx vy hx hy, t = .node x (.node y a vy hy b) vx hx c →
      ∃ h' t', right_rotate h x = some (h', y) ∧ readTree h'.length h' (some y) = some t' ∧
        Rep h' par t' ∧ t'.toList = t.toList) ∧
    (∀ x y a b c vx vy hx hy, t = .node x a vx hx (.node y b vy hy c) →
      ∃ h' t', left_rotate h x = some (h', y) ∧ readTree h'.length h' (some y) = some t' ∧
        Rep h' par t' ∧ t'.toList = t.toList) := by
  constructor
  · rintro x y a b c vx vy hx hy rfl
    exact right_rotate_inorder hrep hnd
  · rintro x y a b c vx vy hx hy rfl
    exact left_rotate_inorder hrep hnd

/-- C17 (witness): the three-node tree with root 2 at address 0, left child 1 at address
1 and right child 3 at address 2, which has both a left and a right child to rotate. -/
theorem C17_witness :
    Rep ([⟨some 1, some 2, none, (2, 0), 2⟩, ⟨none, none, some 0, (1, 0), 1⟩,
        ⟨none, none, some 0, (3, 0), 1⟩] : Heap Nat Nat) none
      (.node 0 (.node 1 .nil (1, 0) 1 .nil) (2, 0) 2 (.node 2 .nil (3, 0) 1 .nil)) ∧
    (Tree.node 0 (.node 1 .nil ((1 : Nat), (0 : Nat)) 1 .nil) (2, 0) 2
      (.node 2 .nil (3, 0) 1 .nil)).addrs.Nodup ∧
    (∃ h' t', right_rotate ([⟨some 1, some 2, none, (2, 0), 2⟩, ⟨none, none, some 0, (1, 0), 1⟩,
        ⟨none, none, some 0, (3, 0), 1⟩] : Heap Nat Nat) 0 = some (h', 1) ∧
      readTree h'.length h' (some 1) = some t' ∧ Rep h' none t' ∧
      t'.toList = [(1, 0), (2, 0), (3, 0)]) ∧
    (∃ h' t', left_rotate ([⟨some 1, some 2, none, (2, 0), 2⟩, ⟨none, none, some 0, (1, 0), 1⟩,
        ⟨none, none, some 0, (3, 0), 1⟩] : Heap Nat Nat) 0 = some (h', 2) ∧
      readTree h'.length h' (some 2) = some t' ∧ Rep h' none t' ∧
      t'.toList = [(1, 0), (2, 0), (3, 0)]) :=
  have hrep : Rep ([⟨some 1, some 2, none, (2, 0), 2⟩, ⟨none, none, some 0, (1, 0), 1⟩,
        ⟨none, none, some 0, (3, 0), 1⟩] : Heap Nat Nat) none
      (.node 0 (.node 1 .nil (1, 0) 1 .nil) (2, 0) 2 (.node 2 .nil (3, 0) 1 .nil)) :=
    ⟨rfl, ⟨rfl, trivial, trivial⟩, ⟨rfl, trivial, trivial⟩⟩
  have hnd : (Tree.node 0 (.node 1 .nil ((1 : Nat), (0 : Nat)) 1 .nil) (2, 0) 2
      (.node 2 .nil (3, 0) 1 .nil)).addrs.Nodup := by decide
  ⟨hrep, hnd, (C17_rotation_inorder _ hrep hnd).1 0 1 .nil .nil _ (2, 0) (1, 0) 2 1 rfl,
    (C17_rotation_inorder _ hrep hnd).2 0 2 _ .nil .nil (2, 0) (3, 0) 2 1 rfl⟩

variable [LinearOrder T1]

theorem filter_orderedInsert (e : T1 × T2) (k : T1) : ∀ l : List (T1 × T2),
    (List.orderedInsert keyLE e l).filter (fun x => decide (x.1 = k)) =
      if e.1 = k then e :: l.filter (fun x => decide (x.1 = k))
      else l.filter (fun x => decide (x.1 = k))
  | [] => by
    by_cases hk : e.1 = k <;> simp [hk]
  | b :: l => by
    by_cases hb : e.1 ≤ b.1
    · have h1 : keyLE e b := hb
      simp only [List.orderedInsert, if_pos h1]
      by_cases hk : e.1 = k <;> simp [List.filter_cons, hk]
    · have h1 : ¬ keyLE e b := hb
      simp only [List.orderedInsert, if_neg h1, List.filter_cons, filter_orderedInsert e k l]
      by_cases hk : e.1 = k
      · have hbk : b.1 ≠ k := fun hbk => hb (by rw [hk, hbk])
        simp [hk, hbk]
      · simp [hk]

/-- One insert on a well-formed container puts the new pair into the in-order sequence
where `orderedInsert` by key puts it. -/
theorem Good.insert_toList {c : AVLTree_MultiMap T1 T2} {t : Tree T1 T2} (hg : Good c t)
    (e : T1 × T2) : ∃ c' t', c.insert e = some c' ∧ Good c' t' ∧
      t'.toList = List.orderedInsert keyLE e t.toList := by
  obtain ⟨c', t', hi, hg', ht, -, -⟩ := hg.insert e
  refine ⟨c', t', hi, hg', ?_⟩
  rw [Tree.toList_eq_map, Tree.ins_nodes _ e hg.sorted ht, map_snd_orderedInsert,
    ← Tree.toList_eq_map]

theorem Good.insertAll_filter (k : T1) : ∀ (es : List (T1 × T2))
    {c : AVLTree_MultiMap T1 T2} {t : Tree T1 T2}, Good c t →
    ∃ c' t', AVL.insertAll c es = some c' ∧ Good c' t' ∧
      t'.toList.filter (fun x => decide (x.1 = k)) =
        (es.filter (fun x => decide (x.1 = k))).reverse ++
          t.toList.filter (fun x => decide (x.1 = k))
  | [], c, t, hg => ⟨c, t, rfl, hg, by simp⟩
  | e :: es, c, t, hg => by
    obtain ⟨c1, t1, e1, g1, h1⟩ := hg.insert_toList e
    obtain ⟨c2, t2, e2, g2, h2⟩ := Good.insertAll_filter k es g1
    refine ⟨c2, t2, ?_, g2, ?_⟩
    · simp only [AVL.insertAll, e1, Option.some_bind, e2]
    · rw [h2, h1, filter_orderedInsert]
      by_cases hk : e.1 = k <;> simp [List.filter_cons, hk]

/-- C18: on a container built by insert calls, `insert((k,v))` changes the in-order
sequence by placing `(k,v)` after all pairs with key `< k` and immediately before the
first pair with key `≥ k` (at the end if there is none); consequently the pairs with
any given key appear in the in-order sequence in reverse order of insertion. -/
theorem C18_insert_position (es : List (T1 × T2)) (e : T1 × T2) :
    ∃ c t c' t', build es = some c ∧ c.tree = some t ∧ c.insert e = some c' ∧
      c'.tree = some t' ∧
      (∃ pre post, t.toList = pre ++ post ∧ t'.toList = pre ++ e :: post ∧
        (∀ x ∈ pre, x.1 < e.1) ∧ (∀ y ∈ post.head?, e.1 ≤ y.1)) ∧
      (∀ k, t.toList.filter (fun x => decide (x.1 = k)) =
        (es.filter (fun x => decide (x.1 = k))).reverse) := by
  obtain ⟨c, t, hb, hg, -, -, -⟩ := build_good es
  obtain ⟨c', t', hi, hg', ht⟩ := hg.insert_toList e
  refine ⟨c, t, c', t', hb, hg.tree, hi, hg'.tree, ?_, fun k => ?_⟩
  · obtain ⟨pre, post, h1, h2, h3, h4⟩ := orderedInsert_split keyLE e t.toList
    exact ⟨pre, post, h1, ht.trans h2, fun x hx => not_le.mp (h3 x hx), h4⟩
  · obtain ⟨c2, t2, e2, g2, h2⟩ := Good.insertAll_filter k es (@Good.empty T1 T2 _)
    have : c2 = c := Option.some.inj (e2.symm.trans hb)
    subst this
    have ht2 : t2 = t := Option.some.inj (g2.tree.symm.trans hg.tree)
    subst ht2
    simpa using h2

end Claims3

/-! ## One recursion level of `insert` -/

namespace Tree

section LevelPure

variable {T1 T2 : Type} [LinearOrder T1]

/-- At a level whose left child was rebuilt by `insert`: the level is never
right-heavy, a left-heavy level has a left child (with a right child of its own when the
key test fails), and after the first `if` the subtree is not right-heavy. -/
theorem level_left_pure (e : T1 × T2) (x : Nat) (l l' r : Tree T1 T2) (v : T1 × T2)
    (hl : l.Inv) (hl' : l'.Inv) (hr : r.Inv)
    (hbal1 : l.cached - r.cached ≤ 1) (hbal2 : r.cached - l.cached ≤ 1)
    (hc : l'.cached = l.cached ∨ l'.cached = l.cached + 1)
    (hg : l'.cached = l.cached + 1 → Grew e l l') (hne : l' ≠ nil) :
    ∃ t2, rebalLeft e (node x l' v (1 + max l'.cached r.cached) r) = some t2 ∧
      ¬ t2.bf < -1 ∧
      (l'.cached - r.cached > 1 → ∃ y a vy hy b, l' = node y a vy hy b ∧
        (¬ e.1 ≤ vy.1 → ∃ z bl vz hz br, b = node z bl vz hz br)) := by
  have hln := Inv.cached_nonneg hl
  have hrn := Inv.cached_nonneg hr
  by_cases hb : l'.cached - r.cached > 1
  · have hgrow : l'.cached = l.cached + 1 := by omega
    have hG := hg hgrow
    cases l with
    | nil => simp at hgrow hbal2 hb; omega
    | node y0 a0 vy0 hy0 b0 =>
      cases l' with
      | nil => exact absurd rfl hne
      | node y a vy hy b =>
        obtain ⟨hvy, hG1, hG2⟩ := hG
        obtain ⟨hhy, hab1, hab2, ha, hbI⟩ := hl'
        have han := Inv.cached_nonneg ha
        have hbn := Inv.cached_nonneg hbI
        simp only [cached_node] at hb hgrow hbal1 hbal2 hc hln
        rw [← hvy] at hG1 hG2
        have h0 : (node x (node y a vy hy b) v (1 + max hy r.cached) r).bf > 1 := by
          simpa using hb
        by_cases hk : e.1 ≤ vy.1
        · have := hG1 hk
          refine ⟨node y a vy (1 + max a.cached (1 + max b.cached r.cached))
            (node x b v (1 + max b.cached r.cached) r), ?_, ?_, ?_⟩
          · simp only [rebalLeft, cached_node, if_pos h0, if_pos hk, rotR_node]
          · simp only [bf_node, cached_node]; omega
          · exact fun _ => ⟨y, a, vy, hy, b, rfl, fun hn => absurd hk hn⟩
        · have hlt := hG2 hk
          cases b with
          | nil => simp at hlt; omega
          | node z bl vz hz br =>
            obtain ⟨hhz, hz1, hz2, hbl, hbr⟩ := hbI
            have hbln := Inv.cached_nonneg hbl
            have hbrn := Inv.cached_nonneg hbr
            simp only [cached_node] at hlt hhy hab1 hab2 hbn
            refine ⟨node z (node y a vy (1 + max a.cached bl.cached) bl) vz
              (1 + max (1 + max a.cached bl.cached) (1 + max br.cached r.cached))
              (node x br v (1 + max br.cached r.cached) r), ?_, ?_, ?_⟩
            · simp only [rebalLeft, cached_node, if_pos h0, if_neg hk, rotR_node, rotL_node,
                Option.some_bind]
            · simp only [bf_node, cached_node]; omega
            · exact fun _ => ⟨y, a, vy, hy, _, rfl, fun _ => ⟨z, bl, vz, hz, br, rfl⟩⟩
  · refine ⟨node x l' v (1 + max l'.cached r.cached) r, ?_, ?_, fun h => absurd h hb⟩
    · exact rebalLeft_of_le _ _ (by simpa using hb)
    · simp only [bf_node]; omega

/-- At a level whose right child was rebuilt by `insert`: the level is never left-heavy,
and a right-heavy level has a right child (with a left child of its own when the key
test fails). -/
theorem level_right_pure (e : T1 × T2) (l r r' : Tree T1 T2)
    (hl : l.Inv) (hr : r.Inv) (hr' : r'.Inv)
    (hbal1 : l.cached - r.cached ≤ 1) (hbal2 : r.cached - l.cached ≤ 1)
    (hc : r'.cached = r.cached ∨ r'.cached = r.cached + 1)
    (hg : r'.cached = r.cached + 1 → Grew e r r') (hne : r' ≠ nil) :
    ¬ l.cached - r'.cached > 1 ∧
      (l.cached - r'.cached < -1 → ∃ y b vy hy c, r' = node y b vy hy c ∧
        (¬ e.1 > vy.1 → ∃ z bl vz hz br, b = node z bl vz hz br)) := by
  have hln := Inv.cached_nonneg hl
  have hrn := Inv.cached_nonneg hr
  refine ⟨by omega, fun hb => ?_⟩
  have hgrow : r'.cached = r.cached + 1 := by omega
  have hG := hg hgrow
  cases r with
  | nil => simp at hgrow hbal1 hb; omega
  | node y0 b0 vy0 hy0 c0 =>
    cases r' with
    | nil => exact absurd rfl hne
    | node y b vy hy c =>
      obtain ⟨hvy, hG1, hG2⟩ := hG
      obtain ⟨hhy, hbc1, hbc2, hbI, hcI⟩ := hr'
      have hbn := Inv.cached_nonneg hbI
      have hcn := Inv.cached_nonneg hcI
      rw [← hvy] at hG1 hG2
      refine ⟨y, b, vy, hy, c, rfl, fun hk => ?_⟩
      have hlt := hG1 (not_lt.mp hk)
      cases b with
      | nil => simp at hlt; omega
      | node z bl vz hz br => exact ⟨z, bl, vz, hz, br, rfl⟩

end LevelPure

end Tree

section Level

variable {T1 T2 : Type}

/-- After the recursive call has rebuilt the left child of `x`: linking the child and
updating the height leaves a store that represents the node with its new left child. -/
theorem descend_rep_left {h hA : Heap T1 T2} {par : Option Nat} {x a1 : Nat}
    {l l' r : Tree T1 T2} {v : T1 × T2} {ht : Int} {p1 : Option Nat}
    (hrep : Rep h par (.node x l v ht r)) (hnd : (Tree.node x l v ht r).addrs.Nodup)
    (hl' : l'.addrs.Perm (h.length :: l.addrs)) (hp : l'.ptr = some a1)
    (rep1 : Rep hA p1 l') (fr1 : ∀ q, q ∉ l.addrs → q < h.length → hA[q]? = h[q]?) :
    ∃ hC hD, ((setLeft hA x (some a1)).bind (fun h1 =>
        (getLeft h1 x).bind (fun o => o.bind (fun c => setParent h1 c (some x))))) = some hC ∧
      update_height hC x = some hD ∧
      Rep hD par (.node x l' v (1 + max l'.cached r.cached) r) ∧
      (Tree.node x l' v (1 + max l'.cached r.cached) r).addrs.Nodup := by
  have hlt := Rep.lt_length hrep
  obtain ⟨h1, hl, hr⟩ := hrep
  have hnd0 := hnd
  simp only [Tree.addrs_node, List.nodup_append, List.nodup_cons, List.mem_append,
    List.mem_cons, List.disjoint_cons_right, not_or] at hnd0
  obtain ⟨hnl, ⟨hxr, hnr⟩, hxl, hlr⟩ := hnd0
  have hxlen : x < h.length := lt_length_of_lookup h1
  have hmem : ∀ q, q ∈ l'.addrs ↔ q = h.length ∨ q ∈ l.addrs := fun q => by
    rw [hl'.mem_iff, List.mem_cons]
  have hfl : h.length ∉ l.addrs := fun hq => absurd (hlt _ (by simp [hq])) (lt_irrefl _)
  have hnl' : l'.addrs.Nodup := hl'.nodup_iff.mpr (List.nodup_cons.mpr ⟨hfl, hnl⟩)
  have hxl' : x ∉ l'.addrs := fun hq => by
    rcases (hmem x).mp hq with e | hq
    · omega
    · exact hxl hq
  have hlr' : l'.addrs.Disjoint r.addrs := fun q hq hq' => by
    rcases (hmem q).mp hq with e | hq
    · have := hlt q (by simp [hq'])
      omega
    · exact hlr hq hq'
  have hxA : hA[x]? = some ⟨l.ptr, r.ptr, par, v, ht⟩ := (fr1 x hxl hxlen).trans h1
  cases l' with
  | nil => simp at hp
  | node a la va hta ra =>
    simp only [Tree.ptr_node, Option.some.injEq] at hp
    subst hp
    have hax : a ≠ x := fun e => hxl' (by simp [e])
    have hxB : (hA.set x ⟨some a, r.ptr, par, v, ht⟩)[x]? = some ⟨some a, r.ptr, par, v, ht⟩ := by
      rw [lookup_set hxA, if_pos rfl]
    have repB : Rep (hA.set x ⟨some a, r.ptr, par, v, ht⟩) p1 (.node a la va hta ra) :=
      Rep.frame (fun q hq => by
        rw [lookup_set hxA, if_neg (fun e : x = q => hxl' (e ▸ hq))]) rep1
    obtain ⟨hC, eC, repC, -, frC⟩ := Rep.reparent repB hnl' (some x)
    have hxC : hC[x]? = some ⟨some a, r.ptr, par, v, ht⟩ := (frC x (Ne.symm hax)).trans hxB
    have hrC : Rep hC (some x) r := Rep.frame (fun q hq => by
      have hqa : q ≠ a := fun e => hlr' (a := a) (by simp) (e ▸ hq)
      have hqx : x ≠ q := fun e => hxr (e ▸ hq)
      rw [frC q hqa, lookup_set hxA, if_neg hqx]
      exact fr1 q (fun hq' => hlr hq' hq) (hlt q (by simp [hq]))) hr
    have hD := update_height_eq hxC repC.get_height hrC.get_height
    simp only [Tree.ptr_node, Tree.cached_node] at hD
    refine ⟨hC, _, ?_, hD, ⟨?_, Rep.frame ?_ repC, Rep.frame ?_ hrC⟩, ?_⟩
    · simp only [setLeft, hxA, Option.map_some', Option.some_bind, getLeft, hxB, eC]
    · rw [lookup_set hxC, if_pos rfl]; rfl
    · intro q hq
      rw [lookup_set hxC, if_neg (fun e : x = q => hxl' (e ▸ hq))]
    · intro q hq
      rw [lookup_set hxC, if_neg (fun e : x = q => hxr (e ▸ hq))]
    · show ((Tree.node a la va hta ra).addrs ++ x :: r.addrs).Nodup
      rw [List.nodup_append, List.nodup_cons]
      exact ⟨hnl', ⟨hxr, hnr⟩, List.disjoint_cons_right.mpr ⟨hxl', hlr'⟩⟩

/-- The mirror image of `descend_rep_left` for the right child. -/
theorem descend_rep_right {h hA : Heap T1 T2} {par : Option Nat} {x a1 : Nat}
    {l r r' : Tree T1 T2} {v : T1 × T2} {ht : Int} {p1 : Option Nat}
    (hrep : Rep h par (.node x l v ht r)) (hnd : (Tree.node x l v ht r).addrs.Nodup)
    (hr' : r'.addrs.Perm (h.length :: r.addrs)) (hp : r'.ptr = some a1)
    (rep1 : Rep hA p1 r') (fr1 : ∀ q, q ∉ r.addrs → q < h.length → hA[q]? = h[q]?) :
    ∃ hC hD, ((setRight hA x (some a1)).bind (fun h1 =>
        (getRight h1 x).bind (fun o => o.bind (fun c => setParent h1 c (some x))))) = some hC ∧
      update_height hC x = some hD ∧
      Rep hD par (.node x l v (1 + max l.cached r'.cached) r') ∧
      (Tree.node x l v (1 + max l.cached r'.cached) r').addrs.Nodup := by
  have hlt := Rep.lt_length hrep
  obtain ⟨h1, hl, hr⟩ := hrep
  have hnd0 := hnd
  simp only [Tree.addrs_node, List.nodup_append, List.nodup_cons, List.mem_append,
    List.mem_cons, List.disjoint_cons_right, not_or] at hnd0
  obtain ⟨hnl, ⟨hxr, hnr⟩, hxl, hlr⟩ := hnd0
  have hxlen : x < h.length := lt_length_of_lookup h1
  have hmem : ∀ q, q ∈ r'.addrs ↔ q = h.length ∨ q ∈ r.addrs := fun q => by
    rw [hr'.mem_iff, List.mem_cons]
  have hfr : h.length ∉ r.addrs := fun hq => absurd (hlt _ (by simp [hq])) (lt_irrefl _)
  have hnr' : r'.addrs.Nodup := hr'.nodup_iff.mpr (List.nodup_cons.mpr ⟨hfr, hnr⟩)
  have hxr' : x ∉ r'.addrs := fun hq => by
    rcases (hmem x).mp hq with e | hq
    · omega
    · exact hxr hq
  have hlr' : l.addrs.Disjoint r'.addrs := fun q hq hq' => by
    rcases (hmem q).mp hq' with e | hq'
    · have := hlt q (by simp [hq])
      omega
    · exact hlr hq hq'
  have hxA : hA[x]? = some ⟨l.ptr, r.ptr, par, v, ht⟩ := (fr1 x hxr hxlen).trans h1
  cases r' with
  | nil => simp at hp
  | node a la va hta ra =>
    simp only [Tree.ptr_node, Option.some.injEq] at hp
    subst hp
    have hax : a ≠ x := fun e => hxr' (by simp [e])
    have hxB : (hA.set x ⟨l.ptr, some a, par, v, ht⟩)[x]? = some ⟨l.ptr, some a, par, v, ht⟩ := by
      rw [lookup_set hxA, if_pos rfl]
    have repB : Rep (hA.set x ⟨l.ptr, some a, par, v, ht⟩) p1 (.node a la va hta ra) :=
      Rep.frame (fun q hq => by
        rw [lookup_set hxA, if_neg (fun e : x = q => hxr' (e ▸ hq))]) rep1
    obtain ⟨hC, eC, repC, -, frC⟩ := Rep.reparent repB hnr' (some x)
    have hxC : hC[x]? = some ⟨l.ptr, some a, par, v, ht⟩ := (frC x (Ne.symm hax)).trans hxB
    have hlC : Rep hC (some x) l := Rep.frame (fun q hq => by
      have hqa : q ≠ a := fun e => hlr' (a := a) (e ▸ hq) (by simp)
      have hqx : x ≠ q := fun e => hxl (e ▸ hq)
      rw [frC q hqa, lookup_set hxA, if_neg hqx]
      exact fr1 q (fun hq' => hlr hq hq') (hlt q (by simp [hq]))) hl
    have hD := update_height_eq hxC hlC.get_height repC.get_height
    simp only [Tree.ptr_node, Tree.cached_node] at hD
    refine ⟨hC, _, ?_, hD, ⟨?_, Rep.frame ?_ hlC, Rep.frame ?_ repC⟩, ?_⟩
    · simp only [setRight, hxA, Option.map_some', Option.some_bind, getRight, hxB, eC]
    · rw [lookup_set hxC, if_pos rfl]; rfl
    · intro q hq
      rw [lookup_set hxC, if_neg (fun e : x = q => hxl (e ▸ hq))]
    · intro q hq
      rw [lookup_set hxC, if_neg (fun e : x = q => hxr' (e ▸ hq))]
    · show (l.addrs ++ x :: (Tree.node a la va hta ra).addrs).Nodup
      rw [List.nodup_append, List.nodup_cons]
      exact ⟨hnl, ⟨hxr', hnr'⟩, List.disjoint_cons_right.mpr ⟨hxl, hlr'⟩⟩

end Level

section Level2

variable {T1 T2 : Type}

/-- Every subtree of a represented, balanced tree is itself represented and balanced. -/
theorem Rep.subtree {h : Heap T1 T2} : ∀ {t : Tree T1 T2} {par : Option Nat}, Rep h par t →
    t.addrs.Nodup → t.Inv → ∀ s ∈ t.subtrees,
      ∃ p, Rep h p s ∧ s.addrs.Nodup ∧ s.Inv ∧ s.depth ≤ t.depth
  | .nil, _, _, _, _, s, hs => by simp [Tree.subtrees] at hs
  | .node x l v ht r, par, hrep, hnd, hinv, s, hs => by
    simp only [Tree.subtrees, List.mem_cons, List.mem_append] at hs
    have hnd0 := hnd
    simp only [Tree.addrs_node, List.nodup_append, List.nodup_cons] at hnd0
    rcases hs with rfl | hs | hs
    · exact ⟨par, hrep, hnd, hinv, le_refl _⟩
    · obtain ⟨p, h1, h2, h3, h4⟩ := Rep.subtree hrep.2.1 hnd0.1 hinv.2.2.2.1 s hs
      exact ⟨p, h1, h2, h3, by simp only [Tree.depth_node]; omega⟩
    · obtain ⟨p, h1, h2, h3, h4⟩ := Rep.subtree hrep.2.2 hnd0.2.1.2 hinv.2.2.2.2 s hs
      exact ⟨p, h1, h2, h3, by simp only [Tree.depth_node]; omega⟩

variable [LinearOrder T1]

/-- One recursion level of the key-routing `insert`, run on the subtree below `x` from
the store the call finds: the descent and the height update succeed, both `if`s
succeed, at most one of them fires, and whenever one fires the pointers it dereferences
are present. -/
theorem level_rep (e : T1 × T2) {h : Heap T1 T2} {par : Option Nat} {x : Nat}
    {l r : Tree T1 T2} {v : T1 × T2} {ht : Int} (fuel : Nat)
    (hrep : Rep h par (.node x l v ht r)) (hnd : (Tree.node x l v ht r).addrs.Nodup)
    (hinv : (Tree.node x l v ht r).Inv) (hf : (Tree.node x l v ht r).depth ≤ fuel) :
    ∃ h1 h2 b1 h3 y b2 h4 z,
      insert_descend (fun h p => insert fuel h p e) h x e = some h1 ∧
      update_height h1 x = some h2 ∧
      balance_factor h2 x = some b1 ∧ rebalance_left h2 x e = some (h3, y) ∧
      balance_factor h3 y = some b2 ∧ rebalance_right h3 y e = some (h4, z) ∧
      insert (fuel + 1) h (some x) e = some (h4, z) ∧
      (b1 > 1 → ¬ b2 < -1) ∧
      (b1 > 1 → ∃ lc kl, getLeft h2 x = some (some lc) ∧ getKey h2 lc = some kl ∧
        (¬ e.1 ≤ kl → ∃ lr, getRight h2 lc = some (some lr))) ∧
      (b2 < -1 → ∃ rc kr, getRight h3 y = some (some rc) ∧ getKey h3 rc = some kr ∧
        (¬ e.1 > kr → ∃ rl, getLeft h3 rc = some (some rl))) := by
  obtain ⟨hh, hb1, hb2, hl, hr⟩ := hinv
  have hnd0 := hnd
  simp only [Tree.addrs_node, List.nodup_append, List.nodup_cons] at hnd0
  obtain ⟨hnl, ⟨-, hnr⟩, -⟩ := hnd0
  simp only [Tree.depth_node] at hf
  have hx := hrep.1
  by_cases hk : e.1 ≤ v.1
  · obtain ⟨l', hl1, hl2, hl3, hl4, hl5⟩ := Tree.ins_inv h.length e l hl
    obtain ⟨hA, a1, eA, pA, repA, -, frA⟩ :=
      ins_rep e l fuel h (some x) l' hrep.2.1 hnl (by omega) hl1
    obtain ⟨hC, hD, eC, eD, repD, hndD⟩ :=
      descend_rep_left hrep hnd (Tree.ins_addrs_perm _ e hl1) pA repA frA
    obtain ⟨t2, ht2, hnb, hshape⟩ :=
      Tree.level_left_pure e x l l' r v hl hl2 hr hb1 hb2 hl3 hl4 hl5
    have hbfD := balance_factor_rep repD
    obtain ⟨h3, y, e3, p3, rep3, -, -⟩ := rebalLeft_rep repD hndD ht2
    have hnodes := Tree.rebalLeft_nodes ht2
    cases t2 with
    | nil => simp at p3
    | node y' l2 v2 ht2' r2 =>
      simp only [Tree.ptr_node, Option.some.injEq] at p3
      subst p3
      have hbf3 := balance_factor_rep rep3
      have hnd3 : (Tree.node y' l2 v2 ht2' r2).addrs.Nodup := by
        rw [Tree.addrs_eq_map, hnodes, ← Tree.addrs_eq_map]
        exact hndD
      obtain ⟨h4, z, e4, -, -, -, -⟩ :=
        rebalRight_rep (e := e) rep3 hnd3 (Tree.rebalRight_of_ge e _ hnb)
      have hdesc : insert_descend (fun h p => insert fuel h p e) h x e = some hC := by
        simp only [insert_descend, getKey, getLeft, hx, Option.map_some', Option.bind_eq_bind,
          Option.some_bind, if_pos hk, eA]
        simpa only [Option.bind_assoc] using eC
      refine ⟨hC, hD, _, h3, y', _, h4, z, hdesc, eD, hbfD, e3, hbf3, e4, ?_, ?_, ?_, ?_⟩
      · simp only [insert, hdesc, eD, rebalance, e3, e4, Option.bind_eq_bind, Option.some_bind]
      · intro _
        simpa using hnb
      · intro hb
        obtain ⟨y0, a, vy, hy, b, rfl, hin⟩ := hshape hb
        have hy0 := repD.2.1.1
        refine ⟨y0, vy.1, ?_, ?_, fun hn => ?_⟩
        · simp only [getLeft, repD.1, Option.map_some', Tree.ptr_node]
        · simp only [getKey, hy0, Option.map_some']
        · obtain ⟨z0, bl, vz, hz, br, rfl⟩ := hin hn
          exact ⟨z0, by simp only [getRight, hy0, Option.map_some', Tree.ptr_node]⟩
      · intro hb
        exact absurd (by simpa using hb) hnb
  · obtain ⟨r', hr1, hr2, hr3, hr4, hr5⟩ := Tree.ins_inv h.length e r hr
    obtain ⟨hA, a1, eA, pA, repA, -, frA⟩ :=
      ins_rep e r fuel h (some x) r' hrep.2.2 hnr (by omega) hr1
    obtain ⟨hC, hD, eC, eD, repD, hndD⟩ :=
      descend_rep_right hrep hnd (Tree.ins_addrs_perm _ e hr1) pA repA frA
    obtain ⟨hnle, hshape⟩ := Tree.level_right_pure e l r r' hl hr hr2 hb1 hb2 hr3 hr4 hr5
    have hbfD := balance_factor_rep repD
    obtain ⟨t', ht', -⟩ := Tree.rebal_right_inv e x l r r' v ht hl hr hr2 hb1 hb2 hr3 hr4 hr5
    have hleft : Tree.rebalLeft e (Tree.node x l v (1 + max l.cached r'.cached) r') =
        some (Tree.node x l v (1 + max l.cached r'.cached) r') :=
      Tree.rebalLeft_of_le e _ (by simpa using hnle)
    have hright : Tree.rebalRight e (Tree.node x l v (1 + max l.cached r'.cached) r') =
        some t' := by
      simpa only [Tree.rebal, Tree.fix_node, hleft, Option.some_bind] using ht'
    obtain ⟨h4, z, e4, -, -, -, -⟩ := rebalRight_rep repD hndD hright
    have hdesc : insert_descend (fun h p => insert fuel h p e) h x e = some hC := by
      simp only [insert_descend, getKey, getRight, hx, Option.map_some', Option.bind_eq_bind,
        Option.some_bind, if_neg hk, eA]
      simpa only [Option.bind_assoc] using eC
    have e3 : rebalance_left hD x e = some (hD, x) := by
      simp only [rebalance_left, hbfD, Option.bind_eq_bind, Option.some_bind, if_neg hnle]
    refine ⟨hC, hD, _, hD, x, _, h4, z, hdesc, eD, hbfD, e3, hbfD, e4, ?_, ?_, ?_, ?_⟩
    · simp only [insert, hdesc, eD, rebalance, e3, e4, Option.bind_eq_bind, Option.some_bind]
    · intro hb
      exact absurd hb hnle
    · intro hb
      exact absurd hb hnle
    · intro hb
      obtain ⟨y0, b, vy, hy, c, rfl, hin⟩ := hshape hb
      have hy0 := repD.2.2.1
      refine ⟨y0, vy.1, ?_, ?_, fun hn => ?_⟩
      · simp only [getRight, repD.1, Option.map_some', Tree.ptr_node]
      · simp only [getKey, hy0, Option.map_some']
      · obtain ⟨z0, bl, vz, hz, br, rfl⟩ := hin hn
        exact ⟨z0, by simp only [getLeft, hy0, Option.map_some', Tree.ptr_node]⟩

/-- C15: on a container built by insert calls and for every further inserted pair, at
every recursion level of the key-routing `insert` (the call on any subtree `s` of the
tree, with its root `x`, from the store the call finds, which is the container's store
because the descent writes nothing before the recursive call returns), the descent,
the height update and the first `if` succeed, and when the first `if` fired
(`balance > 1`) the balance factor of the subtree root it leaves is not `< -1`, so the
second `if` does not fire as well. -/
theorem C15_one_branch_per_level (es : List (T1 × T2)) (e : T1 × T2) :
    ∃ c t, build es = some c ∧ c.tree = some t ∧
      ∀ s ∈ t.subtrees, ∀ x, s.ptr = some x → ∀ fuel, s.depth ≤ fuel →
        ∃ h1 h2 b1 h3 y b2 h4 z,
          insert_descend (fun h p => insert fuel h p e) c.heap x e = some h1 ∧
          update_height h1 x = some h2 ∧
          balance_factor h2 x = some b1 ∧ rebalance_left h2 x e = some (h3, y) ∧
          balance_factor h3 y = some b2 ∧ rebalance_right h3 y e = some (h4, z) ∧
          insert (fuel + 1) c.heap (some x) e = some (h4, z) ∧
          (b1 > 1 → ¬ b2 < -1) := by
  obtain ⟨c, t, hb, hg, -, -, -⟩ := build_good es
  refine ⟨c, t, hb, hg.tree, fun s hs x hx fuel hf => ?_⟩
  obtain ⟨p, hrep, hnd, hinv, -⟩ := hg.rep.subtree hg.nodup hg.inv s hs
  cases s with
  | nil => simp at hx
  | node x' l v ht r =>
    simp only [Tree.ptr_node, Option.some.injEq] at hx
    subst hx
    obtain ⟨h1, h2, b1, h3, y, b2, h4, z, e1, e2, e3, e4, e5, e6, e7, e8, -, -⟩ :=
      level_rep e fuel hrep hnd hinv hf
    exact ⟨h1, h2, b1, h3, y, b2, h4, z, e1, e2, e3, e4, e5, e6, e7, e8⟩

/-- C16: on a container built by insert calls and for every further inserted pair, at
every recursion level of the key-routing `insert`: when the first `if` fires, `node->left`
is present and its key can be read, and in the left-right case `node->left->right` is
present; when the second `if` fires, `node->right` is present and its key can be read,
and in the right-left case `node->right->left` is present; and both `if`s run to the
end, so every rotation they call, the outer rotation of a double case included, found
the child it promotes. -/
theorem C16_rotation_preconditions (es : List (T1 × T2)) (e : T1 × T2) :
    ∃ c t, build es = some c ∧ c.tree = some t ∧
      ∀ s ∈ t.subtrees, ∀ x, s.ptr = some x → ∀ fuel, s.depth ≤ fuel →
        ∃ h1 h2 b1 h3 y b2 h4 z,
          insert_descend (fun h p => insert fuel h p e) c.heap x e = some h1 ∧
          update_height h1 x = some h2 ∧
          balance_factor h2 x = some b1 ∧ rebalance_left h2 x e = some (h3, y) ∧
          balance_factor h3 y = some b2 ∧ rebalance_right h3 y e = some (h4, z) ∧
          insert (fuel + 1) c.heap (some x) e = some (h4, z) ∧
          (b1 > 1 → ∃ lc kl, getLeft h2 x = some (some lc) ∧ getKey h2 lc = some kl ∧
            (¬ e.1 ≤ kl → ∃ lr, getRight h2 lc = some (some lr))) ∧
          (b2 < -1 → ∃ rc kr, getRight h3 y = some (some rc) ∧ getKey h3 rc = some kr ∧
            (¬ e.1 > kr → ∃ rl, getLeft h3 rc = some (some rl))) := by
  obtain ⟨c, t, hb, hg, -, -, -⟩ := build_good es
  refine ⟨c, t, hb, hg.tree, fun s hs x hx fuel hf => ?_⟩
  obtain ⟨p, hrep, hnd, hinv, -⟩ := hg.rep.subtree hg.nodup hg.inv s hs
  cases s with
  | nil => simp at hx
  | node x' l v ht r =>
    simp only [Tree.ptr_node, Option.some.injEq] at hx
    subst hx
    obtain ⟨h1, h2, b1, h3, y, b2, h4, z, e1, e2, e3, e4, e5, e6, e7, -, e9, e10⟩ :=
      level_rep e fuel hrep hnd hinv hf
    exact ⟨h1, h2, b1, h3, y, b2, h4, z, e1, e2, e3, e4, e5, e6, e7, e9, e10⟩

end Level2

end AVL
